import Mathlib

/-!
# LLVMSimpleObfuscator: a verification development

A shallow embedding of `LLVMSimpleObfuscator.cpp` (a function pass that hides every
value-returning `ret` behind an opaque predicate) together with a small executable
semantics of the IR fragment the pass reads and emits.

Conventions of the embedding
* A `BasicBlock *` is the position of the block in its function. The pass only ever
  appends blocks, so a position denotes the same block for the whole run.
* An `Instruction *` is the `id` of the instruction. A newly built instruction gets an
  id above every id that occurs in the function (a fresh heap object).
* `IRBuilder` calls are explicit edits of the function: insertion at the beginning of
  a block, or appending at its end.
-/

namespace LLVMSimpleObfuscator

/-! ## IR data model -/

/-- First-class types: integers of a given bit width, and pointers. -/
inductive Ty where
  | int (w : Nat)
  | ptr
  deriving DecidableEq, Repr

/-- Linkage kinds of a global variable. -/
inductive Linkage where
  | externalLinkage
  | internalLinkage
  | privateLinkage
  | commonLinkage
  deriving DecidableEq, Repr

/-- Operands. Every operand carries its type, as an `llvm::Value` does. -/
inductive Value where
  | constInt (w : Nat) (n : Nat)
  | poison (ty : Ty)
  | argument (ty : Ty) (idx : Nat)
  | inst (ty : Ty) (id : Nat)
  | global (name : String)
  deriving DecidableEq, Repr

/-- The type of an operand, `Value::getType`. -/
def Value.getType : Value → Ty
  | .constInt w _ => .int w
  | .poison ty => ty
  | .argument ty _ => ty
  | .inst ty _ => ty
  | .global _ => .ptr

/-- Integer binary operators. -/
inductive BinOp where
  | add | sub | mul | and | or | xor
  deriving DecidableEq, Repr

/-- Integer comparison predicates (unsigned). -/
inductive Pred where
  | eq | ne | ult | ule
  deriving DecidableEq, Repr

/-- Instruction kinds. Branch targets are block positions. -/
inductive Op where
  | ret (v : Option Value)
  | br (dest : Nat)
  | condBr (cond : Value) (ifTrue ifFalse : Nat)
  | unreachable
  | alloca (ty : Ty) (name : String)
  | store (val addr : Value)
  | load (ty : Ty) (addr : Value)
  | binop (k : BinOp) (lhs rhs : Value)
  | icmp (p : Pred) (lhs rhs : Value)
  deriving DecidableEq, Repr

/-- An instruction: its identity and what it does. -/
structure Instr where
  id : Nat
  op : Op
  deriving DecidableEq, Repr

/-- Terminator kinds, `Instruction::isTerminator`. -/
def Instr.isTerminator (i : Instr) : Bool :=
  match i.op with
  | .ret _ => true
  | .br _ => true
  | .condBr _ _ _ => true
  | .unreachable => true
  | _ => false

/-- A basic block: a name and its instruction list. -/
structure BasicBlock where
  name : String
  instrs : List Instr
  deriving DecidableEq, Repr

/-- A function: its blocks in layout order; the first one is the entry block. -/
structure Function where
  blocks : List BasicBlock
  deriving DecidableEq, Repr

/-- A module-scoped storage cell. -/
structure GlobalVariable where
  name : String
  valueType : Ty
  linkage : Linkage
  initializer : Option Value
  deriving DecidableEq, Repr

/-- A module, as far as the pass touches it: its named cells. -/
structure Module where
  globals : List GlobalVariable
  deriving DecidableEq, Repr

/-- What a pass reports to the pass manager. -/
inductive PreservedAnalyses where
  | none
  | all
  deriving DecidableEq, Repr

/-- The report of the spec: the structure changed unless all analyses are preserved. -/
def structureChanged (pa : PreservedAnalyses) : Bool :=
  match pa with
  | .none => true
  | .all => false

/-! ## Module and function edits used by the pass -/

/-- Lookup of a global by name, `Module::getNamedGlobal`. -/
def Module.getNamedGlobal (M : Module) (name : String) : Option GlobalVariable :=
  M.globals.find? (fun g => g.name = name)

/-- `Module::getOrInsertGlobal`: an existing global of that name is kept as it is,
otherwise a declaration with external linkage and no initializer is added. -/
def Module.getOrInsertGlobal (M : Module) (name : String) (ty : Ty) : Module :=
  match M.getNamedGlobal name with
  | some _ => M
  | none => ⟨M.globals ++ [⟨name, ty, .externalLinkage, none⟩]⟩

/-- Apply `f` to the first global called `name`. -/
def updateNamed (name : String) (f : GlobalVariable → GlobalVariable) :
    List GlobalVariable → List GlobalVariable
  | [] => []
  | g :: gs => if g.name = name then f g :: gs else g :: updateNamed name f gs

/-- `GlobalValue::setLinkage` on the global found under `name`. -/
def Module.setLinkage (M : Module) (name : String) (l : Linkage) : Module :=
  ⟨updateNamed name (fun g => { g with linkage := l }) M.globals⟩

/-- `GlobalVariable::setInitializer` on the global found under `name`. The library's
debug assertion that the initializer has the value type of the global is not part of
the model. -/
def Module.setInitializer (M : Module) (name : String) (v : Value) : Module :=
  ⟨updateNamed name (fun g => { g with initializer := some v }) M.globals⟩

/-- `BasicBlock::getTerminator`: the last instruction if it is a terminator. -/
def BasicBlock.getTerminator (b : BasicBlock) : Option Instr :=
  match b.instrs.getLast? with
  | some i => if i.isTerminator then some i else none
  | none => none

/-- Edit the block at position `i`. -/
def Function.modifyBlock (F : Function) (i : Nat) (f : BasicBlock → BasicBlock) : Function :=
  ⟨F.blocks.modify f i⟩

/-- Builder positioned at the beginning of block `i`: the instruction goes first. -/
def Function.insertAtBegin (F : Function) (i : Nat) (ins : Instr) : Function :=
  F.modifyBlock i (fun b => { b with instrs := ins :: b.instrs })

/-- Builder positioned at the end of block `i`: the instruction goes last. -/
def Function.append (F : Function) (i : Nat) (ins : Instr) : Function :=
  F.modifyBlock i (fun b => { b with instrs := b.instrs ++ [ins] })

/-- `Instruction::eraseFromParent` for the instruction `id` of block `i`. Identities are
distinct within a block of a real function (`DistinctIds` below), so this removes that
one instruction. -/
def Function.eraseFromParent (F : Function) (i : Nat) (id : Nat) : Function :=
  F.modifyBlock i (fun b => { b with instrs := b.instrs.filter (fun x => x.id ≠ id) })

/-- `BasicBlock::Create(Ctx, name, F)`: a new empty block at the end of the function. -/
def Function.createBlock (F : Function) (name : String) : Function :=
  ⟨F.blocks ++ [⟨name, []⟩]⟩

/-! ## Fresh instruction identities -/

/-- The instruction an operand refers to, if any. -/
def Value.maxId : Value → Nat
  | .inst _ id => id
  | _ => 0

/-- The largest instruction id among the operands. -/
def Op.maxId : Op → Nat
  | .ret (some v) => v.maxId
  | .ret none => 0
  | .br _ => 0
  | .condBr c _ _ => c.maxId
  | .unreachable => 0
  | .alloca _ _ => 0
  | .store v p => max v.maxId p.maxId
  | .load _ p => p.maxId
  | .binop _ a b => max a.maxId b.maxId
  | .icmp _ a b => max a.maxId b.maxId

/-- The largest id an instruction defines or uses. -/
def Instr.maxId (i : Instr) : Nat := max i.id i.op.maxId

/-- The largest id of a list of instructions. -/
def maxIdList : List Instr → Nat
  | [] => 0
  | i :: is => max i.maxId (maxIdList is)

/-- The largest id of a block. -/
def BasicBlock.maxId (b : BasicBlock) : Nat := maxIdList b.instrs

/-- The largest id of a list of blocks. -/
def maxIdBlocks : List BasicBlock → Nat
  | [] => 0
  | b :: bs => max b.maxId (maxIdBlocks bs)

/-- The largest id of a function. -/
def Function.maxId (F : Function) : Nat := maxIdBlocks F.blocks

/-- The identity of the next instruction to be built: above everything in `F`. -/
def Function.freshId (F : Function) : Nat := F.maxId + 1

/-! ## The pass -/

/-- `BasicBlockObfuscator::shouldObfuscate` on block `BB` of `F`. The result is `none`
when there is no terminator to inspect: `dyn_cast` is applied to a null pointer. -/
def shouldObfuscate (F : Function) (BB : Nat) : Option Bool :=
  match F.blocks[BB]? with
  | none => none
  | some blk =>
    match blk.getTerminator with
    | none => none
    | some RI =>
      match RI.op with
      | .ret (some _) => some true
      | _ => some false

/-- `BasicBlockObfuscator::generateOpaquePredicate`: declares the cell `bbo`, appends
`(bbo * (bbo + 1) & 1) == 0` to block `BB` and returns the comparison. `base` is the
identity of the first instruction built here. -/
def generateOpaquePredicate (M : Module) (F : Function) (BB : Nat) (base : Nat) :
    Module × Function × Value :=
  let M := M.getOrInsertGlobal "bbo" (.int 32)
  let M := M.setLinkage "bbo" .commonLinkage
  let M := M.setInitializer "bbo" (.constInt 32 0)
  let F := F.append BB ⟨base, .load (.int 32) (.global "bbo")⟩
  let GlobalIntVal := Value.inst (.int 32) base
  let F := F.append BB ⟨base + 1, .binop .add GlobalIntVal (.constInt 32 1)⟩
  let Add1 := Value.inst (.int 32) (base + 1)
  let F := F.append BB ⟨base + 2, .binop .mul GlobalIntVal Add1⟩
  let MulAdd1 := Value.inst (.int 32) (base + 2)
  let F := F.append BB ⟨base + 3, .binop .and MulAdd1 (.constInt 32 1)⟩
  let LHS := Value.inst (.int 32) (base + 3)
  let F := F.append BB ⟨base + 4, .icmp .eq LHS (.constInt 32 0)⟩
  (M, F, Value.inst (.int 1) (base + 4))

/-- `BasicBlockObfuscator::insertBogusControlFlow` on block `BB` of `F`. The result is
`none` when `BB` does not end in a `ret` with a value (`cast<ReturnInst>` fails, or the
return value is null). -/
def insertBogusControlFlow (M : Module) (F : Function) (BB : Nat) :
    Option (Module × Function) :=
  match F.blocks[BB]? with
  | none => none
  | some blk =>
    match blk.getTerminator with
    | none => none
    | some RI =>
      match RI.op with
      | .ret (some retVal) =>
        let base := F.freshId
        let RTy := retVal.getType
        -- res.slot, first instruction of the entry block
        let F := F.insertAtBegin 0 ⟨base, .alloca RTy "res.slot"⟩
        let RetVal := Value.inst .ptr base
        let FakeBB := F.blocks.length
        let F := F.createBlock "assign_fake"
        let OriginalBB := F.blocks.length
        let F := F.createBlock "assign_correct"
        let ReturnBB := F.blocks.length
        let F := F.createBlock "new_return"
        -- opaque predicate and branch, at the end of BB
        let (M, F, OpaquePred) := generateOpaquePredicate M F BB (base + 1)
        let F := F.append BB ⟨base + 6, .condBr OpaquePred OriginalBB FakeBB⟩
        let F := F.append OriginalBB ⟨base + 7, .store retVal RetVal⟩
        let F := F.append OriginalBB ⟨base + 8, .br ReturnBB⟩
        -- remove the original return
        let F := F.eraseFromParent BB RI.id
        let F := F.append FakeBB ⟨base + 9, .store (.poison RTy) RetVal⟩
        let F := F.append FakeBB ⟨base + 10, .br ReturnBB⟩
        let F := F.append ReturnBB ⟨base + 11, .load RTy RetVal⟩
        let F := F.append ReturnBB ⟨base + 12, .ret (some (.inst RTy (base + 11)))⟩
        some (M, F)
      | _ => none

/-- The loop of `SimpleObfuscatorPass::run` over the snapshot `FnBBs`. -/
def runLoop (M : Module) (F : Function) : List Nat → Option (Module × Function)
  | [] => some (M, F)
  | BB :: rest =>
    match shouldObfuscate F BB with
    | none => none
    | some true =>
      match insertBogusControlFlow M F BB with
      | none => none
      | some (M', F') => runLoop M' F' rest
    | some false => runLoop M F rest

/-- `SimpleObfuscatorPass::run`: snapshot the blocks, rewrite the eligible ones, report
`PreservedAnalyses::none()`. -/
def run (M : Module) (F : Function) : Option (Module × Function × PreservedAnalyses) :=
  match runLoop M F (List.range F.blocks.length) with
  | none => none
  | some (M', F') => some (M', F', PreservedAnalyses.none)

/-! ## Execution of the IR fragment

An executable semantics for the instructions above, used to state what the rewritten
function computes. Integers are naturals reduced modulo `2 ^ w`; poison is a run-time
value that propagates through arithmetic and may be stored and loaded; a branch on
poison is undefined behaviour. Every `alloca` instruction owns one stack cell, named by
the identity of the instruction; the cell is created uninitialised (it reads as poison)
when the instruction executes. A call starts with an empty frame. -/

/-- Memory addresses: a module cell, or the stack cell owned by an `alloca`. -/
inductive Addr where
  | global (name : String)
  | stack (id : Nat)
  deriving DecidableEq, Repr

/-- Run-time values. -/
inductive RVal where
  | int (n : Nat)
  | ptr (a : Addr)
  | poison
  deriving DecidableEq, Repr

/-- Machine state of one activation: SSA registers, module cells, stack cells. A cell
that holds `none` is not allocated. -/
structure State where
  env : Nat → Option RVal
  globals : String → Option RVal
  stack : Nat → Option RVal

/-- Bind register `id` to `v`. -/
def State.setReg (s : State) (id : Nat) (v : RVal) : State :=
  { s with env := fun k => if k = id then some v else s.env k }

/-- Contents of a memory cell. -/
def State.read (s : State) : Addr → Option RVal
  | .global name => s.globals name
  | .stack k => s.stack k

/-- Overwrite an allocated memory cell; `none` when the cell is not allocated. -/
def State.write (s : State) (a : Addr) (v : RVal) : Option State :=
  match a with
  | .global name =>
    match s.globals name with
    | some _ => some { s with globals := fun k => if k = name then some v else s.globals k }
    | none => none
  | .stack id =>
    match s.stack id with
    | some _ => some { s with stack := fun k => if k = id then some v else s.stack k }
    | none => none

/-- Value of an operand. -/
def evalValue (args : List RVal) (s : State) : Value → Option RVal
  | .constInt w n => some (.int (n % 2 ^ w))
  | .poison _ => some .poison
  | .argument _ i => args[i]?
  | .inst _ id => s.env id
  | .global name => some (.ptr (.global name))

/-- Wrapping arithmetic at width `w`. -/
def BinOp.eval (k : BinOp) (w : Nat) (x y : Nat) : Nat :=
  match k with
  | .add => (x + y) % 2 ^ w
  | .sub => (x + (2 ^ w - y % 2 ^ w)) % 2 ^ w
  | .mul => (x * y) % 2 ^ w
  | .and => (x &&& y) % 2 ^ w
  | .or => (x ||| y) % 2 ^ w
  | .xor => (x ^^^ y) % 2 ^ w

/-- A binary operator on run-time values: poison is contagious, pointers are no
integers. -/
def evalBinOp (k : BinOp) (w : Nat) : RVal → RVal → Option RVal
  | .int x, .int y => some (.int (k.eval w x y))
  | .ptr _, _ => none
  | _, .ptr _ => none
  | _, _ => some .poison

/-- Truth value of a comparison. -/
def Pred.eval (p : Pred) (x y : Nat) : Bool :=
  match p with
  | .eq => x == y
  | .ne => x != y
  | .ult => x < y
  | .ule => x ≤ y

/-- A comparison on run-time values, as an `i1`. -/
def evalICmp (p : Pred) : RVal → RVal → Option RVal
  | .int x, .int y => some (.int (if p.eval x y then 1 else 0))
  | .ptr _, _ => none
  | _, .ptr _ => none
  | _, _ => some .poison

/-- What one instruction does. -/
inductive Ctl where
  | next (s : State)
  | jump (dest : Nat) (s : State)
  | done (v : Option RVal) (s : State)
  | ub

/-- One instruction. Undefined behaviour is `Ctl.ub`: a branch on poison or on a
non-boolean, a memory access through a non-pointer or to a cell that is not allocated,
an operand without a value, `unreachable`. -/
def execInstr (args : List RVal) (s : State) (i : Instr) : Ctl :=
  match i.op with
  | .ret none => .done none s
  | .ret (some v) =>
    match evalValue args s v with
    | some r => .done (some r) s
    | none => .ub
  | .br d => .jump d s
  | .condBr c t f =>
    match evalValue args s c with
    | some (.int n) => if n = 1 then .jump t s else if n = 0 then .jump f s else .ub
    | _ => .ub
  | .unreachable => .ub
  | .alloca _ _ =>
    .next { (s.setReg i.id (.ptr (.stack i.id))) with
            stack := fun k => if k = i.id then some .poison else s.stack k }
  | .store v p =>
    match evalValue args s v, evalValue args s p with
    | some r, some (.ptr a) =>
      match s.write a r with
      | some s' => .next s'
      | none => .ub
    | _, _ => .ub
  | .load _ p =>
    match evalValue args s p with
    | some (.ptr a) =>
      match s.read a with
      | some r => .next (s.setReg i.id r)
      | none => .ub
    | _ => .ub
  | .binop k a b =>
    match a.getType, evalValue args s a, evalValue args s b with
    | .int w, some x, some y =>
      match evalBinOp k w x y with
      | some r => .next (s.setReg i.id r)
      | none => .ub
    | _, _, _ => .ub
  | .icmp p a b =>
    match evalValue args s a, evalValue args s b with
    | some x, some y =>
      match evalICmp p x y with
      | some r => .next (s.setReg i.id r)
      | none => .ub
    | _, _ => .ub

/-- Run instructions in order up to the first transfer of control; `Ctl.next` when
the whole list ran without one. -/
def execInstrs (args : List RVal) : List Instr → State → Ctl
  | [], s => .next s
  | i :: rest, s =>
    match execInstr args s i with
    | .next s' => execInstrs args rest s'
    | .jump d s' => .jump d s'
    | .done v s' => .done v s'
    | .ub => .ub

/-- Result of running a function with a bound on the number of blocks entered. -/
inductive Outcome where
  | returned (v : Option RVal) (s : State)
  | ub
  | timeout

/-- Run `F` from the beginning of block `b`, entering at most `fuel` blocks. Leaving a
block without a terminator, or entering a block that does not exist, is undefined
behaviour. -/
def execFrom (F : Function) (args : List RVal) : Nat → Nat → State → Outcome
  | 0, _, _ => .timeout
  | fuel + 1, b, s =>
    match F.blocks[b]? with
    | none => .ub
    | some blk =>
      match execInstrs args blk.instrs s with
      | .jump d s' => execFrom F args fuel d s'
      | .done v s' => .returned v s'
      | .next _ => .ub
      | .ub => .ub

/-- The state in which a call starts: no register bound, an empty frame, and the
module cells as given. -/
def State.initial (globals : String → Option RVal) : State :=
  ⟨fun _ => none, globals, fun _ => none⟩

/-- Call `F` on `args` with the module cells `globals`. -/
def execute (F : Function) (args : List RVal) (globals : String → Option RVal)
    (fuel : Nat) : Outcome :=
  execFrom F args fuel 0 (State.initial globals)

/-- The returned value: `some (some v)` for `ret v`, `some none` for a bare `ret`,
`none` when the run did not return. -/
def Outcome.value : Outcome → Option (Option RVal)
  | .returned v _ => some v
  | _ => none

/-- Contents of a module cell when the run returned. -/
def Outcome.finalGlobal (name : String) : Outcome → Option RVal
  | .returned _ s => s.globals name
  | _ => none

/-- The function a driver run produces, when it completes. -/
def runFunction (M : Module) (F : Function) : Option Function :=
  (run M F).map (fun r => r.2.1)

/-! ## Well-formedness and closed forms used in the proofs -/

/-- Every block ends in a terminator. -/
def HasTerminators (F : Function) : Prop :=
  ∀ b ∈ F.blocks, b.getTerminator ≠ none

/-- Within a block, distinct instructions have distinct identities. -/
def DistinctIds (F : Function) : Prop :=
  ∀ b ∈ F.blocks, (b.instrs.map Instr.id).Nodup

/-- The blocks of `F` the analyzer accepts, in layout order. -/
def eligibleBlocks (F : Function) : List Nat :=
  (List.range F.blocks.length).filter (fun i => shouldObfuscate F i = some true)

/-- The instructions `generateOpaquePredicate` appends, first id `base`. -/
def predicateInstrs (base : Nat) : List Instr :=
  [⟨base, .load (.int 32) (.global "bbo")⟩,
   ⟨base + 1, .binop .add (.inst (.int 32) base) (.constInt 32 1)⟩,
   ⟨base + 2, .binop .mul (.inst (.int 32) base) (.inst (.int 32) (base + 1))⟩,
   ⟨base + 3, .binop .and (.inst (.int 32) (base + 2)) (.constInt 32 1)⟩,
   ⟨base + 4, .icmp .eq (.inst (.int 32) (base + 3)) (.constInt 32 0)⟩]

/-- The module after `generateOpaquePredicate`. -/
def declareBbo (M : Module) : Module :=
  ((M.getOrInsertGlobal "bbo" (.int 32)).setLinkage "bbo" .commonLinkage).setInitializer
    "bbo" (.constInt 32 0)

/-- The result slot a rewrite with first id `base` allocates. -/
def resSlot (base : Nat) (ty : Ty) : Instr := ⟨base, .alloca ty "res.slot"⟩

/-- The conditional branch a rewrite with first id `base` emits when the function has
`n` blocks. -/
def opaqueBranch (base n : Nat) : Instr :=
  ⟨base + 6, .condBr (.inst (.int 1) (base + 5)) (n + 1) n⟩

/-- The three blocks a rewrite with first id `base` adds to a function of `n` blocks,
in layout order. -/
def newBlocks (base n : Nat) (retVal : Value) : List BasicBlock :=
  [⟨"assign_fake", [⟨base + 9, .store (.poison retVal.getType) (.inst .ptr base)⟩,
                    ⟨base + 10, .br (n + 2)⟩]⟩,
   ⟨"assign_correct", [⟨base + 7, .store retVal (.inst .ptr base)⟩,
                       ⟨base + 8, .br (n + 2)⟩]⟩,
   ⟨"new_return", [⟨base + 11, .load retVal.getType (.inst .ptr base)⟩,
                   ⟨base + 12, .ret (some (.inst retVal.getType (base + 11)))⟩]⟩]

/-- Closed form of `insertBogusControlFlow` on block `BB`, whose terminator `RI`
returns `retVal`. -/
def rewriteAt (F : Function) (BB : Nat) (RI : Instr) (retVal : Value) : Function :=
  ⟨((F.blocks.modify
        (fun b => { b with instrs := resSlot F.freshId retVal.getType :: b.instrs }) 0).modify
        (fun b => { b with instrs := b.instrs.filter (fun x => x.id ≠ RI.id) ++
            (predicateInstrs (F.freshId + 1) ++
              [opaqueBranch F.freshId F.blocks.length]) }) BB)
      ++ newBlocks F.freshId F.blocks.length retVal⟩

/-! ## Example functions -/

/-- Scenario A: `add(a, b)`, a single block `return a + b`. -/
def addF : Function :=
  ⟨[⟨"entry", [⟨1, .binop .add (.argument (.int 32) 0) (.argument (.int 32) 1)⟩,
               ⟨2, .ret (some (.inst (.int 32) 1))⟩]⟩]⟩

/-- Scenario B: a function returning void, a single block ending in a bare `ret`. -/
def voidF : Function := ⟨[⟨"entry", [⟨1, .ret none⟩]⟩]⟩

/-- Scenario C: two value-returning blocks, the two arms of a branch in the entry
block. -/
def twoReturnsF : Function :=
  ⟨[⟨"entry", [⟨1, .icmp .eq (.argument (.int 32) 0) (.constInt 32 0)⟩,
               ⟨2, .condBr (.inst (.int 1) 1) 1 2⟩]⟩,
    ⟨"then", [⟨3, .ret (some (.constInt 32 10))⟩]⟩,
    ⟨"else", [⟨4, .binop .add (.argument (.int 32) 0) (.constInt 32 1)⟩,
              ⟨5, .ret (some (.inst (.int 32) 4))⟩]⟩]⟩

/-- A function that overwrites the cell `bbo` with poison and then returns 5. -/
def poisonBboF : Function :=
  ⟨[⟨"entry", [⟨1, .store (.poison (.int 32)) (.global "bbo")⟩,
               ⟨2, .ret (some (.constInt 32 5))⟩]⟩]⟩

/-- Module cells in which `bbo` holds `x` and nothing else is allocated. -/
def bboCell (x : Nat) : String → Option RVal :=
  fun name => if name = "bbo" then some (.int x) else none

/-! ## Observations and relations used in the statements and proofs -/

/-- The state after the five predicate instructions, when `bbo` holds `x`. -/
def afterPredicate (s : State) (base x : Nat) : State :=
  ((((s.setReg base (.int x)).setReg (base + 1) (.int (BinOp.add.eval 32 x 1))).setReg
    (base + 2) (.int (BinOp.mul.eval 32 x (BinOp.add.eval 32 x 1)))).setReg
    (base + 3) (.int 0)).setReg (base + 4) (.int 1)

/-- The members of `l` the analyzer accepts in `F`. -/
def eligibleIn (F : Function) (l : List Nat) : List Nat :=
  l.filter (fun i => shouldObfuscate F i = some true)

/-- The blocks on which the loop of `run` invokes the rewriter, in order of invocation. -/
def rewriterCalls (M : Module) (F : Function) : List Nat → List Nat
  | [] => []
  | BB :: rest =>
    match shouldObfuscate F BB with
    | some true =>
      match insertBogusControlFlow M F BB with
      | some (M', F') => BB :: rewriterCalls M' F' rest
      | none => [BB]
    | some false => rewriterCalls M F rest
    | none => []

/-- The values stored by the `store` instructions of a block, in order. -/
def storedValues (b : BasicBlock) : List Value :=
  b.instrs.filterMap (fun i => match i.op with | .store v _ => some v | _ => none)

/-- Recognises the poison constant. -/
def Value.isPoison : Value → Bool
  | .poison _ => true
  | _ => false

/-- Recognises an `alloca` called `res.slot`. -/
def Instr.isResSlot (i : Instr) : Bool :=
  match i.op with
  | .alloca _ name => decide (name = "res.slot")
  | _ => false

/-- The number of result slots of `F` whose identity is `bound` or above. With `bound`
the first fresh id of the function before a run, these are the slots the run
introduced. -/
def slotCount (bound : Nat) (F : Function) : Nat :=
  (F.blocks.map (fun b => b.instrs.countP (fun i => i.isResSlot && decide (bound ≤ i.id)))).sum

/-- The terminators of the blocks in `l` are older than `bound`, and `bound` is not
above the first fresh id of `F`. -/
def OldTerminators (bound : Nat) (F : Function) (l : List Nat) : Prop :=
  bound ≤ F.freshId ∧
    ∀ i ∈ l, ∀ t, (F.blocks[i]?).map BasicBlock.getTerminator = some (some t) → t.id < bound

/-- The addresses the `store` instructions of a block write to, in order. -/
def storeAddrs (b : BasicBlock) : List Value :=
  b.instrs.filterMap (fun i => match i.op with | .store _ p => some p | _ => none)

/-- Simulation relation between a state `s` of the original function and a state `s'`
of the rewritten one, where `B` is the identity of the result slot: the states agree on
everything older than `B`, the original run owns no cell from `B` on, and the result
slot is allocated and bound in `s'`. -/
def Rel (B : Nat) (s s' : State) : Prop :=
  (∀ i, i < B → s'.env i = s.env i) ∧ s'.globals = s.globals ∧
  (∀ i, i < B → s'.stack i = s.stack i) ∧ (∀ i, B ≤ i → s.stack i = none) ∧
  s'.env B = some (.ptr (.stack B)) ∧ s'.stack B ≠ none

/-- The part of `Rel` that holds before the result slot is allocated. -/
def Agree (B : Nat) (s s' : State) : Prop :=
  (∀ i, i < B → s'.env i = s.env i) ∧ s'.globals = s.globals ∧
  (∀ i, i < B → s'.stack i = s.stack i) ∧ (∀ i, B ≤ i → s.stack i = none)

/-- Simulation of one step: whatever the original does, short of undefined behaviour,
the rewritten function does too, in related states. -/
def CtlSim (B : Nat) : Ctl → Ctl → Prop
  | .next s, c' => ∃ s', c' = .next s' ∧ Rel B s s'
  | .jump d s, c' => ∃ s', c' = .jump d s' ∧ Rel B s s'
  | .done v s, c' => ∃ s', c' = .done v s' ∧ Rel B s s'
  | .ub, _ => True

/-- The cell `bbo` as `generateOpaquePredicate` leaves it when it had to create it. -/
def bboGlobal : GlobalVariable :=
  ⟨"bbo", .int 32, .commonLinkage, some (.constInt 32 0)⟩

/-- One rewrite inside a module with functions `st.2`: block `p.2` of function `p.1`. -/
def rewriteStep (st : Module × List Function) (p : Nat × Nat) :
    Option (Module × List Function) :=
  match st.2[p.1]? with
  | none => none
  | some F =>
    match insertBogusControlFlow st.1 F p.2 with
    | none => none
    | some (M', F') => some (M', st.2.set p.1 F')

/-- A sequence of rewrites in one module, each on a block of one of its functions. -/
def rewriteSeq : Module × List Function → List (Nat × Nat) → Option (Module × List Function)
  | st, [] => some st
  | st, p :: ps =>
    match rewriteStep st p with
    | none => none
    | some st' => rewriteSeq st' ps

/-- A module with a cell `bbo` of external linkage and initializer 7. -/
def bboModule : Module :=
  ⟨[⟨"counter", .int 32, .internalLinkage, some (.constInt 32 1)⟩,
    ⟨"bbo", .int 32, .externalLinkage, some (.constInt 32 7)⟩]⟩

/-- The blocks an instruction may transfer control to. -/
def Instr.targets (i : Instr) : List Nat :=
  match i.op with
  | .br d => [d]
  | .condBr _ t f => [t, f]
  | _ => []

/-- A block has exactly one terminator and it is its last instruction. -/
def BasicBlock.WellFormed (b : BasicBlock) : Prop :=
  b.instrs.countP Instr.isTerminator = 1 ∧ b.getTerminator ≠ none

/-- Every branch of `F` goes to a block of `F`. -/
def TargetsInRange (F : Function) : Prop :=
  ∀ b ∈ F.blocks, ∀ x ∈ b.instrs, ∀ d ∈ x.targets, d < F.blocks.length

/-- The operands of an instruction. -/
def Op.operands : Op → List Value
  | .ret v => v.toList
  | .br _ => []
  | .condBr c _ _ => [c]
  | .unreachable => []
  | .alloca _ _ => []
  | .store v p => [v, p]
  | .load _ p => [p]
  | .binop _ a b => [a, b]
  | .icmp _ a b => [a, b]

/-- An instruction mentions the module cell `name` when the cell is one of its
operands. -/
def Instr.mentions (i : Instr) (name : String) : Bool :=
  decide (Value.global name ∈ i.op.operands)

/-- A function whose only block returns the address of the cell `bbo`. -/
def bboAddrF : Function := ⟨[⟨"entry", [⟨1, .ret (some (.global "bbo"))⟩]⟩]⟩

/-! # Theorems -/

/-! ## Structure of one rewrite -/

theorem modify_append_lt {α : Type} (f : α → α) (r : List α) :
    ∀ (l : List α) (i : Nat), i < l.length → (l ++ r).modify f i = l.modify f i ++ r
  | [], i, h => by simp at h
  | a :: l, 0, _ => by simp
  | a :: l, i + 1, h => by
    have h' : i < l.length := by simpa using h
    simp [modify_append_lt f r l i h']

theorem modify_append_ge {α : Type} (f : α → α) (r : List α) :
    ∀ (l : List α) (j : Nat), (l ++ r).modify f (l.length + j) = l ++ r.modify f j
  | [], j => by simp
  | a :: l, j => by
    have := modify_append_ge f r l j
    simp [Nat.succ_add, this]

theorem append_blocks (F : Function) (i : Nat) (ins : Instr) :
    (F.append i ins).blocks =
      F.blocks.modify (fun b => { b with instrs := b.instrs ++ [ins] }) i := rfl

theorem generateOpaquePredicate_eq (M : Module) (F : Function) (BB base : Nat) :
    generateOpaquePredicate M F BB base =
      (declareBbo M,
       ⟨F.blocks.modify (fun b => { b with instrs := b.instrs ++ predicateInstrs base }) BB⟩,
       Value.inst (.int 1) (base + 4)) := by
  simp only [generateOpaquePredicate, declareBbo, Function.append, Function.modifyBlock,
    List.modify_modify_eq, predicateInstrs]
  refine Prod.ext rfl (Prod.ext ?_ rfl)
  simp only
  congr 2
  funext b
  simp [Function.comp]

theorem modify_append_ge' {α : Type} (f : α → α) (l r : List α) (n j : Nat)
    (h : l.length = n) : (l ++ r).modify f (n + j) = l ++ r.modify f j := by
  subst h; exact modify_append_ge f r l j

theorem id_le_maxIdList {i : Instr} : ∀ {l : List Instr}, i ∈ l → i.id ≤ maxIdList l
  | [], h => by simp at h
  | a :: l, h => by
    rcases List.mem_cons.1 h with h | h
    · subst h; simp [maxIdList, Instr.maxId]
    · have := id_le_maxIdList h
      simp only [maxIdList]; omega

theorem maxId_le_maxIdBlocks {b : BasicBlock} :
    ∀ {l : List BasicBlock}, b ∈ l → b.maxId ≤ maxIdBlocks l
  | [], h => by simp at h
  | a :: l, h => by
    rcases List.mem_cons.1 h with h | h
    · subst h; simp [maxIdBlocks]
    · have := maxId_le_maxIdBlocks h
      simp only [maxIdBlocks]; omega

theorem id_lt_freshId {F : Function} {b : BasicBlock} {i : Instr}
    (hb : b ∈ F.blocks) (hi : i ∈ b.instrs) : i.id < F.freshId := by
  have h1 := id_le_maxIdList hi
  have h2 := maxId_le_maxIdBlocks hb
  simp only [Function.freshId, Function.maxId, BasicBlock.maxId] at *
  omega

theorem getTerminator_mem {b : BasicBlock} {t : Instr} (h : b.getTerminator = some t) :
    t ∈ b.instrs := by
  unfold BasicBlock.getTerminator at h
  split at h
  · rename_i i hi
    split at h
    · cases h; exact List.mem_of_getLast?_eq_some hi
    · cases h
  · cases h

theorem insertBogusControlFlow_eq (M : Module) (F : Function) (BB : Nat) (blk : BasicBlock)
    (RI : Instr) (retVal : Value) (hblk : F.blocks[BB]? = some blk)
    (hRI : blk.getTerminator = some RI) (hop : RI.op = .ret (some retVal)) :
    insertBogusControlFlow M F BB = some (declareBbo M, rewriteAt F BB RI retVal) := by
  have hlt : BB < F.blocks.length := (List.getElem?_eq_some_iff.1 hblk).1
  have hmem : blk ∈ F.blocks := List.getElem?_mem hblk
  have hid : RI.id < F.freshId := id_lt_freshId hmem (getTerminator_mem hRI)
  simp only [insertBogusControlFlow, hblk, hRI, hop, generateOpaquePredicate_eq,
    Function.append, Function.modifyBlock, Function.createBlock, Function.insertAtBegin,
    Function.eraseFromParent, List.length_append, List.length_modify, List.length_singleton,
    List.append_assoc, List.singleton_append]
  have h1 : ∀ (f : BasicBlock → BasicBlock) (l r : List BasicBlock),
      l.length = F.blocks.length → (l ++ r).modify f BB = l.modify f BB ++ r :=
    fun f l r hl => modify_append_lt f r l BB (by omega)
  have h2 : ∀ (f : BasicBlock → BasicBlock) (l r : List BasicBlock) (j : Nat),
      l.length = F.blocks.length → (l ++ r).modify f (F.blocks.length + j) = l ++ r.modify f j :=
    fun f l r j hl => modify_append_ge' f l r _ j hl
  have h3 : ∀ (f : BasicBlock → BasicBlock) (l r : List BasicBlock),
      l.length = F.blocks.length → (l ++ r).modify f F.blocks.length = l ++ r.modify f 0 :=
    fun f l r hl => h2 f l r 0 hl
  simp only [List.length_cons, List.length_nil, List.cons_append, List.nil_append]
  rw [h1 _ _ _ (by simp), h1 _ _ _ (by simp), h2 _ _ _ _ (by simp), h2 _ _ _ _ (by simp),
    h1 _ _ _ (by simp), h3 _ _ _ (by simp), h3 _ _ _ (by simp), h2 _ _ _ _ (by simp),
    h2 _ _ _ _ (by simp)]
  simp only [List.modify_modify_eq, rewriteAt, newBlocks, resSlot, opaqueBranch]
  have hk : ∀ k, ¬ (F.freshId + k = RI.id) := fun k => by omega
  have hk1 : ∀ k, ¬ (F.freshId + 1 + k = RI.id) := fun k => by omega
  congr 4
  · congr 1
    funext b
    simp [Function.comp, predicateInstrs, List.filter_append, List.filter_cons, hk, hk1,
      Nat.add_assoc]

theorem shouldObfuscate_eq_true_iff {F : Function} {BB : Nat} :
    shouldObfuscate F BB = some true ↔
      ∃ blk RI retVal, F.blocks[BB]? = some blk ∧ blk.getTerminator = some RI ∧
        RI.op = .ret (some retVal) := by
  unfold shouldObfuscate
  constructor
  · intro h
    split at h
    · cases h
    · rename_i blk hblk
      split at h
      · cases h
      · rename_i RI hRI
        split at h
        · rename_i v hv
          exact ⟨blk, RI, v, hblk, hRI, hv⟩
        · cases h
  · rintro ⟨blk, RI, v, hblk, hRI, hop⟩
    simp [hblk, hRI, hop]

theorem shouldObfuscate_eq_false_iff {F : Function} {BB : Nat} :
    shouldObfuscate F BB = some false ↔
      ∃ blk RI, F.blocks[BB]? = some blk ∧ blk.getTerminator = some RI ∧
        ∀ retVal, RI.op ≠ .ret (some retVal) := by
  unfold shouldObfuscate
  constructor
  · intro h
    split at h
    · cases h
    · rename_i blk hblk
      split at h
      · cases h
      · rename_i RI hRI
        split at h
        · cases h
        · rename_i hne
          exact ⟨blk, RI, hblk, hRI, fun v hv => hne v hv⟩
  · rintro ⟨blk, RI, hblk, hRI, hop⟩
    simp only [hblk, hRI]

theorem shouldObfuscate_isSome_iff {F : Function} {BB : Nat} :
    shouldObfuscate F BB ≠ none ↔
      ∃ blk RI, F.blocks[BB]? = some blk ∧ blk.getTerminator = some RI := by
  unfold shouldObfuscate
  constructor
  · intro h
    split at h
    · exact absurd rfl h
    · rename_i blk hblk
      split at h
      · exact absurd rfl h
      · rename_i RI hRI
        exact ⟨blk, RI, hblk, hRI⟩
  · rintro ⟨blk, RI, hblk, hRI⟩
    simp only [hblk, hRI]
    split <;> simp

theorem rewriteAt_length (F : Function) (BB : Nat) (RI : Instr) (retVal : Value) :
    (rewriteAt F BB RI retVal).blocks.length = F.blocks.length + 3 := by
  simp [rewriteAt, newBlocks]

theorem rewriteAt_getElem?_new (F : Function) (BB : Nat) (RI : Instr) (retVal : Value)
    (j : Nat) :
    (rewriteAt F BB RI retVal).blocks[F.blocks.length + j]? =
      (newBlocks F.freshId F.blocks.length retVal)[j]? := by
  simp only [rewriteAt]
  rw [List.getElem?_append_right (by simp)]
  simp

theorem rewriteAt_getElem?_other (F : Function) (BB : Nat) (RI : Instr) (retVal : Value)
    {j : Nat} (hj : j < F.blocks.length) (hne : j ≠ BB) (h0 : j ≠ 0) :
    (rewriteAt F BB RI retVal).blocks[j]? = F.blocks[j]? := by
  simp only [rewriteAt]
  rw [List.getElem?_append_left (by simpa using hj)]
  rw [List.getElem?_modify_ne _ _ (Ne.symm hne), List.getElem?_modify_ne _ _ (Ne.symm h0)]

theorem rewriteAt_getElem?_entry (F : Function) (BB : Nat) (RI : Instr) (retVal : Value)
    {b : BasicBlock} (hb : F.blocks[0]? = some b) (hne : BB ≠ 0) :
    (rewriteAt F BB RI retVal).blocks[0]? =
      some ⟨b.name, resSlot F.freshId retVal.getType :: b.instrs⟩ := by
  have hj : 0 < F.blocks.length := (List.getElem?_eq_some_iff.1 hb).1
  simp only [rewriteAt]
  rw [List.getElem?_append_left (by simpa using hj)]
  rw [List.getElem?_modify_ne _ _ hne, List.getElem?_modify_eq, hb]
  rfl

theorem rewriteAt_getElem?_self (F : Function) (BB : Nat) (RI : Instr) (retVal : Value)
    {b : BasicBlock} (hb : F.blocks[BB]? = some b) (hid : RI.id < F.freshId) :
    (rewriteAt F BB RI retVal).blocks[BB]? =
      some ⟨b.name, (if BB = 0 then [resSlot F.freshId retVal.getType] else []) ++
        b.instrs.filter (fun x => x.id ≠ RI.id) ++
        (predicateInstrs (F.freshId + 1) ++ [opaqueBranch F.freshId F.blocks.length])⟩ := by
  have hj : BB < F.blocks.length := (List.getElem?_eq_some_iff.1 hb).1
  simp only [rewriteAt]
  rw [List.getElem?_append_left (by simpa using hj)]
  rw [List.getElem?_modify_eq]
  by_cases h0 : BB = 0
  · subst h0
    rw [List.getElem?_modify_eq, hb]
    have : ¬ (F.freshId = RI.id) := by omega
    simp [resSlot, List.filter_cons, this]
  · rw [List.getElem?_modify_ne _ _ (Ne.symm h0), hb]
    simp [h0]

theorem getTerminator_append_singleton (name : String) (l : List Instr) (t : Instr)
    (ht : t.isTerminator = true) :
    (BasicBlock.mk name (l ++ [t])).getTerminator = some t := by
  simp [BasicBlock.getTerminator, ht]

theorem runLoop_of_all_false (M : Module) (F : Function) :
    ∀ l : List Nat, (∀ i ∈ l, shouldObfuscate F i = some false) → runLoop M F l = some (M, F)
  | [], _ => rfl
  | i :: l, h => by
    have hi := h i (List.mem_cons_self _ _)
    simp only [runLoop, hi]
    exact runLoop_of_all_false M F l (fun j hj => h j (List.mem_cons_of_mem _ hj))

/-- Claim C3 (eligibility). For a block `BB` of `F` whose terminator is `t`,
`shouldObfuscate` answers `true` exactly when `t` is a `ret` that carries a value and
`false` otherwise; in particular it answers `false` for a bare `ret`, for an
unconditional branch and for a conditional branch. The query itself returns nothing but
its verdict, and on a `false` verdict the driver goes on with the module and the
function as they were. -/
theorem shouldObfuscate_spec (M : Module) (F : Function) (BB : Nat) (blk : BasicBlock) (t : Instr)
    (hblk : F.blocks[BB]? = some blk) (ht : blk.getTerminator = some t) :
    (shouldObfuscate F BB = some true ↔ ∃ v, t.op = .ret (some v)) ∧
    (shouldObfuscate F BB = some false ↔ ¬ ∃ v, t.op = .ret (some v)) ∧
    (t.op = .ret none → shouldObfuscate F BB = some false) ∧
    (∀ d, t.op = .br d → shouldObfuscate F BB = some false) ∧
    (∀ c d e, t.op = .condBr c d e → shouldObfuscate F BB = some false) ∧
    (∀ rest, shouldObfuscate F BB = some false →
      runLoop M F (BB :: rest) = runLoop M F rest) := by
  have hT : shouldObfuscate F BB = some true ↔ ∃ v, t.op = .ret (some v) := by
    rw [shouldObfuscate_eq_true_iff]
    constructor
    · rintro ⟨blk', RI, v, h1, h2, h3⟩
      rw [hblk] at h1; cases h1; rw [ht] at h2; cases h2; exact ⟨v, h3⟩
    · rintro ⟨v, hv⟩; exact ⟨blk, t, v, hblk, ht, hv⟩
  have hF : shouldObfuscate F BB = some false ↔ ¬ ∃ v, t.op = .ret (some v) := by
    rw [shouldObfuscate_eq_false_iff]
    constructor
    · rintro ⟨blk', RI, h1, h2, h3⟩ ⟨v, hv⟩
      rw [hblk] at h1; cases h1; rw [ht] at h2; cases h2; exact h3 v hv
    · intro h; exact ⟨blk, t, hblk, ht, fun v hv => h ⟨v, hv⟩⟩
  refine ⟨hT, hF, ?_, ?_, ?_, ?_⟩
  · intro h; rw [hF]; rintro ⟨v, hv⟩; rw [h] at hv; cases hv
  · intro d h; rw [hF]; rintro ⟨v, hv⟩; rw [h] at hv; cases hv
  · intro c d e h; rw [hF]; rintro ⟨v, hv⟩; rw [h] at hv; cases hv
  · intro rest h; simp only [runLoop, h]

theorem shouldObfuscate_spec_witness :
    (shouldObfuscate addF 0 = some true ↔
      ∃ v, (Instr.mk 2 (.ret (some (.inst (.int 32) 1)))).op = .ret (some v)) ∧
    (shouldObfuscate addF 0 = some false ↔
      ¬ ∃ v, (Instr.mk 2 (.ret (some (.inst (.int 32) 1)))).op = .ret (some v)) ∧
    ((Instr.mk 2 (.ret (some (.inst (.int 32) 1)))).op = .ret none →
      shouldObfuscate addF 0 = some false) ∧
    (∀ d, (Instr.mk 2 (.ret (some (.inst (.int 32) 1)))).op = .br d →
      shouldObfuscate addF 0 = some false) ∧
    (∀ c d e, (Instr.mk 2 (.ret (some (.inst (.int 32) 1)))).op = .condBr c d e →
      shouldObfuscate addF 0 = some false) ∧
    (∀ rest, shouldObfuscate addF 0 = some false →
      runLoop ⟨[]⟩ addF (0 :: rest) = runLoop ⟨[]⟩ addF rest) :=
  shouldObfuscate_spec ⟨[]⟩ addF 0 _ _ rfl rfl

/-- Claim C4 (structural delta of one rewrite). On an eligible block `BB`,
`insertBogusControlFlow` succeeds, the function has exactly three more blocks, and `BB`
now ends in a conditional branch (no longer a `ret`) whose condition is the value
`generateOpaquePredicate` returned, computed by the predicate instructions right in
front of it, whose true target is the new block `assign_correct` and whose false target
is the new block `assign_fake`. -/
theorem insertBogusControlFlow_delta (M : Module) (F : Function) (BB : Nat)
    (h : shouldObfuscate F BB = some true) :
    ∃ M' F' blk' t, insertBogusControlFlow M F BB = some (M', F') ∧
      F'.blocks.length = F.blocks.length + 3 ∧
      F'.blocks[BB]? = some blk' ∧ blk'.getTerminator = some t ∧
      t.op = .condBr (generateOpaquePredicate M F BB (F.freshId + 1)).2.2
        (F.blocks.length + 1) F.blocks.length ∧
      (∃ pre, blk'.instrs = pre ++ predicateInstrs (F.freshId + 1) ++ [t]) ∧
      (F'.blocks[F.blocks.length + 1]?).map BasicBlock.name = some "assign_correct" ∧
      (F'.blocks[F.blocks.length]?).map BasicBlock.name = some "assign_fake" := by
  obtain ⟨blk, RI, rv, hblk, hRI, hop⟩ := shouldObfuscate_eq_true_iff.1 h
  have hid : RI.id < F.freshId :=
    id_lt_freshId (List.getElem?_mem hblk) (getTerminator_mem hRI)
  refine ⟨declareBbo M, rewriteAt F BB RI rv, _, opaqueBranch F.freshId F.blocks.length,
    insertBogusControlFlow_eq M F BB blk RI rv hblk hRI hop, rewriteAt_length _ _ _ _,
    rewriteAt_getElem?_self F BB RI rv hblk hid, ?_, ?_, ?_, ?_, ?_⟩
  · simp only [← List.append_assoc]
    exact getTerminator_append_singleton _ _ _ rfl
  · simp [opaqueBranch, generateOpaquePredicate_eq, Nat.add_assoc]
  · exact ⟨(if BB = 0 then [resSlot F.freshId rv.getType] else []) ++
      blk.instrs.filter (fun x => x.id ≠ RI.id), by simp only [List.append_assoc]⟩
  · rw [rewriteAt_getElem?_new]; rfl
  · have := rewriteAt_getElem?_new F BB RI rv 0
    rw [Nat.add_zero] at this; rw [this]; rfl

theorem insertBogusControlFlow_delta_witness :
    ∃ M' F' blk' t, insertBogusControlFlow ⟨[]⟩ addF 0 = some (M', F') ∧
      F'.blocks.length = addF.blocks.length + 3 ∧
      F'.blocks[0]? = some blk' ∧ blk'.getTerminator = some t ∧
      t.op = .condBr (generateOpaquePredicate ⟨[]⟩ addF 0 (addF.freshId + 1)).2.2
        (addF.blocks.length + 1) addF.blocks.length ∧
      (∃ pre, blk'.instrs = pre ++ predicateInstrs (addF.freshId + 1) ++ [t]) ∧
      (F'.blocks[addF.blocks.length + 1]?).map BasicBlock.name = some "assign_correct" ∧
      (F'.blocks[addF.blocks.length]?).map BasicBlock.name = some "assign_fake" :=
  insertBogusControlFlow_delta ⟨[]⟩ addF 0 rfl

/-! ## The opaque predicate -/

theorem opaque_arith (x : Nat) :
    BinOp.and.eval 32 (BinOp.mul.eval 32 x (BinOp.add.eval 32 x 1)) 1 = 0 := by
  simp only [BinOp.eval, Nat.and_one_is_mod]
  have h1 : (x * ((x + 1) % 2 ^ 32) % 2 ^ 32) % 2 = 0 := by
    rw [Nat.mod_mod_of_dvd _ (by norm_num : 2 ∣ 2 ^ 32), Nat.mul_mod,
      Nat.mod_mod_of_dvd _ (by norm_num : 2 ∣ 2 ^ 32)]
    rcases Nat.mod_two_eq_zero_or_one x with h | h
    · simp [h]
    · have : (x + 1) % 2 = 0 := by omega
      simp [this]
  rw [h1]; rfl

theorem execInstrs_predicateInstrs (args : List RVal) (s : State) (base x : Nat)
    (hx : s.globals "bbo" = some (.int x)) :
    execInstrs args (predicateInstrs base) s = .next (afterPredicate s base x) := by
  have h := opaque_arith x
  have e1 : execInstr args s ⟨base, .load (.int 32) (.global "bbo")⟩ =
      .next (s.setReg base (.int x)) := by
    simp [execInstr, evalValue, State.read, hx]
  have e2 : ∀ s1 : State, s1.env base = some (.int x) →
      execInstr args s1 ⟨base + 1, .binop .add (.inst (.int 32) base) (.constInt 32 1)⟩ =
      .next (s1.setReg (base + 1) (.int (BinOp.add.eval 32 x 1))) := by
    intro s1 h1
    simp [execInstr, evalValue, Value.getType, evalBinOp, h1]
  have e3 : ∀ s1 : State, s1.env base = some (.int x) →
      s1.env (base + 1) = some (.int (BinOp.add.eval 32 x 1)) →
      execInstr args s1 ⟨base + 2, .binop .mul (.inst (.int 32) base) (.inst (.int 32) (base + 1))⟩ =
      .next (s1.setReg (base + 2) (.int (BinOp.mul.eval 32 x (BinOp.add.eval 32 x 1)))) := by
    intro s1 h1 h2
    simp [execInstr, evalValue, Value.getType, evalBinOp, h1, h2]
  have e4 : ∀ s1 : State,
      s1.env (base + 2) = some (.int (BinOp.mul.eval 32 x (BinOp.add.eval 32 x 1))) →
      execInstr args s1 ⟨base + 3, .binop .and (.inst (.int 32) (base + 2)) (.constInt 32 1)⟩ =
      .next (s1.setReg (base + 3) (.int 0)) := by
    intro s1 h1
    simp [execInstr, evalValue, Value.getType, evalBinOp, h1, h]
  have e5 : ∀ s1 : State, s1.env (base + 3) = some (.int 0) →
      execInstr args s1 ⟨base + 4, .icmp .eq (.inst (.int 32) (base + 3)) (.constInt 32 0)⟩ =
      .next (s1.setReg (base + 4) (.int 1)) := by
    intro s1 h1
    simp [execInstr, evalValue, evalICmp, h1, Pred.eval]
  simp only [predicateInstrs, execInstrs, e1]
  rw [e2 _ (by simp [State.setReg])]
  simp only []
  rw [e3 _ (by simp [State.setReg]) (by simp [State.setReg])]
  simp only []
  rw [e4 _ (by simp [State.setReg])]
  simp only []
  rw [e5 _ (by simp [State.setReg])]
  rfl

theorem afterPredicate_env_pred (s : State) (base x : Nat) :
    (afterPredicate s base x).env (base + 4) = some (.int 1) := by
  simp [afterPredicate, State.setReg]

theorem afterPredicate_env_other (s : State) (base x k : Nat) (hk : k < base ∨ base + 4 < k) :
    (afterPredicate s base x).env k = s.env k := by
  have h0 : ¬ k = base := by omega
  have h1 : ¬ k = base + 1 := by omega
  have h2 : ¬ k = base + 2 := by omega
  have h3 : ¬ k = base + 3 := by omega
  have h4 : ¬ k = base + 4 := by omega
  simp [afterPredicate, State.setReg, h0, h1, h2, h3, h4]

theorem afterPredicate_globals (s : State) (base x : Nat) :
    (afterPredicate s base x).globals = s.globals := rfl

theorem afterPredicate_stack (s : State) (base x : Nat) :
    (afterPredicate s base x).stack = s.stack := rfl

/-- Claim C2 (predicate tautology under machine arithmetic). For every `x`, in
particular every 32-bit `x`, with `add` and `mul` wrapping modulo `2 ^ 32` the
comparison `((x * (x + 1)) & 1) == 0` is true; hence running the instructions that
`generateOpaquePredicate` appends to block `BB`, in any state whose cell `bbo` holds the
integer `x`, leaves the returned comparison with the value `1` (true). -/
theorem opaque_predicate_tautology (M : Module) (F : Function) (BB base : Nat)
    (blk : BasicBlock) (args : List RVal) (s : State) (x : Nat)
    (hblk : F.blocks[BB]? = some blk) (hx : s.globals "bbo" = some (.int x)) :
    Pred.eq.eval (BinOp.and.eval 32 (BinOp.mul.eval 32 x (BinOp.add.eval 32 x 1)) 1) 0 = true ∧
    ∃ emitted s',
      (generateOpaquePredicate M F BB base).2.1.blocks[BB]? =
        some ⟨blk.name, blk.instrs ++ emitted⟩ ∧
      execInstrs args emitted s = .next s' ∧
      evalValue args s' (generateOpaquePredicate M F BB base).2.2 = some (.int 1) := by
  refine ⟨by rw [opaque_arith]; rfl, predicateInstrs base, afterPredicate s base x, ?_,
    execInstrs_predicateInstrs args s base x hx, ?_⟩
  · rw [generateOpaquePredicate_eq]
    simp [hblk]
  · rw [generateOpaquePredicate_eq]
    simp [evalValue, afterPredicate_env_pred]

theorem opaque_predicate_tautology_witness :
    Pred.eq.eval (BinOp.and.eval 32 (BinOp.mul.eval 32 4294967295
      (BinOp.add.eval 32 4294967295 1)) 1) 0 = true ∧
    ∃ emitted s',
      (generateOpaquePredicate ⟨[]⟩ addF 0 3).2.1.blocks[0]? =
        some ⟨"entry",
          [⟨1, .binop .add (.argument (.int 32) 0) (.argument (.int 32) 1)⟩,
           ⟨2, .ret (some (.inst (.int 32) 1))⟩] ++ emitted⟩ ∧
      execInstrs [] emitted
        (State.initial (fun n => if n = "bbo" then some (.int 4294967295) else none)) =
          .next s' ∧
      evalValue [] s' (generateOpaquePredicate ⟨[]⟩ addF 0 3).2.2 = some (.int 1) :=
  opaque_predicate_tautology ⟨[]⟩ addF 0 3 _ []
    (State.initial (fun n => if n = "bbo" then some (.int 4294967295) else none)) 4294967295
    rfl rfl

/-! ## The driver loop -/

theorem resSlot_not_terminator (base : Nat) (ty : Ty) :
    (resSlot base ty).isTerminator = false := rfl

theorem getTerminator_cons_resSlot (name : String) (base : Nat) (ty : Ty) (l : List Instr) :
    (BasicBlock.mk name (resSlot base ty :: l)).getTerminator =
      (BasicBlock.mk name l).getTerminator := by
  cases l with
  | nil => simp [BasicBlock.getTerminator, resSlot_not_terminator]
  | cons a l => simp [BasicBlock.getTerminator, List.getLast?_cons_cons]

theorem getTerminator_eq_of_instrs {b b' : BasicBlock} (h : b.instrs = b'.instrs) :
    b.getTerminator = b'.getTerminator := by
  simp [BasicBlock.getTerminator, h]

theorem shouldObfuscate_congr {F F' : Function} {j : Nat}
    (h : (F'.blocks[j]?).map BasicBlock.getTerminator = (F.blocks[j]?).map BasicBlock.getTerminator) :
    shouldObfuscate F' j = shouldObfuscate F j := by
  unfold shouldObfuscate
  cases h1 : F.blocks[j]? with
  | none =>
    rw [h1] at h
    cases h2 : F'.blocks[j]? with
    | none => rfl
    | some b' => rw [h2] at h; simp at h
  | some b =>
    rw [h1] at h
    cases h2 : F'.blocks[j]? with
    | none => rw [h2] at h; simp at h
    | some b' =>
      rw [h2] at h
      simp only [Option.map_some', Option.some.injEq] at h
      simp only [h]

theorem rewriteAt_terminator_other (F : Function) (BB : Nat) (RI : Instr) (retVal : Value)
    {j : Nat} (hj : j < F.blocks.length) (hne : j ≠ BB) :
    ((rewriteAt F BB RI retVal).blocks[j]?).map BasicBlock.getTerminator =
      (F.blocks[j]?).map BasicBlock.getTerminator := by
  by_cases h0 : j = 0
  · subst h0
    obtain ⟨b, hb⟩ : ∃ b, F.blocks[0]? = some b := ⟨F.blocks[0], List.getElem?_eq_getElem hj⟩
    rw [rewriteAt_getElem?_entry F BB RI retVal hb (Ne.symm hne), hb]
    simp only [Option.map_some', Option.some.injEq]
    rw [getTerminator_cons_resSlot]
  · rw [rewriteAt_getElem?_other F BB RI retVal hj hne h0]

theorem shouldObfuscate_rewriteAt_other (F : Function) (BB : Nat) (RI : Instr) (retVal : Value)
    {j : Nat} (hj : j < F.blocks.length) (hne : j ≠ BB) :
    shouldObfuscate (rewriteAt F BB RI retVal) j = shouldObfuscate F j :=
  shouldObfuscate_congr (rewriteAt_terminator_other F BB RI retVal hj hne)

theorem rewriteAt_terminator_self (F : Function) (BB : Nat) (RI : Instr) (retVal : Value)
    {b : BasicBlock} (hb : F.blocks[BB]? = some b) (hid : RI.id < F.freshId) :
    ((rewriteAt F BB RI retVal).blocks[BB]?).map BasicBlock.getTerminator =
      some (some (opaqueBranch F.freshId F.blocks.length)) := by
  rw [rewriteAt_getElem?_self F BB RI retVal hb hid]
  simp only [Option.map_some', Option.some.injEq, ← List.append_assoc]
  exact getTerminator_append_singleton _ _ _ rfl

theorem shouldObfuscate_rewriteAt_self (F : Function) (BB : Nat) (RI : Instr) (retVal : Value)
    {b : BasicBlock} (hb : F.blocks[BB]? = some b) (hid : RI.id < F.freshId) :
    shouldObfuscate (rewriteAt F BB RI retVal) BB = some false := by
  have h := rewriteAt_terminator_self F BB RI retVal hb hid
  cases h2 : (rewriteAt F BB RI retVal).blocks[BB]? with
  | none => rw [h2] at h; simp at h
  | some b' =>
    rw [h2] at h
    simp only [Option.map_some', Option.some.injEq] at h
    exact shouldObfuscate_eq_false_iff.2 ⟨b', _, h2, h, fun v hv => by simp [opaqueBranch] at hv⟩

theorem shouldObfuscate_rewriteAt_new (F : Function) (BB : Nat) (RI : Instr) (retVal : Value) :
    shouldObfuscate (rewriteAt F BB RI retVal) F.blocks.length = some false ∧
    shouldObfuscate (rewriteAt F BB RI retVal) (F.blocks.length + 1) = some false ∧
    shouldObfuscate (rewriteAt F BB RI retVal) (F.blocks.length + 2) = some true := by
  have h0 := rewriteAt_getElem?_new F BB RI retVal 0
  have h1 := rewriteAt_getElem?_new F BB RI retVal 1
  have h2 := rewriteAt_getElem?_new F BB RI retVal 2
  rw [Nat.add_zero] at h0
  refine ⟨?_, ?_, ?_⟩
  · simp [shouldObfuscate, h0, newBlocks, BasicBlock.getTerminator, Instr.isTerminator]
  · simp [shouldObfuscate, h1, newBlocks, BasicBlock.getTerminator, Instr.isTerminator]
  · simp [shouldObfuscate, h2, newBlocks, BasicBlock.getTerminator, Instr.isTerminator]

theorem hasTerminators_iff {F : Function} :
    HasTerminators F ↔ ∀ j, j < F.blocks.length → shouldObfuscate F j ≠ none := by
  constructor
  · intro h j hj
    rw [shouldObfuscate_isSome_iff]
    have hb := h _ (List.getElem_mem hj)
    obtain ⟨t, ht⟩ := Option.ne_none_iff_exists'.1 hb
    exact ⟨_, t, List.getElem?_eq_getElem hj, ht⟩
  · intro h b hb
    obtain ⟨j, hj, rfl⟩ := List.getElem_of_mem hb
    obtain ⟨blk, t, h1, h2⟩ := shouldObfuscate_isSome_iff.1 (h j hj)
    rw [List.getElem?_eq_getElem hj] at h1
    cases h1
    rw [h2]; simp

theorem hasTerminators_rewriteAt {F : Function} {BB : Nat} {RI : Instr} {retVal : Value}
    {b : BasicBlock} (hF : HasTerminators F) (hb : F.blocks[BB]? = some b)
    (hid : RI.id < F.freshId) : HasTerminators (rewriteAt F BB RI retVal) := by
  rw [hasTerminators_iff] at hF ⊢
  intro j hj
  rw [rewriteAt_length] at hj
  by_cases hlt : j < F.blocks.length
  · by_cases hne : j = BB
    · subst hne
      rw [shouldObfuscate_rewriteAt_self F j RI retVal hb hid]; simp
    · rw [shouldObfuscate_rewriteAt_other F BB RI retVal hlt hne]
      exact hF j hlt
  · obtain ⟨h0, h1, h2⟩ := shouldObfuscate_rewriteAt_new F BB RI retVal
    have : j = F.blocks.length ∨ j = F.blocks.length + 1 ∨ j = F.blocks.length + 2 := by omega
    rcases this with h | h | h <;> subst h
    · rw [h0]; simp
    · rw [h1]; simp
    · rw [h2]; simp

theorem runLoop_cons_false {M : Module} {F : Function} {BB : Nat} (rest : List Nat)
    (h : shouldObfuscate F BB = some false) :
    runLoop M F (BB :: rest) = runLoop M F rest := by
  simp only [runLoop, h]

theorem runLoop_cons_true {M : Module} {F : Function} {BB : Nat} (rest : List Nat)
    {blk : BasicBlock} {RI : Instr} {retVal : Value} (hblk : F.blocks[BB]? = some blk)
    (hRI : blk.getTerminator = some RI) (hop : RI.op = .ret (some retVal)) :
    runLoop M F (BB :: rest) = runLoop (declareBbo M) (rewriteAt F BB RI retVal) rest := by
  have h : shouldObfuscate F BB = some true :=
    shouldObfuscate_eq_true_iff.2 ⟨blk, RI, retVal, hblk, hRI, hop⟩
  simp only [runLoop, h, insertBogusControlFlow_eq M F BB blk RI retVal hblk hRI hop]

/-- Induction along the driver loop: a property that holds when the snapshot is
exhausted, is kept when an ineligible block is skipped and is kept when an eligible
block is rewritten, holds of every completed run; and the run completes. -/
theorem runLoop_induction
    {P : Module → Function → List Nat → Module → Function → Prop}
    (hnil : ∀ M F, HasTerminators F → P M F [] M F)
    (hskip : ∀ M F BB rest M' F', HasTerminators F → BB < F.blocks.length → BB ∉ rest → rest.Nodup →
      (∀ i ∈ rest, i < F.blocks.length) → shouldObfuscate F BB = some false →
      runLoop M F rest = some (M', F') → P M F rest M' F' → P M F (BB :: rest) M' F')
    (hstep : ∀ M F BB rest blk RI retVal M' F', HasTerminators F → BB ∉ rest → rest.Nodup →
      (∀ i ∈ rest, i < F.blocks.length) → F.blocks[BB]? = some blk →
      blk.getTerminator = some RI → RI.op = .ret (some retVal) →
      runLoop (declareBbo M) (rewriteAt F BB RI retVal) rest = some (M', F') →
      P (declareBbo M) (rewriteAt F BB RI retVal) rest M' F' → P M F (BB :: rest) M' F') :
    ∀ (l : List Nat) (M : Module) (F : Function), l.Nodup → (∀ i ∈ l, i < F.blocks.length) →
      HasTerminators F → ∃ M' F', runLoop M F l = some (M', F') ∧ P M F l M' F'
  | [], M, F, _, _, hF => ⟨M, F, rfl, hnil M F hF⟩
  | BB :: rest, M, F, hnd, hlt, hF => by
    have hBB : BB < F.blocks.length := hlt BB (List.mem_cons_self _ _)
    have hrest : ∀ i ∈ rest, i < F.blocks.length := fun i hi => hlt i (List.mem_cons_of_mem _ hi)
    have hnd' := List.nodup_cons.1 hnd
    have hsome := (hasTerminators_iff.1 hF) BB hBB
    cases hs : shouldObfuscate F BB with
    | none => exact absurd hs hsome
    | some v =>
      cases v with
      | false =>
        obtain ⟨M', F', hrun, hP⟩ := runLoop_induction hnil hskip hstep rest M F hnd'.2 hrest hF
        exact ⟨M', F', by rw [runLoop_cons_false rest hs]; exact hrun,
          hskip M F BB rest M' F' hF hBB hnd'.1 hnd'.2 hrest hs hrun hP⟩
      | true =>
        obtain ⟨blk, RI, rv, hblk, hRI, hop⟩ := shouldObfuscate_eq_true_iff.1 hs
        have hid : RI.id < F.freshId :=
          id_lt_freshId (List.getElem?_mem hblk) (getTerminator_mem hRI)
        have hF' : HasTerminators (rewriteAt F BB RI rv) := hasTerminators_rewriteAt hF hblk hid
        have hrest' : ∀ i ∈ rest, i < (rewriteAt F BB RI rv).blocks.length := by
          intro i hi; rw [rewriteAt_length]; have := hrest i hi; omega
        obtain ⟨M', F', hrun, hP⟩ :=
          runLoop_induction hnil hskip hstep rest (declareBbo M) (rewriteAt F BB RI rv)
            hnd'.2 hrest' hF'
        exact ⟨M', F', by rw [runLoop_cons_true rest hblk hRI hop]; exact hrun,
          hstep M F BB rest blk RI rv M' F' hF hnd'.1 hnd'.2 hrest hblk hRI hop hrun hP⟩

/-! ## Fresh identities after a rewrite -/

theorem maxIdList_append (l₁ l₂ : List Instr) :
    maxIdList (l₁ ++ l₂) = max (maxIdList l₁) (maxIdList l₂) := by
  induction l₁ with
  | nil => simp [maxIdList]
  | cons a l ih => rw [List.cons_append, maxIdList, maxIdList, ih]; omega

theorem maxIdList_filter_le (p : Instr → Bool) (l : List Instr) :
    maxIdList (l.filter p) ≤ maxIdList l := by
  induction l with
  | nil => simp [maxIdList]
  | cons a l ih =>
    simp only [List.filter_cons]
    split <;> simp only [maxIdList] <;> omega

theorem maxIdBlocks_append (l₁ l₂ : List BasicBlock) :
    maxIdBlocks (l₁ ++ l₂) = max (maxIdBlocks l₁) (maxIdBlocks l₂) := by
  induction l₁ with
  | nil => simp [maxIdBlocks]
  | cons a l ih => rw [List.cons_append, maxIdBlocks, maxIdBlocks, ih]; omega

theorem maxIdBlocks_modify_le (f : BasicBlock → BasicBlock) (c : Nat)
    (hf : ∀ b, (f b).maxId ≤ max b.maxId c) :
    ∀ (l : List BasicBlock) (i : Nat), maxIdBlocks (l.modify f i) ≤ max (maxIdBlocks l) c
  | [], i => by simp [maxIdBlocks]
  | a :: l, 0 => by
    have := hf a
    simp only [List.modify_zero_cons, maxIdBlocks]; omega
  | a :: l, i + 1 => by
    have := maxIdBlocks_modify_le f c hf l i
    rw [List.modify_succ_cons, maxIdBlocks, maxIdBlocks]; omega

theorem maxId_inst (ty : Ty) (id : Nat) : (Value.inst ty id).maxId = id := rfl

theorem maxId_poison (ty : Ty) : (Value.poison ty).maxId = 0 := rfl

theorem maxId_constInt (w n : Nat) : (Value.constInt w n).maxId = 0 := rfl

theorem maxId_global (name : String) : (Value.global name).maxId = 0 := rfl

theorem opMaxId_le_maxIdList {i : Instr} {l : List Instr} (h : i ∈ l) :
    i.op.maxId ≤ maxIdList l := by
  induction l with
  | nil => simp at h
  | cons a l ih =>
    rcases List.mem_cons.1 h with h | h
    · subst h; simp only [maxIdList, Instr.maxId]; omega
    · have := ih h; simp only [maxIdList]; omega

theorem retVal_maxId_lt_freshId {F : Function} {b : BasicBlock} {RI : Instr} {retVal : Value}
    (hb : b ∈ F.blocks) (hi : RI ∈ b.instrs) (hop : RI.op = .ret (some retVal)) :
    retVal.maxId < F.freshId := by
  have h1 := opMaxId_le_maxIdList hi
  have h2 := maxId_le_maxIdBlocks hb
  rw [hop] at h1
  simp only [Function.freshId, Function.maxId, BasicBlock.maxId, Op.maxId] at *
  omega

theorem freshId_rewriteAt {F : Function} {BB : Nat} {blk : BasicBlock} {RI : Instr}
    {retVal : Value} (hblk : F.blocks[BB]? = some blk) (hRI : blk.getTerminator = some RI)
    (hop : RI.op = .ret (some retVal)) :
    (rewriteAt F BB RI retVal).freshId = F.freshId + 13 := by
  have hrv : retVal.maxId < F.freshId :=
    retVal_maxId_lt_freshId (List.getElem?_mem hblk) (getTerminator_mem hRI) hop
  have hnew : maxIdBlocks (newBlocks F.freshId F.blocks.length retVal) = F.freshId + 12 := by
    simp only [newBlocks, maxIdBlocks, BasicBlock.maxId, maxIdList, Instr.maxId, Op.maxId,
      maxId_inst, maxId_poison]
    omega
  have hpred : maxIdList (predicateInstrs (F.freshId + 1) ++
      [opaqueBranch F.freshId F.blocks.length]) ≤ F.freshId + 12 := by
    simp only [predicateInstrs, opaqueBranch, List.cons_append, List.nil_append, maxIdList,
      Instr.maxId, Op.maxId, maxId_inst, maxId_constInt, maxId_global]
    omega
  have h1 : maxIdBlocks (F.blocks.modify
      (fun b => { b with instrs := resSlot F.freshId retVal.getType :: b.instrs }) 0) ≤
      max (maxIdBlocks F.blocks) (F.freshId + 12) := by
    apply maxIdBlocks_modify_le
    intro b
    simp only [BasicBlock.maxId, maxIdList, resSlot, Instr.maxId, Op.maxId]
    omega
  have h2 := maxIdBlocks_modify_le
    (fun b : BasicBlock => { b with instrs := b.instrs.filter (fun x => x.id ≠ RI.id) ++
      (predicateInstrs (F.freshId + 1) ++ [opaqueBranch F.freshId F.blocks.length]) })
    (F.freshId + 12) (by
      intro b
      have := maxIdList_filter_le (fun x => x.id ≠ RI.id) b.instrs
      simp only [BasicBlock.maxId]
      rw [maxIdList_append]
      omega)
    (F.blocks.modify
      (fun b => { b with instrs := resSlot F.freshId retVal.getType :: b.instrs }) 0) BB
  simp only [Function.freshId, Function.maxId, rewriteAt, maxIdBlocks_append] at *
  omega

theorem eligibleBlocks_eq (F : Function) :
    eligibleBlocks F = eligibleIn F (List.range F.blocks.length) := rfl

theorem eligibleIn_cons_false {F : Function} {BB : Nat} (rest : List Nat)
    (h : shouldObfuscate F BB = some false) : eligibleIn F (BB :: rest) = eligibleIn F rest := by
  simp [eligibleIn, List.filter_cons, h]

theorem eligibleIn_cons_true {F : Function} {BB : Nat} (rest : List Nat)
    (h : shouldObfuscate F BB = some true) :
    eligibleIn F (BB :: rest) = BB :: eligibleIn F rest := by
  simp [eligibleIn, List.filter_cons, h]

theorem eligibleIn_rewriteAt {F : Function} {BB : Nat} (RI : Instr) (retVal : Value)
    {rest : List Nat} (hBB : BB ∉ rest) (hrest : ∀ i ∈ rest, i < F.blocks.length) :
    eligibleIn (rewriteAt F BB RI retVal) rest = eligibleIn F rest := by
  apply List.filter_congr
  intro i hi
  have hne : i ≠ BB := fun h => hBB (h ▸ hi)
  rw [shouldObfuscate_rewriteAt_other F BB RI retVal (hrest i hi) hne]

theorem runLoop_spec {P : Module → Function → List Nat → Module → Function → Prop}
    (hnil : ∀ M F, HasTerminators F → P M F [] M F)
    (hskip : ∀ M F BB rest M' F', HasTerminators F → BB < F.blocks.length → BB ∉ rest → rest.Nodup →
      (∀ i ∈ rest, i < F.blocks.length) → shouldObfuscate F BB = some false →
      runLoop M F rest = some (M', F') → P M F rest M' F' → P M F (BB :: rest) M' F')
    (hstep : ∀ M F BB rest blk RI retVal M' F', HasTerminators F → BB ∉ rest → rest.Nodup →
      (∀ i ∈ rest, i < F.blocks.length) → F.blocks[BB]? = some blk →
      blk.getTerminator = some RI → RI.op = .ret (some retVal) →
      runLoop (declareBbo M) (rewriteAt F BB RI retVal) rest = some (M', F') →
      P (declareBbo M) (rewriteAt F BB RI retVal) rest M' F' → P M F (BB :: rest) M' F')
    {l : List Nat} {M M' : Module} {F F' : Function} (hnd : l.Nodup)
    (hlt : ∀ i ∈ l, i < F.blocks.length) (hF : HasTerminators F)
    (hrun : runLoop M F l = some (M', F')) : P M F l M' F' := by
  obtain ⟨M'', F'', h, hP⟩ := runLoop_induction hnil hskip hstep l M F hnd hlt hF
  rw [hrun] at h
  cases h
  exact hP

theorem runLoop_isSome {l : List Nat} (M : Module) {F : Function} (hnd : l.Nodup)
    (hlt : ∀ i ∈ l, i < F.blocks.length) (hF : HasTerminators F) :
    ∃ M' F', runLoop M F l = some (M', F') := by
  obtain ⟨M', F', h, _⟩ := runLoop_induction (P := fun _ _ _ _ _ => True)
    (fun _ _ _ => trivial) (fun _ _ _ _ _ _ _ _ _ _ _ _ _ _ => trivial)
    (fun _ _ _ _ _ _ _ _ _ _ _ _ _ _ _ _ _ _ => trivial) l M F hnd hlt hF
  exact ⟨M', F', h⟩

theorem runLoop_length {l : List Nat} {M M' : Module} {F F' : Function} (hnd : l.Nodup)
    (hlt : ∀ i ∈ l, i < F.blocks.length) (hF : HasTerminators F)
    (hrun : runLoop M F l = some (M', F')) :
    F'.blocks.length = F.blocks.length + 3 * (eligibleIn F l).length := by
  refine runLoop_spec
    (P := fun _ F l _ F' => F'.blocks.length = F.blocks.length + 3 * (eligibleIn F l).length)
    ?_ ?_ ?_ hnd hlt hF hrun
  · intro M F _; simp [eligibleIn]
  · intro M F BB rest M' F' _ _ _ _ _ hs _ ih
    rw [eligibleIn_cons_false rest hs]; exact ih
  · intro M F BB rest blk RI rv M' F' _ hBB _ hrest hblk hRI hop _ ih
    have hs : shouldObfuscate F BB = some true :=
      shouldObfuscate_eq_true_iff.2 ⟨blk, RI, rv, hblk, hRI, hop⟩
    rw [eligibleIn_cons_true rest hs]
    rw [eligibleIn_rewriteAt RI rv hBB hrest, rewriteAt_length] at ih
    simp only [List.length_cons]; omega

theorem runLoop_terminator_frame {l : List Nat} {M M' : Module} {F F' : Function}
    (hnd : l.Nodup) (hlt : ∀ i ∈ l, i < F.blocks.length) (hF : HasTerminators F)
    (hrun : runLoop M F l = some (M', F')) :
    ∀ j, j ∉ l → j < F.blocks.length →
      (F'.blocks[j]?).map BasicBlock.getTerminator =
        (F.blocks[j]?).map BasicBlock.getTerminator := by
  refine runLoop_spec
    (P := fun _ F l _ F' => ∀ j, j ∉ l → j < F.blocks.length →
      (F'.blocks[j]?).map BasicBlock.getTerminator =
        (F.blocks[j]?).map BasicBlock.getTerminator)
    ?_ ?_ ?_ hnd hlt hF hrun
  · intro M F _ j _ _; rfl
  · intro M F BB rest M' F' _ _ _ _ _ _ _ ih j hj hjlt
    exact ih j (fun h => hj (List.mem_cons_of_mem _ h)) hjlt
  · intro M F BB rest blk RI rv M' F' _ _ _ _ _ _ _ _ ih j hj hjlt
    have hne : j ≠ BB := fun h => hj (h ▸ List.mem_cons_self _ _)
    rw [ih j (fun h => hj (List.mem_cons_of_mem _ h)) (by rw [rewriteAt_length]; omega)]
    exact rewriteAt_terminator_other F BB RI rv hjlt hne

theorem runLoop_frame {l : List Nat} {M M' : Module} {F F' : Function}
    (hnd : l.Nodup) (hlt : ∀ i ∈ l, i < F.blocks.length) (hF : HasTerminators F)
    (hrun : runLoop M F l = some (M', F')) :
    ∀ j, j ∉ l → j < F.blocks.length → j ≠ 0 → F'.blocks[j]? = F.blocks[j]? := by
  refine runLoop_spec
    (P := fun _ F l _ F' => ∀ j, j ∉ l → j < F.blocks.length → j ≠ 0 →
      F'.blocks[j]? = F.blocks[j]?)
    ?_ ?_ ?_ hnd hlt hF hrun
  · intro M F _ j _ _ _; rfl
  · intro M F BB rest M' F' _ _ _ _ _ _ _ ih j hj hjlt h0
    exact ih j (fun h => hj (List.mem_cons_of_mem _ h)) hjlt h0
  · intro M F BB rest blk RI rv M' F' _ _ _ _ _ _ _ _ ih j hj hjlt h0
    have hne : j ≠ BB := fun h => hj (h ▸ List.mem_cons_self _ _)
    rw [ih j (fun h => hj (List.mem_cons_of_mem _ h)) (by rw [rewriteAt_length]; omega) h0]
    exact rewriteAt_getElem?_other F BB RI rv hjlt hne h0

theorem hasTerminators_runLoop {l : List Nat} {M M' : Module} {F F' : Function}
    (hnd : l.Nodup) (hlt : ∀ i ∈ l, i < F.blocks.length) (hF : HasTerminators F)
    (hrun : runLoop M F l = some (M', F')) : HasTerminators F' := by
  refine runLoop_spec (P := fun _ _ _ _ F' => HasTerminators F') ?_ ?_ ?_ hnd hlt hF hrun
  · intro M F h; exact h
  · intro M F BB rest M' F' _ _ _ _ _ _ _ ih; exact ih
  · intro M F BB rest blk RI rv M' F' _ _ _ _ _ _ _ _ ih; exact ih

theorem rewriterCalls_eq {l : List Nat} {M M' : Module} {F F' : Function}
    (hnd : l.Nodup) (hlt : ∀ i ∈ l, i < F.blocks.length) (hF : HasTerminators F)
    (hrun : runLoop M F l = some (M', F')) : rewriterCalls M F l = eligibleIn F l := by
  refine runLoop_spec (P := fun M F l _ _ => rewriterCalls M F l = eligibleIn F l)
    ?_ ?_ ?_ hnd hlt hF hrun
  · intro M F _; rfl
  · intro M F BB rest M' F' _ _ _ _ _ hs _ ih
    rw [eligibleIn_cons_false rest hs]
    simp only [rewriterCalls, hs]; exact ih
  · intro M F BB rest blk RI rv M' F' _ hBB _ hrest hblk hRI hop _ ih
    have hs : shouldObfuscate F BB = some true :=
      shouldObfuscate_eq_true_iff.2 ⟨blk, RI, rv, hblk, hRI, hop⟩
    rw [eligibleIn_cons_true rest hs]
    simp only [rewriterCalls, hs, insertBogusControlFlow_eq M F BB blk RI rv hblk hRI hop]
    rw [ih, eligibleIn_rewriteAt RI rv hBB hrest]

/-- The blocks added by the `j`-th rewrite of a run, with the return value of the block
it rewrote. -/
theorem runLoop_newBlocks {l : List Nat} {M M' : Module} {F F' : Function}
    (hnd : l.Nodup) (hlt : ∀ i ∈ l, i < F.blocks.length) (hF : HasTerminators F)
    (hrun : runLoop M F l = some (M', F')) :
    ∀ j i, (eligibleIn F l)[j]? = some i → ∃ RI retVal,
      (F.blocks[i]?).map BasicBlock.getTerminator = some (some RI) ∧
      RI.op = .ret (some retVal) ∧
      ∀ t, t < 3 → F'.blocks[F.blocks.length + 3 * j + t]? =
        (newBlocks (F.freshId + 13 * j) (F.blocks.length + 3 * j) retVal)[t]? := by
  refine runLoop_spec
    (P := fun _ F l _ F' => ∀ j i, (eligibleIn F l)[j]? = some i → ∃ RI retVal,
      (F.blocks[i]?).map BasicBlock.getTerminator = some (some RI) ∧
      RI.op = .ret (some retVal) ∧
      ∀ t, t < 3 → F'.blocks[F.blocks.length + 3 * j + t]? =
        (newBlocks (F.freshId + 13 * j) (F.blocks.length + 3 * j) retVal)[t]?)
    ?_ ?_ ?_ hnd hlt hF hrun
  · intro M F _ j i h; simp [eligibleIn] at h
  · intro M F BB rest M' F' _ _ _ _ _ hs _ ih j i h
    rw [eligibleIn_cons_false rest hs] at h
    exact ih j i h
  · intro M F BB rest blk RI rv M' F' hF hBB hnd' hrest hblk hRI hop hrun ih j i h
    have hs : shouldObfuscate F BB = some true :=
      shouldObfuscate_eq_true_iff.2 ⟨blk, RI, rv, hblk, hRI, hop⟩
    have hBBlt : BB < F.blocks.length := (List.getElem?_eq_some_iff.1 hblk).1
    have hid : RI.id < F.freshId :=
      id_lt_freshId (List.getElem?_mem hblk) (getTerminator_mem hRI)
    have hrest' : ∀ i ∈ rest, i < (rewriteAt F BB RI rv).blocks.length := by
      intro i hi; rw [rewriteAt_length]; have := hrest i hi; omega
    rw [eligibleIn_cons_true rest hs] at h
    cases j with
    | zero =>
      simp only [List.getElem?_cons_zero, Option.some.injEq] at h
      subst h
      refine ⟨RI, rv, by rw [hblk, Option.map_some', hRI], hop, ?_⟩
      intro t ht
      have hfr := runLoop_frame hnd' hrest' (hasTerminators_rewriteAt hF hblk hid) hrun
        (F.blocks.length + t)
        (fun hmem => by have := hrest _ hmem; omega)
        (by rw [rewriteAt_length]; omega) (by omega)
      simp only [Nat.mul_zero, Nat.add_zero]
      rw [hfr, rewriteAt_getElem?_new]
    | succ j =>
      simp only [List.getElem?_cons_succ] at h
      rw [← eligibleIn_rewriteAt RI rv hBB hrest] at h
      obtain ⟨RI', rv', h1, h2, h3⟩ := ih j i h
      have himem : i ∈ rest := by
        have := List.getElem?_mem h
        exact (List.mem_filter.1 this).1
      have hne : i ≠ BB := fun h => hBB (h ▸ himem)
      rw [rewriteAt_terminator_other F BB RI rv (hrest i himem) hne] at h1
      refine ⟨RI', rv', h1, h2, ?_⟩
      intro t ht
      have := h3 t ht
      rw [rewriteAt_length, freshId_rewriteAt hblk hRI hop] at this
      have e1 : F.blocks.length + 3 * (j + 1) + t = F.blocks.length + 3 + 3 * j + t := by omega
      have e2 : F.freshId + 13 * (j + 1) = F.freshId + 13 + 13 * j := by omega
      have e3 : F.blocks.length + 3 * (j + 1) = F.blocks.length + 3 + 3 * j := by omega
      rw [e1, e2, e3]; exact this

/-! ## Properties of a driver run -/

theorem run_eq_of_runLoop {M M' : Module} {F F' : Function}
    (h : runLoop M F (List.range F.blocks.length) = some (M', F')) :
    run M F = some (M', F', PreservedAnalyses.none) := by
  simp only [run, h]

theorem range_lt (F : Function) : ∀ i ∈ List.range F.blocks.length, i < F.blocks.length :=
  fun _ hi => List.mem_range.1 hi

theorem run_isSome (M : Module) {F : Function} (hF : HasTerminators F) :
    ∃ M' F', runLoop M F (List.range F.blocks.length) = some (M', F') ∧
      run M F = some (M', F', PreservedAnalyses.none) := by
  obtain ⟨M', F', h⟩ := runLoop_isSome M (List.nodup_range _) (range_lt F) hF
  exact ⟨M', F', h, run_eq_of_runLoop h⟩

/-- Claim C5 (no re-entry within one driver run). On a function `F` whose blocks all end
in a terminator, `run` completes; the rewriter is invoked on exactly the eligible blocks
of the original `F`, each once and in layout order, hence on no block the rewriter
created; the result has `n + 3k` blocks for `n` blocks of which `k` are eligible; and
the `new_return` block of each of the `k` rewrites still ends in a `ret` with a value. -/
theorem run_no_reentry (M : Module) (F : Function) (hF : HasTerminators F) :
    ∃ M' F', run M F = some (M', F', PreservedAnalyses.none) ∧
      rewriterCalls M F (List.range F.blocks.length) = eligibleBlocks F ∧
      (eligibleBlocks F).Nodup ∧
      (∀ i ∈ eligibleBlocks F, i < F.blocks.length ∧ shouldObfuscate F i = some true) ∧
      F'.blocks.length = F.blocks.length + 3 * (eligibleBlocks F).length ∧
      ∀ j, j < (eligibleBlocks F).length → ∃ b t v,
        F'.blocks[F.blocks.length + 3 * j + 2]? = some b ∧ b.name = "new_return" ∧
        b.getTerminator = some t ∧ t.op = .ret (some v) := by
  obtain ⟨M', F', hrun, hr⟩ := run_isSome M hF
  have hnd := List.nodup_range F.blocks.length
  refine ⟨M', F', hr, rewriterCalls_eq hnd (range_lt F) hF hrun, hnd.filter _, ?_,
    runLoop_length hnd (range_lt F) hF hrun, ?_⟩
  · intro i hi
    have := List.mem_filter.1 hi
    exact ⟨List.mem_range.1 this.1, by simpa using this.2⟩
  · intro j hj
    obtain ⟨RI, rv, _, _, h3⟩ := runLoop_newBlocks hnd (range_lt F) hF hrun j
      ((eligibleBlocks F)[j]) (List.getElem?_eq_getElem hj)
    refine ⟨_, _, _, h3 2 (by omega), rfl, rfl, rfl⟩

theorem hasTerminators_addF : HasTerminators addF := by
  intro b hb
  simp only [addF, List.mem_singleton] at hb
  subst hb; decide

theorem run_no_reentry_witness :
    ∃ M' F', run ⟨[]⟩ addF = some (M', F', PreservedAnalyses.none) ∧
      rewriterCalls ⟨[]⟩ addF (List.range addF.blocks.length) = eligibleBlocks addF ∧
      (eligibleBlocks addF).Nodup ∧
      (∀ i ∈ eligibleBlocks addF, i < addF.blocks.length ∧ shouldObfuscate addF i = some true) ∧
      F'.blocks.length = addF.blocks.length + 3 * (eligibleBlocks addF).length ∧
      ∀ j, j < (eligibleBlocks addF).length → ∃ b t v,
        F'.blocks[addF.blocks.length + 3 * j + 2]? = some b ∧ b.name = "new_return" ∧
        b.getTerminator = some t ∧ t.op = .ret (some v) :=
  run_no_reentry ⟨[]⟩ addF hasTerminators_addF

/-- A function without an eligible block passes through the driver unchanged. -/
theorem run_of_no_value_return (M : Module) (F : Function) (hF : HasTerminators F)
    (hno : ∀ b ∈ F.blocks, ∀ t v, b.getTerminator = some t → t.op ≠ .ret (some v)) :
    run M F = some (M, F, PreservedAnalyses.none) := by
  apply run_eq_of_runLoop
  apply runLoop_of_all_false
  intro i hi
  have hlt := List.mem_range.1 hi
  have hb := List.getElem_mem hlt
  obtain ⟨t, ht⟩ := Option.ne_none_iff_exists'.1 (hF _ hb)
  exact shouldObfuscate_eq_false_iff.2
    ⟨_, t, List.getElem?_eq_getElem hlt, ht, fun v => hno _ hb t v ht⟩

/-- Claim C6 (void-return exclusion). If every block of `F` ends in a terminator and
none of them in a `ret` that carries a value, a full driver run returns the module and
the function exactly as they were: same block list, same instruction lists, no new
cell. -/
theorem run_void_exclusion (M : Module) (F : Function) (hF : HasTerminators F)
    (hno : ∀ b ∈ F.blocks, ∀ t v, b.getTerminator = some t → t.op ≠ .ret (some v)) :
    ∃ M' F', run M F = some (M', F', PreservedAnalyses.none) ∧ F'.blocks = F.blocks ∧
      (∀ i : Nat, (F'.blocks[i]?).map BasicBlock.instrs = (F.blocks[i]?).map BasicBlock.instrs) ∧
      M'.globals = M.globals :=
  ⟨M, F, run_of_no_value_return M F hF hno, rfl, fun _ => rfl, rfl⟩

theorem run_void_exclusion_witness :
    ∃ M' F', run ⟨[]⟩ voidF = some (M', F', PreservedAnalyses.none) ∧
      F'.blocks = voidF.blocks ∧
      (∀ i : Nat, (F'.blocks[i]?).map BasicBlock.instrs =
        (voidF.blocks[i]?).map BasicBlock.instrs) ∧
      M'.globals = (Module.mk []).globals :=
  run_void_exclusion ⟨[]⟩ voidF
    (by intro b hb; simp only [voidF, List.mem_singleton] at hb; subst hb; decide)
    (by intro b hb t v ht; simp only [voidF, List.mem_singleton] at hb; subst hb
        simp [BasicBlock.getTerminator, Instr.isTerminator] at ht
        subst ht; simp)

/-- Claim C7 as stated fails: on the void function with a single block ending in a bare
`ret`, the driver reports that the structure changed. -/
theorem run_void_report_counterexample :
    (run ⟨[]⟩ voidF).map (fun r => structureChanged r.2.2) = some true ∧
    (run ⟨[]⟩ voidF).map (fun r => structureChanged r.2.2) ≠ some false := by
  decide

/-- Claim C7, amended. For a function with a single block that ends in a bare `ret`, the
driver run leaves the module and the function as they were (the block count stays 1)
and returns `PreservedAnalyses::none()`, that is `structureChanged = true`, as it does
for every function. -/
theorem run_void_report (M : Module) (name : String) (body : List Instr) (id : Nat) :
    ∃ pa, run M ⟨[⟨name, body ++ [⟨id, .ret none⟩]⟩]⟩ =
        some (M, ⟨[⟨name, body ++ [⟨id, .ret none⟩]⟩]⟩, pa) ∧
      structureChanged pa = true ∧
      (Function.mk [⟨name, body ++ [⟨id, .ret none⟩]⟩]).blocks.length = 1 := by
  refine ⟨PreservedAnalyses.none, ?_, rfl, rfl⟩
  apply run_of_no_value_return
  · intro b hb
    simp only [List.mem_singleton] at hb
    subst hb
    rw [getTerminator_append_singleton name body ⟨id, .ret none⟩ rfl]; simp
  · intro b hb t v ht
    simp only [List.mem_singleton] at hb
    subst hb
    rw [getTerminator_append_singleton name body ⟨id, .ret none⟩ rfl] at ht
    cases ht; simp

/-- Claim C10 as stated fails: the value the rewrite of `add` stores in `assign_fake`
is the poison constant. -/
theorem fake_store_counterexample :
    (insertBogusControlFlow ⟨[]⟩ addF 0).map
      (fun r => (r.2.blocks[1]?).map (fun b => (b.name, storedValues b))) =
        some (some ("assign_fake", [Value.poison (.int 32)])) ∧
    (Value.poison (.int 32)).isPoison = true := by
  decide

/-- Claim C10, amended. For every eligible block whose `ret` carries `retVal`, the
`assign_fake` block the rewrite creates is a store of the poison constant of the type of
`retVal` into the result slot, followed by the branch to `new_return`: the placeholder
has the right type, but its content is poison, not a defined value. -/
theorem fake_store_is_poison (M : Module) (F : Function) (BB : Nat)
    (h : shouldObfuscate F BB = some true) :
    ∃ M' F' blk RI retVal, F.blocks[BB]? = some blk ∧ blk.getTerminator = some RI ∧
      RI.op = .ret (some retVal) ∧ insertBogusControlFlow M F BB = some (M', F') ∧
      F'.blocks[F.blocks.length]? = some ⟨"assign_fake",
        [⟨F.freshId + 9, .store (.poison retVal.getType) (.inst .ptr F.freshId)⟩,
         ⟨F.freshId + 10, .br (F.blocks.length + 2)⟩]⟩ ∧
      (Value.poison retVal.getType).getType = retVal.getType ∧
      (Value.poison retVal.getType).isPoison = true := by
  obtain ⟨blk, RI, rv, hblk, hRI, hop⟩ := shouldObfuscate_eq_true_iff.1 h
  refine ⟨declareBbo M, rewriteAt F BB RI rv, blk, RI, rv, hblk, hRI, hop,
    insertBogusControlFlow_eq M F BB blk RI rv hblk hRI hop, ?_, rfl, rfl⟩
  have := rewriteAt_getElem?_new F BB RI rv 0
  rw [Nat.add_zero] at this
  rw [this]; rfl

theorem fake_store_is_poison_witness :
    ∃ M' F' blk RI retVal, addF.blocks[0]? = some blk ∧ blk.getTerminator = some RI ∧
      RI.op = .ret (some retVal) ∧ insertBogusControlFlow ⟨[]⟩ addF 0 = some (M', F') ∧
      F'.blocks[addF.blocks.length]? = some ⟨"assign_fake",
        [⟨addF.freshId + 9, .store (.poison retVal.getType) (.inst .ptr addF.freshId)⟩,
         ⟨addF.freshId + 10, .br (addF.blocks.length + 2)⟩]⟩ ∧
      (Value.poison retVal.getType).getType = retVal.getType ∧
      (Value.poison retVal.getType).isPoison = true :=
  fake_store_is_poison ⟨[]⟩ addF 0 rfl

/-! ## A second driver run -/

theorem runLoop_processed_ineligible {l : List Nat} {M M' : Module} {F F' : Function}
    (hnd : l.Nodup) (hlt : ∀ i ∈ l, i < F.blocks.length) (hF : HasTerminators F)
    (hrun : runLoop M F l = some (M', F')) :
    ∀ i ∈ l, shouldObfuscate F' i = some false := by
  refine runLoop_spec (P := fun _ _ l _ F' => ∀ i ∈ l, shouldObfuscate F' i = some false)
    ?_ ?_ ?_ hnd hlt hF hrun
  · intro M F _ i hi; simp at hi
  · intro M F BB rest M' F' hF hBB hnotin hnd' hrest hs hrun ih i hi
    rcases List.mem_cons.1 hi with h | h
    · subst h
      rw [shouldObfuscate_congr (runLoop_terminator_frame hnd' hrest hF hrun i hnotin hBB)]
      exact hs
    · exact ih i h
  · intro M F BB rest blk RI rv M' F' hF hnotin hnd' hrest hblk hRI hop hrun ih i hi
    rcases List.mem_cons.1 hi with h | h
    · subst h
      have hid : RI.id < F.freshId :=
        id_lt_freshId (List.getElem?_mem hblk) (getTerminator_mem hRI)
      have hBB : i < F.blocks.length := (List.getElem?_eq_some_iff.1 hblk).1
      have hrest' : ∀ j ∈ rest, j < (rewriteAt F i RI rv).blocks.length := by
        intro j hj; rw [rewriteAt_length]; have := hrest j hj; omega
      rw [shouldObfuscate_congr (runLoop_terminator_frame hnd' hrest'
        (hasTerminators_rewriteAt hF hblk hid) hrun i hnotin (by rw [rewriteAt_length]; omega))]
      exact shouldObfuscate_rewriteAt_self F i RI rv hblk hid
    · exact ih i h

theorem shouldObfuscate_of_newBlocks {F : Function} {i base n t : Nat} {retVal : Value}
    (ht : t < 3) (h : F.blocks[i]? = (newBlocks base n retVal)[t]?) :
    shouldObfuscate F i = some (decide (t = 2)) := by
  have : t = 0 ∨ t = 1 ∨ t = 2 := by omega
  rcases this with h' | h' | h' <;> subst h' <;>
    simp [shouldObfuscate, h, newBlocks, BasicBlock.getTerminator, Instr.isTerminator]

theorem length_filter_range_newReturn (n : Nat) :
    ∀ k, ((List.range (n + 3 * k)).filter
      (fun i => decide (n ≤ i ∧ (i - n) % 3 = 2))).length = k
  | 0 => by
    simp only [Nat.mul_zero, Nat.add_zero, List.length_eq_zero, List.filter_eq_nil_iff]
    intro i hi
    have := List.mem_range.1 hi
    simp; omega
  | k + 1 => by
    have e : n + 3 * (k + 1) = n + 3 * k + 1 + 1 + 1 := by omega
    have h0 : decide (n ≤ n + 3 * k ∧ (n + 3 * k - n) % 3 = 2) = false := by
      apply decide_eq_false; omega
    have h1 : decide (n ≤ n + 3 * k + 1 ∧ (n + 3 * k + 1 - n) % 3 = 2) = false := by
      apply decide_eq_false; omega
    have h2 : decide (n ≤ n + 3 * k + 1 + 1 ∧ (n + 3 * k + 1 + 1 - n) % 3 = 2) = true := by
      apply decide_eq_true; omega
    rw [e, List.range_succ, List.range_succ, List.range_succ]
    simp only [List.filter_append, List.length_append, length_filter_range_newReturn n k,
      List.filter_cons, List.filter_nil, h0, h1, h2]
    simp

/-- After a driver run, the eligible blocks are exactly the `new_return` blocks the run
created. -/
theorem shouldObfuscate_after_run {M M' : Module} {F F' : Function} (hF : HasTerminators F)
    (hrun : runLoop M F (List.range F.blocks.length) = some (M', F')) :
    ∀ i, i < F'.blocks.length →
      shouldObfuscate F' i =
        some (decide (F.blocks.length ≤ i ∧ (i - F.blocks.length) % 3 = 2)) := by
  have hnd := List.nodup_range F.blocks.length
  intro i hi
  rw [runLoop_length hnd (range_lt F) hF hrun] at hi
  by_cases hlt : i < F.blocks.length
  · rw [runLoop_processed_ineligible hnd (range_lt F) hF hrun i (List.mem_range.2 hlt)]
    have : ¬ (F.blocks.length ≤ i) := by omega
    simp [this]
  · have hj : (i - F.blocks.length) / 3 < (eligibleIn F (List.range F.blocks.length)).length := by
      omega
    obtain ⟨RI, rv, _, _, h3⟩ := runLoop_newBlocks hnd (range_lt F) hF hrun
      ((i - F.blocks.length) / 3) _ (List.getElem?_eq_getElem hj)
    have ht : (i - F.blocks.length) % 3 < 3 := Nat.mod_lt _ (by omega)
    have h := h3 _ ht
    have e : F.blocks.length + 3 * ((i - F.blocks.length) / 3) + (i - F.blocks.length) % 3 = i := by
      omega
    rw [e] at h
    rw [shouldObfuscate_of_newBlocks ht h]
    have : F.blocks.length ≤ i := by omega
    simp [this]

theorem eligibleBlocks_after_run {M M' : Module} {F F' : Function} (hF : HasTerminators F)
    (hrun : runLoop M F (List.range F.blocks.length) = some (M', F')) :
    eligibleBlocks F' = (List.range (F.blocks.length + 3 * (eligibleBlocks F).length)).filter
      (fun i => decide (F.blocks.length ≤ i ∧ (i - F.blocks.length) % 3 = 2)) := by
  have hlen := runLoop_length (List.nodup_range _) (range_lt F) hF hrun
  rw [← eligibleBlocks_eq] at hlen
  unfold eligibleBlocks
  rw [hlen]
  apply List.filter_congr
  intro i hi
  have hi' : i < F'.blocks.length := by rw [hlen]; exact List.mem_range.1 hi
  rw [shouldObfuscate_after_run hF hrun i hi']
  by_cases h : F.blocks.length ≤ i ∧ (i - F.blocks.length) % 3 = 2 <;> simp [h]

/-- Claim C8 as stated fails: on `add`, whose single block is eligible, the first run
yields 4 blocks and the second run, applied to that result, yields 7. -/
theorem run_twice_counterexample :
    (run ⟨[]⟩ addF).bind (fun r₁ => (run r₁.1 r₁.2.1).map
      (fun r₂ => (r₁.2.1.blocks.length, r₂.2.1.blocks.length, decide (r₂.2.1 = r₁.2.1)))) =
      some (4, 7, false) := by
  decide

/-- Claim C8, amended. Running the driver on the result `F₁` of a first run of a
function with `n` blocks of which `k` are eligible: in `F₁` no original block, no
`assign_fake` block and no `assign_correct` block is eligible, but each of the `k`
`new_return` blocks is, since it ends in a `ret` with a value. The second run therefore
rewrites exactly these `k` blocks and its result has `3k` more blocks than `F₁`; it
changes nothing only when `k = 0`. -/
theorem run_twice (M : Module) (F : Function) (hF : HasTerminators F) :
    ∃ M₁ F₁ M₂ F₂, run M F = some (M₁, F₁, PreservedAnalyses.none) ∧
      run M₁ F₁ = some (M₂, F₂, PreservedAnalyses.none) ∧
      (∀ i, i < F.blocks.length → shouldObfuscate F₁ i = some false) ∧
      (∀ j, j < (eligibleBlocks F).length →
        (F₁.blocks[F.blocks.length + 3 * j]?).map BasicBlock.name = some "assign_fake" ∧
        shouldObfuscate F₁ (F.blocks.length + 3 * j) = some false ∧
        (F₁.blocks[F.blocks.length + 3 * j + 1]?).map BasicBlock.name = some "assign_correct" ∧
        shouldObfuscate F₁ (F.blocks.length + 3 * j + 1) = some false ∧
        (F₁.blocks[F.blocks.length + 3 * j + 2]?).map BasicBlock.name = some "new_return" ∧
        shouldObfuscate F₁ (F.blocks.length + 3 * j + 2) = some true) ∧
      (∀ i, i ∈ eligibleBlocks F₁ ↔
        ∃ j, j < (eligibleBlocks F).length ∧ i = F.blocks.length + 3 * j + 2) ∧
      rewriterCalls M₁ F₁ (List.range F₁.blocks.length) = eligibleBlocks F₁ ∧
      (eligibleBlocks F₁).length = (eligibleBlocks F).length ∧
      F₂.blocks.length = F₁.blocks.length + 3 * (eligibleBlocks F).length ∧
      ((eligibleBlocks F).length = 0 → M₂ = M₁ ∧ F₂ = F₁) := by
  have hnd := List.nodup_range F.blocks.length
  obtain ⟨M₁, F₁, hrun, hr⟩ := run_isSome M hF
  have hF₁ : HasTerminators F₁ := hasTerminators_runLoop hnd (range_lt F) hF hrun
  obtain ⟨M₂, F₂, hrun₂, hr₂⟩ := run_isSome M₁ hF₁
  have hlen := runLoop_length hnd (range_lt F) hF hrun
  rw [← eligibleBlocks_eq] at hlen
  have hel := eligibleBlocks_after_run hF hrun
  have hcount : (eligibleBlocks F₁).length = (eligibleBlocks F).length := by
    rw [hel]; exact length_filter_range_newReturn _ _
  have hnd₁ := List.nodup_range F₁.blocks.length
  have hlen₂ := runLoop_length hnd₁ (range_lt F₁) hF₁ hrun₂
  rw [← eligibleBlocks_eq, hcount] at hlen₂
  refine ⟨M₁, F₁, M₂, F₂, hr, hr₂, ?_, ?_, ?_,
    rewriterCalls_eq hnd₁ (range_lt F₁) hF₁ hrun₂, hcount, hlen₂, ?_⟩
  · intro i hi
    exact runLoop_processed_ineligible hnd (range_lt F) hF hrun i (List.mem_range.2 hi)
  · intro j hj
    obtain ⟨RI, rv, _, _, h3⟩ := runLoop_newBlocks hnd (range_lt F) hF hrun j
      ((eligibleBlocks F)[j]) (List.getElem?_eq_getElem hj)
    have h0 := h3 0 (by omega)
    have h1 := h3 1 (by omega)
    have h2 := h3 2 (by omega)
    rw [Nat.add_zero] at h0
    refine ⟨by rw [h0]; rfl, ?_, by rw [h1]; rfl, ?_, by rw [h2]; rfl, ?_⟩
    · exact shouldObfuscate_of_newBlocks (t := 0) (by omega) h0
    · exact shouldObfuscate_of_newBlocks (t := 1) (by omega) h1
    · exact shouldObfuscate_of_newBlocks (t := 2) (by omega) h2
  · intro i
    rw [hel, List.mem_filter, List.mem_range]
    simp only [decide_eq_true_eq]
    constructor
    · rintro ⟨h1, h2, h3⟩
      exact ⟨(i - F.blocks.length) / 3, by omega, by omega⟩
    · rintro ⟨j, hj, rfl⟩
      refine ⟨by omega, by omega, by omega⟩
  · intro hk
    have hall : ∀ i ∈ List.range F₁.blocks.length, shouldObfuscate F₁ i = some false := by
      intro i hi
      have hi' := List.mem_range.1 hi
      rw [shouldObfuscate_after_run hF hrun i hi']
      rw [hlen, hk] at hi'
      have : ¬ (F.blocks.length ≤ i ∧ (i - F.blocks.length) % 3 = 2) := by omega
      simp [this]
    have := runLoop_of_all_false M₁ F₁ _ hall
    rw [hrun₂] at this
    cases this
    exact ⟨rfl, rfl⟩

theorem run_twice_witness :
    ∃ M₁ F₁ M₂ F₂, run ⟨[]⟩ addF = some (M₁, F₁, PreservedAnalyses.none) ∧
      run M₁ F₁ = some (M₂, F₂, PreservedAnalyses.none) ∧
      (∀ i, i < addF.blocks.length → shouldObfuscate F₁ i = some false) ∧
      (∀ j, j < (eligibleBlocks addF).length →
        (F₁.blocks[addF.blocks.length + 3 * j]?).map BasicBlock.name = some "assign_fake" ∧
        shouldObfuscate F₁ (addF.blocks.length + 3 * j) = some false ∧
        (F₁.blocks[addF.blocks.length + 3 * j + 1]?).map BasicBlock.name =
          some "assign_correct" ∧
        shouldObfuscate F₁ (addF.blocks.length + 3 * j + 1) = some false ∧
        (F₁.blocks[addF.blocks.length + 3 * j + 2]?).map BasicBlock.name = some "new_return" ∧
        shouldObfuscate F₁ (addF.blocks.length + 3 * j + 2) = some true) ∧
      (∀ i, i ∈ eligibleBlocks F₁ ↔
        ∃ j, j < (eligibleBlocks addF).length ∧ i = addF.blocks.length + 3 * j + 2) ∧
      rewriterCalls M₁ F₁ (List.range F₁.blocks.length) = eligibleBlocks F₁ ∧
      (eligibleBlocks F₁).length = (eligibleBlocks addF).length ∧
      F₂.blocks.length = F₁.blocks.length + 3 * (eligibleBlocks addF).length ∧
      ((eligibleBlocks addF).length = 0 → M₂ = M₁ ∧ F₂ = F₁) :=
  run_twice ⟨[]⟩ addF hasTerminators_addF

/-! ## Result slots of a run -/

theorem sum_map_modify {α : Type} (g : α → Nat) (f : α → α) (c : Nat)
    (hf : ∀ b, g (f b) = g b + c) :
    ∀ (l : List α) (i : Nat), i < l.length → ((l.modify f i).map g).sum = (l.map g).sum + c
  | [], i, h => by simp at h
  | a :: l, 0, _ => by simp [hf a]; omega
  | a :: l, i + 1, h => by
    have h' : i < l.length := by simpa using h
    simp [sum_map_modify g f c hf l i h']; omega

theorem countP_filter_of_imp (p q : Instr → Bool) (l : List Instr)
    (h : ∀ x ∈ l, p x = true → q x = true) : (l.filter q).countP p = l.countP p := by
  induction l with
  | nil => rfl
  | cons a l ih =>
    have ih' := ih (fun x hx => h x (List.mem_cons_of_mem _ hx))
    have ha := h a (List.mem_cons_self _ _)
    by_cases hq : q a = true
    · simp [List.filter_cons, hq, List.countP_cons, ih']
    · have hp : ¬ p a = true := fun hp => hq (ha hp)
      simp [List.filter_cons, hq, List.countP_cons, ih', hp]

theorem slotCount_rewriteAt {F : Function} {BB : Nat} {blk : BasicBlock} {RI : Instr}
    (retVal : Value) {bound : Nat} (hblk : F.blocks[BB]? = some blk)
    (hbound : bound ≤ F.freshId) (hRI : RI.id < bound) :
    slotCount bound (rewriteAt F BB RI retVal) = slotCount bound F + 1 := by
  have hBB : BB < F.blocks.length := (List.getElem?_eq_some_iff.1 hblk).1
  have h0 : 0 < F.blocks.length := by omega
  unfold slotCount rewriteAt
  simp only [List.map_append, List.sum_append]
  rw [sum_map_modify _ _ 0 _ _ _ (by simpa using hBB), sum_map_modify _ _ 1 _ _ _ h0]
  · simp [newBlocks, Instr.isResSlot]
  · intro b
    simp [List.countP_cons, resSlot, Instr.isResSlot, hbound]
  · intro b
    simp only [List.countP_append, Nat.add_zero]
    rw [countP_filter_of_imp]
    · simp [predicateInstrs, opaqueBranch, List.countP_cons, Instr.isResSlot]
    · intro x _ hx
      simp only [Bool.and_eq_true, decide_eq_true_eq] at hx
      have : x.id ≠ RI.id := by omega
      simpa using this

theorem oldTerminators_tail {bound : Nat} {F : Function} {BB : Nat} {rest : List Nat}
    (h : OldTerminators bound F (BB :: rest)) : OldTerminators bound F rest :=
  ⟨h.1, fun i hi => h.2 i (List.mem_cons_of_mem _ hi)⟩

theorem oldTerminators_rewriteAt {bound : Nat} {F : Function} {BB : Nat} {rest : List Nat}
    {blk : BasicBlock} {RI : Instr} {retVal : Value} (h : OldTerminators bound F (BB :: rest))
    (hBB : BB ∉ rest) (hrest : ∀ i ∈ rest, i < F.blocks.length)
    (hblk : F.blocks[BB]? = some blk) (hRI : blk.getTerminator = some RI)
    (hop : RI.op = .ret (some retVal)) :
    OldTerminators bound (rewriteAt F BB RI retVal) rest := by
  refine ⟨by rw [freshId_rewriteAt hblk hRI hop]; have := h.1; omega, ?_⟩
  intro i hi t ht
  have hne : i ≠ BB := fun e => hBB (e ▸ hi)
  rw [rewriteAt_terminator_other F BB RI retVal (hrest i hi) hne] at ht
  exact h.2 i (List.mem_cons_of_mem _ hi) t ht

theorem oldTerminators_head {bound : Nat} {F : Function} {BB : Nat} {rest : List Nat}
    {blk : BasicBlock} {RI : Instr} (h : OldTerminators bound F (BB :: rest))
    (hblk : F.blocks[BB]? = some blk) (hRI : blk.getTerminator = some RI) : RI.id < bound :=
  h.2 BB (List.mem_cons_self _ _) RI (by rw [hblk, Option.map_some', hRI])

theorem oldTerminators_freshId (F : Function) (l : List Nat) :
    OldTerminators F.freshId F l := by
  refine ⟨Nat.le_refl _, ?_⟩
  intro i _ t ht
  cases hb : F.blocks[i]? with
  | none => rw [hb] at ht; simp at ht
  | some b =>
    rw [hb] at ht
    simp only [Option.map_some', Option.some.injEq] at ht
    exact id_lt_freshId (List.getElem?_mem hb) (getTerminator_mem ht)

theorem runLoop_slotCount (bound : Nat) {l : List Nat} {M M' : Module} {F F' : Function}
    (hnd : l.Nodup) (hlt : ∀ i ∈ l, i < F.blocks.length) (hF : HasTerminators F)
    (hrun : runLoop M F l = some (M', F')) :
    OldTerminators bound F l →
      slotCount bound F' = slotCount bound F + (eligibleIn F l).length := by
  refine runLoop_spec
    (P := fun _ F l _ F' => OldTerminators bound F l →
      slotCount bound F' = slotCount bound F + (eligibleIn F l).length)
    ?_ ?_ ?_ hnd hlt hF hrun
  · intro M F _ _; simp [eligibleIn]
  · intro M F BB rest M' F' _ _ _ _ _ hs _ ih hold
    rw [eligibleIn_cons_false rest hs]
    exact ih (oldTerminators_tail hold)
  · intro M F BB rest blk RI rv M' F' _ hBB _ hrest hblk hRI hop _ ih hold
    have hs : shouldObfuscate F BB = some true :=
      shouldObfuscate_eq_true_iff.2 ⟨blk, RI, rv, hblk, hRI, hop⟩
    rw [eligibleIn_cons_true rest hs]
    have := ih (oldTerminators_rewriteAt hold hBB hrest hblk hRI hop)
    rw [eligibleIn_rewriteAt RI rv hBB hrest,
      slotCount_rewriteAt rv hblk hold.1 (oldTerminators_head hold hblk hRI)] at this
    simp only [List.length_cons]; omega

theorem mem_entry_rewriteAt {F : Function} {BB : Nat} {blk e : BasicBlock} {RI : Instr}
    (retVal : Value) {x : Instr} (hblk : F.blocks[BB]? = some blk) (hid : RI.id < F.freshId)
    (he : F.blocks[0]? = some e) (hx : x ∈ e.instrs) (hne : x.id ≠ RI.id) :
    ∃ e', (rewriteAt F BB RI retVal).blocks[0]? = some e' ∧ x ∈ e'.instrs := by
  by_cases h0 : BB = 0
  · subst h0
    rw [he] at hblk; cases hblk
    refine ⟨_, rewriteAt_getElem?_self F 0 RI retVal he hid, ?_⟩
    simp only [List.mem_append, List.mem_filter]
    exact Or.inl (Or.inr ⟨hx, by simpa using hne⟩)
  · exact ⟨_, rewriteAt_getElem?_entry F BB RI retVal he h0, List.mem_cons_of_mem _ hx⟩

theorem resSlot_mem_entry_rewriteAt {F : Function} {BB : Nat} {blk : BasicBlock} {RI : Instr}
    (retVal : Value) (hblk : F.blocks[BB]? = some blk) (hid : RI.id < F.freshId) :
    ∃ e', (rewriteAt F BB RI retVal).blocks[0]? = some e' ∧
      resSlot F.freshId retVal.getType ∈ e'.instrs := by
  have hBB : BB < F.blocks.length := (List.getElem?_eq_some_iff.1 hblk).1
  by_cases h0 : BB = 0
  · subst h0
    refine ⟨_, rewriteAt_getElem?_self F 0 RI retVal hblk hid, ?_⟩
    simp
  · have he : F.blocks[0]? = some F.blocks[0] := List.getElem?_eq_getElem (by omega)
    exact ⟨_, rewriteAt_getElem?_entry F BB RI retVal he h0, List.mem_cons_self _ _⟩

theorem runLoop_entry_mem (bound : Nat) {l : List Nat} {M M' : Module} {F F' : Function}
    (hnd : l.Nodup) (hlt : ∀ i ∈ l, i < F.blocks.length) (hF : HasTerminators F)
    (hrun : runLoop M F l = some (M', F')) :
    OldTerminators bound F l → ∀ x e, F.blocks[0]? = some e → x ∈ e.instrs → bound ≤ x.id →
      ∃ e', F'.blocks[0]? = some e' ∧ x ∈ e'.instrs := by
  refine runLoop_spec
    (P := fun _ F l _ F' => OldTerminators bound F l → ∀ x e, F.blocks[0]? = some e →
      x ∈ e.instrs → bound ≤ x.id → ∃ e', F'.blocks[0]? = some e' ∧ x ∈ e'.instrs)
    ?_ ?_ ?_ hnd hlt hF hrun
  · intro M F _ _ x e he hx _; exact ⟨e, he, hx⟩
  · intro M F BB rest M' F' _ _ _ _ _ _ _ ih hold x e he hx hb
    exact ih (oldTerminators_tail hold) x e he hx hb
  · intro M F BB rest blk RI rv M' F' _ hBB _ hrest hblk hRI hop _ ih hold x e he hx hb
    have hid : RI.id < F.freshId :=
      id_lt_freshId (List.getElem?_mem hblk) (getTerminator_mem hRI)
    have hlt := oldTerminators_head hold hblk hRI
    obtain ⟨e', he', hx'⟩ := mem_entry_rewriteAt rv hblk hid he hx (by omega)
    exact ih (oldTerminators_rewriteAt hold hBB hrest hblk hRI hop) x e' he' hx' hb

theorem runLoop_slot_mem {l : List Nat} {M M' : Module} {F F' : Function}
    (hnd : l.Nodup) (hlt : ∀ i ∈ l, i < F.blocks.length) (hF : HasTerminators F)
    (hrun : runLoop M F l = some (M', F')) :
    ∀ j i, (eligibleIn F l)[j]? = some i → ∀ RI retVal,
      (F.blocks[i]?).map BasicBlock.getTerminator = some (some RI) →
      RI.op = .ret (some retVal) →
      ∃ e', F'.blocks[0]? = some e' ∧
        resSlot (F.freshId + 13 * j) retVal.getType ∈ e'.instrs := by
  refine runLoop_spec
    (P := fun _ F l _ F' => ∀ j i, (eligibleIn F l)[j]? = some i → ∀ RI retVal,
      (F.blocks[i]?).map BasicBlock.getTerminator = some (some RI) →
      RI.op = .ret (some retVal) →
      ∃ e', F'.blocks[0]? = some e' ∧
        resSlot (F.freshId + 13 * j) retVal.getType ∈ e'.instrs)
    ?_ ?_ ?_ hnd hlt hF hrun
  · intro M F _ j i h; simp [eligibleIn] at h
  · intro M F BB rest M' F' _ _ _ _ _ hs _ ih j i h
    rw [eligibleIn_cons_false rest hs] at h
    exact ih j i h
  · intro M F BB rest blk RI rv M' F' hF hBB hnd' hrest hblk hRI hop hrun ih j i h RI' rv' ht hop'
    have hs : shouldObfuscate F BB = some true :=
      shouldObfuscate_eq_true_iff.2 ⟨blk, RI, rv, hblk, hRI, hop⟩
    have hid : RI.id < F.freshId :=
      id_lt_freshId (List.getElem?_mem hblk) (getTerminator_mem hRI)
    have hrest' : ∀ i ∈ rest, i < (rewriteAt F BB RI rv).blocks.length := by
      intro i hi; rw [rewriteAt_length]; have := hrest i hi; omega
    rw [eligibleIn_cons_true rest hs] at h
    cases j with
    | zero =>
      simp only [List.getElem?_cons_zero, Option.some.injEq] at h
      subst h
      rw [hblk, Option.map_some', hRI] at ht
      simp only [Option.some.injEq] at ht
      subst ht
      rw [hop] at hop'
      simp only [Op.ret.injEq, Option.some.injEq] at hop'
      subst hop'
      obtain ⟨e, he, hx⟩ := resSlot_mem_entry_rewriteAt rv hblk hid
      have hold : OldTerminators F.freshId (rewriteAt F BB RI rv) rest :=
        oldTerminators_rewriteAt (oldTerminators_freshId F (BB :: rest)) hBB hrest hblk hRI hop
      exact runLoop_entry_mem F.freshId hnd' hrest' (hasTerminators_rewriteAt hF hblk hid) hrun
        hold _ e he hx (Nat.le_refl _)
    | succ j =>
      simp only [List.getElem?_cons_succ] at h
      rw [← eligibleIn_rewriteAt RI rv hBB hrest] at h
      have himem : i ∈ rest := (List.mem_filter.1 (List.getElem?_mem h)).1
      have hne : i ≠ BB := fun e => hBB (e ▸ himem)
      rw [← rewriteAt_terminator_other F BB RI rv (hrest i himem) hne] at ht
      have := ih j i h RI' rv' ht hop'
      rw [freshId_rewriteAt hblk hRI hop] at this
      have e2 : F.freshId + 13 * (j + 1) = F.freshId + 13 + 13 * j := by omega
      rw [e2]; exact this

theorem slotCount_freshId (F : Function) : slotCount F.freshId F = 0 := by
  unfold slotCount
  apply List.sum_eq_zero
  intro n hn
  obtain ⟨b, hb, rfl⟩ := List.mem_map.1 hn
  rw [List.countP_eq_zero]
  intro a ha
  have := id_lt_freshId hb ha
  simp; intro _; omega

/-- Claim C9 as stated fails: the function with two value-returning blocks has `k = 2`
eligible blocks, and the driver run introduces two result slots, not one; the store of
the first rewrite writes to slot `6`, the store of the second one to slot `19`. -/
theorem run_slots_counterexample :
    (eligibleBlocks twoReturnsF).length = 2 ∧
    (runFunction ⟨[]⟩ twoReturnsF).map (fun F' =>
      (slotCount twoReturnsF.freshId F', (F'.blocks[4]?).map storeAddrs,
        (F'.blocks[7]?).map storeAddrs)) =
      some (2, some [Value.inst .ptr 6], some [Value.inst .ptr 19]) := by
  decide

/-- Claim C9, amended. The result slot is allocated by every rewrite, whether or not one
is present. After a driver run on a function with `k` eligible blocks, the function
contains exactly `k` result-slot `alloca` instructions introduced by the run, one per
rewrite: the `j`-th rewrite allocates the slot `freshId + 13 * j` in the entry block,
and the two stores and the load that this rewrite emits refer to that slot. -/
theorem run_result_slots (M : Module) (F : Function) (hF : HasTerminators F) :
    ∃ M' F', run M F = some (M', F', PreservedAnalyses.none) ∧
      slotCount F.freshId F' = (eligibleBlocks F).length ∧
      ∀ j, j < (eligibleBlocks F).length → ∃ retVal entry,
        F'.blocks[0]? = some entry ∧
        Instr.mk (F.freshId + 13 * j) (.alloca retVal.getType "res.slot") ∈ entry.instrs ∧
        F'.blocks[F.blocks.length + 3 * j]? = some ⟨"assign_fake",
          [⟨F.freshId + 13 * j + 9,
              .store (.poison retVal.getType) (.inst .ptr (F.freshId + 13 * j))⟩,
           ⟨F.freshId + 13 * j + 10, .br (F.blocks.length + 3 * j + 2)⟩]⟩ ∧
        F'.blocks[F.blocks.length + 3 * j + 1]? = some ⟨"assign_correct",
          [⟨F.freshId + 13 * j + 7, .store retVal (.inst .ptr (F.freshId + 13 * j))⟩,
           ⟨F.freshId + 13 * j + 8, .br (F.blocks.length + 3 * j + 2)⟩]⟩ ∧
        F'.blocks[F.blocks.length + 3 * j + 2]? = some ⟨"new_return",
          [⟨F.freshId + 13 * j + 11,
              .load retVal.getType (.inst .ptr (F.freshId + 13 * j))⟩,
           ⟨F.freshId + 13 * j + 12,
              .ret (some (.inst retVal.getType (F.freshId + 13 * j + 11)))⟩]⟩ := by
  have hnd := List.nodup_range F.blocks.length
  obtain ⟨M', F', hrun, hr⟩ := run_isSome M hF
  refine ⟨M', F', hr, ?_, ?_⟩
  · rw [runLoop_slotCount F.freshId hnd (range_lt F) hF hrun (oldTerminators_freshId F _),
      slotCount_freshId, Nat.zero_add, eligibleBlocks_eq]
  · intro j hj
    have hget : (eligibleIn F (List.range F.blocks.length))[j]? = some ((eligibleBlocks F)[j]) :=
      List.getElem?_eq_getElem hj
    obtain ⟨RI, rv, h1, h2, h3⟩ := runLoop_newBlocks hnd (range_lt F) hF hrun j _ hget
    obtain ⟨e, he, hx⟩ := runLoop_slot_mem hnd (range_lt F) hF hrun j _ hget RI rv h1 h2
    have h30 := h3 0 (by omega)
    rw [Nat.add_zero] at h30
    exact ⟨rv, e, he, hx, h30, h3 1 (by omega), h3 2 (by omega)⟩

theorem hasTerminators_twoReturnsF : HasTerminators twoReturnsF := by
  intro b hb
  simp only [twoReturnsF, List.mem_cons, List.mem_singleton, List.not_mem_nil, or_false] at hb
  rcases hb with h | h | h <;> subst h <;> decide

theorem run_result_slots_witness :
    ∃ M' F', run ⟨[]⟩ twoReturnsF = some (M', F', PreservedAnalyses.none) ∧
      slotCount twoReturnsF.freshId F' = (eligibleBlocks twoReturnsF).length ∧
      ∀ j, j < (eligibleBlocks twoReturnsF).length → ∃ retVal entry,
        F'.blocks[0]? = some entry ∧
        Instr.mk (twoReturnsF.freshId + 13 * j) (.alloca retVal.getType "res.slot") ∈
          entry.instrs ∧
        F'.blocks[twoReturnsF.blocks.length + 3 * j]? = some ⟨"assign_fake",
          [⟨twoReturnsF.freshId + 13 * j + 9,
              .store (.poison retVal.getType) (.inst .ptr (twoReturnsF.freshId + 13 * j))⟩,
           ⟨twoReturnsF.freshId + 13 * j + 10, .br (twoReturnsF.blocks.length + 3 * j + 2)⟩]⟩ ∧
        F'.blocks[twoReturnsF.blocks.length + 3 * j + 1]? = some ⟨"assign_correct",
          [⟨twoReturnsF.freshId + 13 * j + 7,
              .store retVal (.inst .ptr (twoReturnsF.freshId + 13 * j))⟩,
           ⟨twoReturnsF.freshId + 13 * j + 8, .br (twoReturnsF.blocks.length + 3 * j + 2)⟩]⟩ ∧
        F'.blocks[twoReturnsF.blocks.length + 3 * j + 2]? = some ⟨"new_return",
          [⟨twoReturnsF.freshId + 13 * j + 11,
              .load retVal.getType (.inst .ptr (twoReturnsF.freshId + 13 * j))⟩,
           ⟨twoReturnsF.freshId + 13 * j + 12,
              .ret (some (.inst retVal.getType (twoReturnsF.freshId + 13 * j + 11)))⟩]⟩ :=
  run_result_slots ⟨[]⟩ twoReturnsF hasTerminators_twoReturnsF

/-! ## Semantic preservation -/

theorem Rel.agree {B : Nat} {s s' : State} (h : Rel B s s') : Agree B s s' :=
  ⟨h.1, h.2.1, h.2.2.1, h.2.2.2.1⟩

theorem evalValue_rel {B : Nat} {s s' : State} (args : List RVal) (h : Agree B s s')
    {v : Value} (hv : v.maxId < B) : evalValue args s' v = evalValue args s v := by
  cases v with
  | inst ty id => exact h.1 id hv
  | _ => rfl

theorem rel_setReg {B : Nat} {s s' : State} (h : Rel B s s') {id : Nat} (hid : id < B)
    (v : RVal) : Rel B (s.setReg id v) (s'.setReg id v) := by
  obtain ⟨h1, h2, h3, h4, h5, h6⟩ := h
  refine ⟨?_, h2, h3, h4, ?_, h6⟩
  · intro i hi
    simp only [State.setReg]
    split
    · rfl
    · exact h1 i hi
  · have : ¬ B = id := by omega
    simp only [State.setReg, this, if_false]
    exact h5

theorem rel_read {B : Nat} {s s' : State} (h : Rel B s s') {a : Addr} {r : RVal}
    (hr : s.read a = some r) : s'.read a = some r := by
  obtain ⟨h1, h2, h3, h4, h5, h6⟩ := h
  cases a with
  | global name => simpa [State.read, h2] using hr
  | stack k =>
    simp only [State.read] at hr ⊢
    by_cases hk : k < B
    · rw [h3 k hk]; exact hr
    · rw [h4 k (by omega)] at hr; cases hr

theorem rel_write {B : Nat} {s s' s₁ : State} (h : Rel B s s') {a : Addr} {v : RVal}
    (hw : s.write a v = some s₁) : ∃ s₁', s'.write a v = some s₁' ∧ Rel B s₁ s₁' := by
  obtain ⟨h1, h2, h3, h4, h5, h6⟩ := h
  cases a with
  | global name =>
    simp only [State.write] at hw ⊢
    rw [h2]
    cases hg : s.globals name with
    | none => rw [hg] at hw; cases hw
    | some old =>
      rw [hg] at hw
      simp only [Option.some.injEq] at hw
      subst hw
      exact ⟨_, rfl, h1, by simp only [h2], h3, h4, h5, h6⟩
  | stack k =>
    simp only [State.write] at hw ⊢
    cases hg : s.stack k with
    | none => rw [hg] at hw; cases hw
    | some old =>
      rw [hg] at hw
      simp only [Option.some.injEq] at hw
      subst hw
      have hk : k < B := by
        by_contra hk
        rw [h4 k (by omega)] at hg; cases hg
      rw [h3 k hk, hg]
      refine ⟨_, rfl, h1, h2, ?_, ?_, h5, ?_⟩
      · intro i hi
        simp only
        split
        · rfl
        · exact h3 i hi
      · intro i hi
        have : ¬ i = k := by omega
        simp only [this, if_false]
        exact h4 i hi
      · have : ¬ B = k := by omega
        simp only [this, if_false]
        exact h6

theorem rel_alloca {B : Nat} {s s' : State} (h : Rel B s s') {id : Nat} (hid : id < B) :
    Rel B
      { (s.setReg id (.ptr (.stack id))) with
        stack := fun k => if k = id then some .poison else s.stack k }
      { (s'.setReg id (.ptr (.stack id))) with
        stack := fun k => if k = id then some .poison else s'.stack k } := by
  obtain ⟨h1, h2, h3, h4, h5, h6⟩ := rel_setReg h hid (.ptr (.stack id))
  refine ⟨h1, h2, ?_, ?_, h5, ?_⟩
  · intro i hi
    simp only
    split
    · rfl
    · exact h.2.2.1 i hi
  · intro i hi
    have : ¬ i = id := by omega
    simp only [this, if_false]
    exact h.2.2.2.1 i hi
  · have : ¬ B = id := by omega
    simp only [this, if_false]
    exact h.2.2.2.2.2

theorem execInstr_sim {B : Nat} {s s' : State} (args : List RVal) (h : Rel B s s')
    {ins : Instr} (hm : ins.maxId < B) :
    CtlSim B (execInstr args s ins) (execInstr args s' ins) := by
  have hid : ins.id < B := by simp only [Instr.maxId] at hm; omega
  have hopm : ins.op.maxId < B := by simp only [Instr.maxId] at hm; omega
  have ha := h.agree
  unfold execInstr
  cases hop : ins.op with
  | ret v =>
    cases v with
    | none => exact ⟨s', rfl, h⟩
    | some v =>
      rw [hop] at hopm
      simp only [evalValue_rel args ha (show v.maxId < B from hopm)]
      cases evalValue args s v with
      | none => trivial
      | some r => exact ⟨s', rfl, h⟩
  | br d => exact ⟨s', rfl, h⟩
  | condBr c t f =>
    rw [hop] at hopm
    simp only [evalValue_rel args ha (show c.maxId < B from hopm)]
    cases evalValue args s c with
    | none => trivial
    | some r =>
      cases r with
      | int n =>
        simp only
        by_cases h1 : n = 1
        · simp only [h1, if_true]; exact ⟨s', rfl, h⟩
        · by_cases h0 : n = 0
          · simp only [h0]; exact ⟨s', rfl, h⟩
          · simp only [h1, h0, if_false]; trivial
      | ptr a => trivial
      | poison => trivial
  | unreachable => trivial
  | alloca ty name => exact ⟨_, rfl, rel_alloca h hid⟩
  | store v p =>
    rw [hop] at hopm
    simp only [Op.maxId] at hopm
    simp only [evalValue_rel args ha (show v.maxId < B by omega),
      evalValue_rel args ha (show p.maxId < B by omega)]
    cases evalValue args s v with
    | none => trivial
    | some r =>
      cases evalValue args s p with
      | none => trivial
      | some q =>
        cases q with
        | int n => trivial
        | poison => trivial
        | ptr a =>
          simp only
          cases hw : s.write a r with
          | none => trivial
          | some s₁ =>
            obtain ⟨s₁', hw', hr⟩ := rel_write h hw
            simp only [hw']
            exact ⟨s₁', rfl, hr⟩
  | load ty p =>
    rw [hop] at hopm
    simp only [evalValue_rel args ha (show p.maxId < B from hopm)]
    cases evalValue args s p with
    | none => trivial
    | some q =>
      cases q with
      | int n => trivial
      | poison => trivial
      | ptr a =>
        simp only
        cases hr : s.read a with
        | none => trivial
        | some r =>
          simp only [rel_read h hr]
          exact ⟨_, rfl, rel_setReg h hid r⟩
  | binop k a b =>
    rw [hop] at hopm
    simp only [Op.maxId] at hopm
    simp only [evalValue_rel args ha (show a.maxId < B by omega),
      evalValue_rel args ha (show b.maxId < B by omega)]
    cases a.getType with
    | ptr => trivial
    | int w =>
      cases evalValue args s a with
      | none => trivial
      | some x =>
        cases evalValue args s b with
        | none => trivial
        | some y =>
          simp only
          cases evalBinOp k w x y with
          | none => trivial
          | some r => exact ⟨_, rfl, rel_setReg h hid r⟩
  | icmp p a b =>
    rw [hop] at hopm
    simp only [Op.maxId] at hopm
    simp only [evalValue_rel args ha (show a.maxId < B by omega),
      evalValue_rel args ha (show b.maxId < B by omega)]
    cases evalValue args s a with
    | none => trivial
    | some x =>
      cases evalValue args s b with
      | none => trivial
      | some y =>
        simp only
        cases evalICmp p x y with
        | none => trivial
        | some r => exact ⟨_, rfl, rel_setReg h hid r⟩

theorem execInstrs_sim {B : Nat} (args : List RVal) :
    ∀ (l : List Instr) {s s' : State}, Rel B s s' → maxIdList l < B →
      CtlSim B (execInstrs args l s) (execInstrs args l s')
  | [], s, s', h, _ => ⟨s', rfl, h⟩
  | ins :: l, s, s', h, hm => by
    simp only [maxIdList] at hm
    have h1 := execInstr_sim args h (show ins.maxId < B by omega)
    simp only [execInstrs]
    cases hc : execInstr args s ins with
    | next s₁ =>
      rw [hc] at h1
      obtain ⟨s₁', e, hr⟩ := h1
      rw [e]
      exact execInstrs_sim args l hr (by omega)
    | jump d s₁ =>
      rw [hc] at h1
      obtain ⟨s₁', e, hr⟩ := h1
      rw [e]; exact ⟨s₁', rfl, hr⟩
    | done v s₁ =>
      rw [hc] at h1
      obtain ⟨s₁', e, hr⟩ := h1
      rw [e]; exact ⟨s₁', rfl, hr⟩
    | ub => trivial

theorem execInstrs_append (args : List RVal) (l₂ : List Instr) :
    ∀ (l₁ : List Instr) (s : State), execInstrs args (l₁ ++ l₂) s =
      match execInstrs args l₁ s with
      | .next s₁ => execInstrs args l₂ s₁
      | c => c
  | [], s => rfl
  | ins :: l₁, s => by
    simp only [List.cons_append, execInstrs]
    cases execInstr args s ins with
    | next s₁ => exact execInstrs_append args l₂ l₁ s₁
    | jump d s₁ => rfl
    | done v s₁ => rfl
    | ub => rfl

theorem terminator_split {b : BasicBlock} {RI : Instr} (hRI : b.getTerminator = some RI)
    (hnd : (b.instrs.map Instr.id).Nodup) :
    ∃ init, b.instrs = init ++ [RI] ∧ b.instrs.filter (fun x => x.id ≠ RI.id) = init := by
  unfold BasicBlock.getTerminator at hRI
  split at hRI
  · rename_i i hi
    split at hRI
    · cases hRI
      obtain ⟨ys, hys⟩ := List.getLast?_eq_some_iff.1 hi
      refine ⟨ys, hys, ?_⟩
      rw [hys] at hnd ⊢
      rw [List.map_append, List.nodup_append] at hnd
      obtain ⟨_, _, hdis⟩ := hnd
      rw [List.filter_append]
      have h1 : ys.filter (fun x => decide (x.id ≠ RI.id)) = ys := by
        rw [List.filter_eq_self]
        intro a ha
        have : a.id ≠ RI.id := by
          intro e
          exact hdis (List.mem_map_of_mem _ ha) (by simp [e])
        simpa using this
      rw [h1]
      simp
    · cases hRI
  · cases hRI

theorem maxIdList_lt_freshId {F : Function} {b : BasicBlock} (hb : b ∈ F.blocks) :
    maxIdList b.instrs < F.freshId := by
  have := maxId_le_maxIdBlocks hb
  simp only [Function.freshId, Function.maxId, BasicBlock.maxId] at *
  omega

theorem agree_alloca {B : Nat} {s s' : State} (args : List RVal) (h : Agree B s s') (ty : Ty) :
    ∃ s'', execInstr args s' (resSlot B ty) = .next s'' ∧ Rel B s s'' := by
  obtain ⟨h1, h2, h3, h4⟩ := h
  refine ⟨_, rfl, ?_, h2, ?_, h4, ?_, ?_⟩
  · intro i hi
    have : ¬ i = B := by omega
    simp only [resSlot, State.setReg, this, if_false]
    exact h1 i hi
  · intro i hi
    have : ¬ i = B := by omega
    simp only [resSlot, this, if_false]
    exact h3 i hi
  · simp [resSlot, State.setReg]
  · simp [resSlot]

theorem exec_opaqueBranch (args : List RVal) (s : State) (B n : Nat)
    (h : s.env (B + 5) = some (.int 1)) :
    execInstrs args [opaqueBranch B n] s = .jump (n + 1) s := by
  simp [execInstrs, execInstr, opaqueBranch, evalValue, h]

theorem rel_afterPredicate {B : Nat} {s s' : State} (h : Rel B s s') (x : Nat) :
    Rel B s (afterPredicate s' (B + 1) x) := by
  obtain ⟨h1, h2, h3, h4, h5, h6⟩ := h
  refine ⟨?_, h2, h3, h4, ?_, h6⟩
  · intro i hi
    rw [afterPredicate_env_other _ _ _ _ (Or.inl (by omega))]
    exact h1 i hi
  · rw [afterPredicate_env_other _ _ _ _ (Or.inl (by omega))]
    exact h5

theorem exec_assign_correct (args : List RVal) (t : State) (B n : Nat) (retVal : Value)
    {r old : RVal} (hev : evalValue args t retVal = some r)
    (hB : t.env B = some (.ptr (.stack B))) (hold : t.stack B = some old) :
    execInstrs args [⟨B + 7, .store retVal (.inst .ptr B)⟩, ⟨B + 8, .br (n + 2)⟩] t =
      .jump (n + 2) { t with stack := fun k => if k = B then some r else t.stack k } := by
  have e1 : execInstr args t ⟨B + 7, .store retVal (.inst .ptr B)⟩ =
      .next { t with stack := fun k => if k = B then some r else t.stack k } := by
    have hp : evalValue args t (.inst .ptr B) = some (.ptr (.stack B)) := hB
    simp only [execInstr, hev, hp, State.write, hold]
  simp only [execInstrs, e1]
  rfl

theorem exec_new_return (args : List RVal) (t : State) (B : Nat) (ty : Ty) {r : RVal}
    (hB : t.env B = some (.ptr (.stack B))) (hslot : t.stack B = some r) :
    ∃ sf, execInstrs args [⟨B + 11, .load ty (.inst .ptr B)⟩,
        ⟨B + 12, .ret (some (.inst ty (B + 11)))⟩] t = .done (some r) sf ∧
      sf.globals = t.globals := by
  have e1 : execInstr args t ⟨B + 11, .load ty (.inst .ptr B)⟩ =
      .next (t.setReg (B + 11) r) := by
    have hp : evalValue args t (.inst .ptr B) = some (.ptr (.stack B)) := hB
    simp only [execInstr, hp, State.read, hslot]
  have e2 : execInstr args (t.setReg (B + 11) r) ⟨B + 12, .ret (some (.inst ty (B + 11)))⟩ =
      .done (some r) (t.setReg (B + 11) r) := by
    have hp : evalValue args (t.setReg (B + 11) r) (.inst ty (B + 11)) = some r := by
      simp [evalValue, State.setReg]
    simp only [execInstr, hp]
  exact ⟨t.setReg (B + 11) r, by simp only [execInstrs, e1, e2], rfl⟩

/-- From the end of the rewritten block on: the predicate holds, `assign_correct` stores
the value and `new_return` returns it. -/
theorem exec_rewritten_tail {B n : Nat} {F' : Function} {retVal : Value} (args : List RVal)
    (hnew : ∀ t, F'.blocks[n + t]? = (newBlocks B n retVal)[t]?)
    {s s' : State} (h : Rel B s s') {x : Nat} (hx : s.globals "bbo" = some (.int x))
    {r : RVal} (hr : evalValue args s retVal = some r) (hrv : retVal.maxId < B)
    (fuel : Nat) :
    ∃ s₁', execInstrs args (predicateInstrs (B + 1) ++ [opaqueBranch B n]) s' =
        .jump (n + 1) s₁' ∧
      ∃ sf', execFrom F' args (fuel + 2) (n + 1) s₁' = .returned (some r) sf' ∧
        sf'.globals = s.globals := by
  have hx' : s'.globals "bbo" = some (.int x) := by rw [h.2.1]; exact hx
  have hrel := rel_afterPredicate h x
  refine ⟨afterPredicate s' (B + 1) x, ?_, ?_⟩
  · rw [execInstrs_append, execInstrs_predicateInstrs args s' (B + 1) x hx']
    exact exec_opaqueBranch args _ B n (afterPredicate_env_pred s' (B + 1) x)
  · obtain ⟨h1, h2, h3, h4, h5, h6⟩ := hrel
    have hb1 := hnew 1
    have hb2 := hnew 2
    simp only [newBlocks, List.getElem?_cons_succ, List.getElem?_cons_zero] at hb1 hb2
    have hev : evalValue args (afterPredicate s' (B + 1) x) retVal = some r := by
      rw [evalValue_rel args ⟨h1, h2, h3, h4⟩ hrv]; exact hr
    obtain ⟨old, hold⟩ := Option.ne_none_iff_exists'.1 h6
    obtain ⟨sf, hsf, hg⟩ := exec_new_return args
      { afterPredicate s' (B + 1) x with
        stack := fun k => if k = B then some r else (afterPredicate s' (B + 1) x).stack k }
      B retVal.getType (r := r) h5 (by simp)
    refine ⟨sf, ?_, by rw [hg]; exact h2⟩
    rw [show fuel + 2 = (fuel + 1) + 1 from rfl, execFrom, hb1]
    simp only [exec_assign_correct args _ B n retVal hev h5 hold]
    rw [execFrom, hb2]
    simp only [hsf]

theorem rewriteAt_block (F : Function) (BB : Nat) (RI : Instr) (retVal : Value) {j : Nat}
    {b : BasicBlock} (hb : F.blocks[j]? = some b) (hid : RI.id < F.freshId) :
    (rewriteAt F BB RI retVal).blocks[j]? =
      some ⟨b.name, (if j = 0 then [resSlot F.freshId retVal.getType] else []) ++
        (if j = BB then b.instrs.filter (fun x => x.id ≠ RI.id) ++
            (predicateInstrs (F.freshId + 1) ++ [opaqueBranch F.freshId F.blocks.length])
          else b.instrs)⟩ := by
  have hj : j < F.blocks.length := (List.getElem?_eq_some_iff.1 hb).1
  by_cases hBB : j = BB
  · subst hBB
    rw [rewriteAt_getElem?_self F j RI retVal hb hid]
    simp
  · by_cases h0 : j = 0
    · subst h0
      rw [rewriteAt_getElem?_entry F BB RI retVal hb (Ne.symm hBB)]
      simp [hBB]
    · rw [rewriteAt_getElem?_other F BB RI retVal hj hBB h0, hb]
      simp [hBB, h0]

theorem exec_pre {B : Nat} (args : List RVal) {s s' : State} (j : Nat) (ty : Ty)
    (hag : Agree B s s')
    (hready : j = 0 ∨ (s'.env B = some (.ptr (.stack B)) ∧ s'.stack B ≠ none)) :
    ∃ s'', execInstrs args (if j = 0 then [resSlot B ty] else []) s' = .next s'' ∧
      Rel B s s'' := by
  by_cases h0 : j = 0
  · obtain ⟨s'', h1, h2⟩ := agree_alloca args hag ty
    refine ⟨s'', ?_, h2⟩
    simp only [h0, if_true, execInstrs, h1]
  · rcases hready with h | h
    · exact absurd h h0
    · refine ⟨s', ?_, hag.1, hag.2.1, hag.2.2.1, hag.2.2.2, h.1, h.2⟩
      simp only [h0, if_false, execInstrs]

theorem execFrom_done {F : Function} (args : List RVal) {j : Nat} {b : BasicBlock}
    (hb : F.blocks[j]? = some b) {s sf : State} {v : Option RVal}
    (h : execInstrs args b.instrs s = .done v sf) (fuel : Nat) :
    execFrom F args (fuel + 1) j s = .returned v sf := by
  simp only [execFrom, hb, h]

theorem execFrom_jump {F : Function} (args : List RVal) {j d : Nat} {b : BasicBlock}
    (hb : F.blocks[j]? = some b) {s s₁ : State}
    (h : execInstrs args b.instrs s = .jump d s₁) (fuel : Nat) :
    execFrom F args (fuel + 1) j s = execFrom F args fuel d s₁ := by
  simp only [execFrom, hb, h]

/-- Simulation of one block of the original function by the rewritten one. -/
theorem block_sim {F : Function} {BB : Nat} {blk : BasicBlock} {RI : Instr} {retVal : Value}
    (hblk : F.blocks[BB]? = some blk) (hRI : blk.getTerminator = some RI)
    (hop : RI.op = .ret (some retVal)) (hnd : (blk.instrs.map Instr.id).Nodup)
    (args : List RVal) {j : Nat} {b : BasicBlock} (hb : F.blocks[j]? = some b)
    {s s' : State} (hag : Agree F.freshId s s')
    (hready : j = 0 ∨
      (s'.env F.freshId = some (.ptr (.stack F.freshId)) ∧ s'.stack F.freshId ≠ none)) :
    match execInstrs args b.instrs s with
    | .jump d s₁ => ∀ fuel, ∃ s₁', Rel F.freshId s₁ s₁' ∧
        execFrom (rewriteAt F BB RI retVal) args (fuel + 1) j s' =
          execFrom (rewriteAt F BB RI retVal) args fuel d s₁'
    | .done v s₁ => (v ≠ none → ∃ x, s₁.globals "bbo" = some (.int x)) →
        ∀ fuel, ∃ sf', execFrom (rewriteAt F BB RI retVal) args (fuel + 3) j s' =
          .returned v sf' ∧ sf'.globals = s₁.globals
    | _ => True := by
  have hmemRI := getTerminator_mem hRI
  have hid : RI.id < F.freshId := id_lt_freshId (List.getElem?_mem hblk) hmemRI
  have hrv : retVal.maxId < F.freshId :=
    retVal_maxId_lt_freshId (List.getElem?_mem hblk) hmemRI hop
  have hb' := rewriteAt_block F BB RI retVal hb hid
  obtain ⟨s'', hpre, hrel⟩ := exec_pre args j retVal.getType hag hready
  have hmax : maxIdList b.instrs < F.freshId := maxIdList_lt_freshId (List.getElem?_mem hb)
  by_cases hBB : j = BB
  · -- the rewritten block
    subst hBB
    rw [hblk] at hb; cases hb
    obtain ⟨init, hsplit, hfilter⟩ := terminator_split hRI hnd
    simp only [if_true, hfilter] at hb'
    have hmaxInit : maxIdList init < F.freshId := by
      rw [hsplit, maxIdList_append] at hmax; omega
    have hsim := execInstrs_sim args init hrel hmaxInit
    have hF'' : execInstrs args ((if j = 0 then [resSlot F.freshId retVal.getType] else []) ++
        (init ++ (predicateInstrs (F.freshId + 1) ++
          [opaqueBranch F.freshId F.blocks.length]))) s' =
        match execInstrs args init s'' with
        | .next s₁ => execInstrs args (predicateInstrs (F.freshId + 1) ++
            [opaqueBranch F.freshId F.blocks.length]) s₁
        | c => c := by
      rw [execInstrs_append, hpre]
      simp only
      rw [execInstrs_append]
    rw [hsplit, execInstrs_append]
    cases hc : execInstrs args init s with
    | jump d s₁ =>
      rw [hc] at hsim
      obtain ⟨s₁', e, hr⟩ := hsim
      intro fuel
      rw [e] at hF''
      exact ⟨s₁', hr, execFrom_jump args hb' hF'' fuel⟩
    | done v s₁ =>
      rw [hc] at hsim
      obtain ⟨s₁', e, hr⟩ := hsim
      intro _ fuel
      rw [e] at hF''
      exact ⟨s₁', execFrom_done args hb' hF'' (fuel + 2), hr.2.1⟩
    | ub => trivial
    | next s₁ =>
      rw [hc] at hsim
      obtain ⟨s₁', e, hr⟩ := hsim
      simp only [execInstrs, execInstr, hop]
      cases hev : evalValue args s₁ retVal with
      | none => trivial
      | some r =>
        simp only
        intro hbbo fuel
        obtain ⟨x, hx⟩ := hbbo (by simp)
        have hnew : ∀ t, (rewriteAt F j RI retVal).blocks[F.blocks.length + t]? =
            (newBlocks F.freshId F.blocks.length retVal)[t]? :=
          fun t => rewriteAt_getElem?_new F j RI retVal t
        obtain ⟨t, ht, sf', hsf, hg⟩ := exec_rewritten_tail args hnew hr hx hev hrv fuel
        rw [e] at hF''
        simp only [ht] at hF''
        refine ⟨sf', ?_, hg⟩
        rw [execFrom_jump args hb' hF'' (fuel + 2)]
        exact hsf
  · -- any other block
    simp only [hBB, if_false] at hb'
    have hsim := execInstrs_sim args b.instrs hrel hmax
    have hF' : execInstrs args ((if j = 0 then [resSlot F.freshId retVal.getType] else []) ++
        b.instrs) s' = execInstrs args b.instrs s'' := by
      rw [execInstrs_append, hpre]
    cases hc : execInstrs args b.instrs s with
    | jump d s₁ =>
      rw [hc] at hsim
      obtain ⟨s₁', e, hr⟩ := hsim
      intro fuel
      rw [e] at hF'
      exact ⟨s₁', hr, execFrom_jump args hb' hF' fuel⟩
    | done v s₁ =>
      rw [hc] at hsim
      obtain ⟨s₁', e, hr⟩ := hsim
      intro _ fuel
      rw [e] at hF'
      exact ⟨s₁', execFrom_done args hb' hF' (fuel + 2), hr.2.1⟩
    | ub => trivial
    | next s₁ => trivial

/-- Simulation of a whole run of the original function by the rewritten one: two more
blocks are entered, the returned value and the module cells are the same. -/
theorem rewriteAt_sim {F : Function} {BB : Nat} {blk : BasicBlock} {RI : Instr}
    {retVal : Value} (hblk : F.blocks[BB]? = some blk) (hRI : blk.getTerminator = some RI)
    (hop : RI.op = .ret (some retVal)) (hnd : (blk.instrs.map Instr.id).Nodup)
    (args : List RVal) :
    ∀ (fuel j : Nat) (s s' : State) (v : Option RVal) (sf : State),
      Agree F.freshId s s' →
      (j = 0 ∨
        (s'.env F.freshId = some (.ptr (.stack F.freshId)) ∧ s'.stack F.freshId ≠ none)) →
      execFrom F args fuel j s = .returned v sf →
      (v ≠ none → ∃ x, sf.globals "bbo" = some (.int x)) →
      ∃ sf', execFrom (rewriteAt F BB RI retVal) args (fuel + 2) j s' = .returned v sf' ∧
        sf'.globals = sf.globals
  | 0, j, s, s', v, sf, _, _, h, _ => by simp [execFrom] at h
  | fuel + 1, j, s, s', v, sf, hag, hready, h, hbbo => by
    rw [execFrom] at h
    cases hb : F.blocks[j]? with
    | none => rw [hb] at h; cases h
    | some b =>
      rw [hb] at h
      simp only at h
      have hblock := block_sim hblk hRI hop hnd args hb hag hready
      cases hc : execInstrs args b.instrs s with
      | jump d s₁ =>
        rw [hc] at h hblock
        simp only at h hblock
        obtain ⟨s₁', hr, he⟩ := hblock (fuel + 2)
        obtain ⟨sf', h1, h2⟩ := rewriteAt_sim hblk hRI hop hnd args fuel d s₁ s₁' v sf hr.agree
          (Or.inr ⟨hr.2.2.2.2.1, hr.2.2.2.2.2⟩) h hbbo
        exact ⟨sf', by rw [he]; exact h1, h2⟩
      | done v' s₁ =>
        rw [hc] at h hblock
        simp only [Outcome.returned.injEq] at h hblock
        obtain ⟨rfl, rfl⟩ := h
        exact hblock hbbo fuel
      | next s₁ => rw [hc] at h; cases h
      | ub => rw [hc] at h; cases h

theorem agree_initial (B : Nat) (g : String → Option RVal) :
    Agree B (State.initial g) (State.initial g) :=
  ⟨fun _ _ => rfl, rfl, fun _ _ => rfl, fun _ _ => rfl⟩

theorem rewriteAt_execute {F : Function} {BB : Nat} {blk : BasicBlock} {RI : Instr}
    {retVal : Value} (hblk : F.blocks[BB]? = some blk) (hRI : blk.getTerminator = some RI)
    (hop : RI.op = .ret (some retVal)) (hnd : (blk.instrs.map Instr.id).Nodup)
    {args : List RVal} {g : String → Option RVal} {fuel : Nat} {v : Option RVal} {sf : State}
    (h : execute F args g fuel = .returned v sf)
    (hbbo : v ≠ none → ∃ x, sf.globals "bbo" = some (.int x)) :
    ∃ sf', execute (rewriteAt F BB RI retVal) args g (fuel + 2) = .returned v sf' ∧
      sf'.globals = sf.globals :=
  rewriteAt_sim hblk hRI hop hnd args fuel 0 _ _ v sf (agree_initial _ g) (Or.inl rfl) h hbbo

theorem execFrom_mono {F : Function} (args : List RVal) :
    ∀ (fuel m j : Nat) (s : State) (v : Option RVal) (sf : State),
      execFrom F args fuel j s = .returned v sf →
      execFrom F args (fuel + m) j s = .returned v sf
  | 0, m, j, s, v, sf, h => by simp [execFrom] at h
  | fuel + 1, m, j, s, v, sf, h => by
    rw [show fuel + 1 + m = (fuel + m) + 1 by omega, execFrom]
    rw [execFrom] at h
    cases hb : F.blocks[j]? with
    | none => rw [hb] at h; cases h
    | some b =>
      rw [hb] at h
      simp only at h ⊢
      cases hc : execInstrs args b.instrs s with
      | jump d s₁ =>
        rw [hc] at h
        exact execFrom_mono args fuel m d s₁ v sf h
      | done v' s₁ => rw [hc] at h; exact h
      | next s₁ => rw [hc] at h; cases h
      | ub => rw [hc] at h; cases h

theorem nodup_ids_append_of_lt {l₁ l₂ : List Instr} {c : Nat}
    (h₁ : (l₁.map Instr.id).Nodup) (h₂ : (l₂.map Instr.id).Nodup)
    (hlt : ∀ x ∈ l₁, x.id < c) (hge : ∀ y ∈ l₂, c ≤ y.id) :
    ((l₁ ++ l₂).map Instr.id).Nodup := by
  rw [List.map_append, List.nodup_append]
  refine ⟨h₁, h₂, ?_⟩
  intro a ha hb
  obtain ⟨x, hx, rfl⟩ := List.mem_map.1 ha
  obtain ⟨y, hy, e⟩ := List.mem_map.1 hb
  have := hlt x hx
  have := hge y hy
  omega

theorem nodup_rewritten_body {F : Function} {b : BasicBlock} {RI : Instr}
    (hmem : b ∈ F.blocks) (hold : (b.instrs.map Instr.id).Nodup) :
    ((b.instrs.filter (fun x => x.id ≠ RI.id) ++
        (predicateInstrs (F.freshId + 1) ++ [opaqueBranch F.freshId F.blocks.length])).map
        Instr.id).Nodup ∧
      ∀ x ∈ b.instrs.filter (fun x => x.id ≠ RI.id) ++
        (predicateInstrs (F.freshId + 1) ++ [opaqueBranch F.freshId F.blocks.length]),
        x.id ≠ F.freshId := by
  have hfl : ∀ x ∈ b.instrs.filter (fun x => x.id ≠ RI.id), x.id < F.freshId + 1 := by
    intro x hx
    have := id_lt_freshId hmem (List.mem_filter.1 hx).1
    omega
  have hnew : ∀ y ∈ predicateInstrs (F.freshId + 1) ++ [opaqueBranch F.freshId F.blocks.length],
      F.freshId + 1 ≤ y.id := by
    intro y hy
    simp only [predicateInstrs, opaqueBranch, List.cons_append, List.nil_append,
      List.mem_cons, List.mem_singleton, List.not_mem_nil, or_false] at hy
    rcases hy with h | h | h | h | h | h <;> subst h <;> simp
  constructor
  · apply nodup_ids_append_of_lt (hold.sublist ((List.filter_sublist _).map _)) _ hfl hnew
    simp [predicateInstrs, opaqueBranch]
  · intro x hx
    rcases List.mem_append.1 hx with h | h
    · have := id_lt_freshId hmem (List.mem_filter.1 h).1
      omega
    · have := hnew x h
      omega

theorem distinctIds_rewriteAt {F : Function} {BB : Nat} {blk : BasicBlock} {RI : Instr}
    {retVal : Value} (hD : DistinctIds F) (hblk : F.blocks[BB]? = some blk)
    (hRI : blk.getTerminator = some RI) : DistinctIds (rewriteAt F BB RI retVal) := by
  have hid : RI.id < F.freshId :=
    id_lt_freshId (List.getElem?_mem hblk) (getTerminator_mem hRI)
  intro b' hb'
  obtain ⟨j, hget⟩ := List.mem_iff_getElem?.1 hb'
  have hj : j < F.blocks.length + 3 := by
    rw [← rewriteAt_length F BB RI retVal]
    exact (List.getElem?_eq_some_iff.1 hget).1
  by_cases hlt : j < F.blocks.length
  · obtain ⟨b, hb⟩ : ∃ b, F.blocks[j]? = some b := ⟨_, List.getElem?_eq_getElem hlt⟩
    have hmem : b ∈ F.blocks := List.getElem?_mem hb
    rw [rewriteAt_block F BB RI retVal hb hid] at hget
    simp only [Option.some.injEq] at hget
    subst hget
    simp only
    have hold := hD _ hmem
    have hbody : ((if j = BB then b.instrs.filter (fun x => x.id ≠ RI.id) ++
            (predicateInstrs (F.freshId + 1) ++ [opaqueBranch F.freshId F.blocks.length])
          else b.instrs).map Instr.id).Nodup ∧
        ∀ x ∈ (if j = BB then b.instrs.filter (fun x => x.id ≠ RI.id) ++
            (predicateInstrs (F.freshId + 1) ++ [opaqueBranch F.freshId F.blocks.length])
          else b.instrs), x.id ≠ F.freshId := by
      by_cases hBB : j = BB
      · simp only [hBB, if_true]
        exact nodup_rewritten_body hmem hold
      · simp only [hBB, if_false]
        exact ⟨hold, fun x hx => by have := id_lt_freshId hmem hx; omega⟩
    by_cases h0 : j = 0
    · simp only [h0, if_true, List.singleton_append, List.map_cons, List.nodup_cons]
      rw [h0] at hbody
      refine ⟨?_, hbody.1⟩
      intro hmem'
      obtain ⟨x, hx, e⟩ := List.mem_map.1 hmem'
      exact hbody.2 x hx e
    · simp only [h0, if_false, List.nil_append]
      exact hbody.1
  · have hnew := rewriteAt_getElem?_new F BB RI retVal (j - F.blocks.length)
    rw [show F.blocks.length + (j - F.blocks.length) = j by omega, hget] at hnew
    have : j - F.blocks.length = 0 ∨ j - F.blocks.length = 1 ∨ j - F.blocks.length = 2 := by
      omega
    rcases this with h | h | h <;> rw [h] at hnew <;>
      simp only [newBlocks, List.getElem?_cons_zero, List.getElem?_cons_succ,
        Option.some.injEq] at hnew <;> subst hnew <;> simp

theorem runLoop_execute {l : List Nat} {M M' : Module} {F F' : Function}
    (hnd : l.Nodup) (hlt : ∀ i ∈ l, i < F.blocks.length) (hF : HasTerminators F)
    (hrun : runLoop M F l = some (M', F')) :
    DistinctIds F → ∀ (args : List RVal) (g : String → Option RVal) (fuel : Nat)
      (v : Option RVal) (sf : State), execute F args g fuel = .returned v sf →
      (v ≠ none → ∃ x, sf.globals "bbo" = some (.int x)) →
      ∃ sf', execute F' args g (fuel + 2 * (eligibleIn F l).length) = .returned v sf' ∧
        sf'.globals = sf.globals := by
  refine runLoop_spec
    (P := fun _ F l _ F' => DistinctIds F → ∀ (args : List RVal) (g : String → Option RVal)
      (fuel : Nat) (v : Option RVal) (sf : State), execute F args g fuel = .returned v sf →
      (v ≠ none → ∃ x, sf.globals "bbo" = some (.int x)) →
      ∃ sf', execute F' args g (fuel + 2 * (eligibleIn F l).length) = .returned v sf' ∧
        sf'.globals = sf.globals)
    ?_ ?_ ?_ hnd hlt hF hrun
  · intro M F _ _ args g fuel v sf h _
    exact ⟨sf, by simpa [eligibleIn] using h, rfl⟩
  · intro M F BB rest M' F' _ _ _ _ _ hs _ ih hD args g fuel v sf h hbbo
    rw [eligibleIn_cons_false rest hs]
    exact ih hD args g fuel v sf h hbbo
  · intro M F BB rest blk RI rv M' F' _ hBB _ hrest hblk hRI hop _ ih hD args g fuel v sf h hbbo
    have hs : shouldObfuscate F BB = some true :=
      shouldObfuscate_eq_true_iff.2 ⟨blk, RI, rv, hblk, hRI, hop⟩
    obtain ⟨sf₁, h₁, hg₁⟩ :=
      rewriteAt_execute hblk hRI hop (hD _ (List.getElem?_mem hblk)) h hbbo
    obtain ⟨sf₂, h₂, hg₂⟩ := ih (distinctIds_rewriteAt hD hblk hRI) args g (fuel + 2) v sf₁ h₁
      (by rw [hg₁]; exact hbbo)
    rw [eligibleIn_rewriteAt RI rv hBB hrest] at h₂
    rw [eligibleIn_cons_true rest hs]
    refine ⟨sf₂, ?_, by rw [hg₂, hg₁]⟩
    rw [show fuel + 2 * (BB :: eligibleIn F rest).length =
      fuel + 2 + 2 * (eligibleIn F rest).length by simp only [List.length_cons]; omega]
    exact h₂

theorem value_eq_some {o : Outcome} {v : Option RVal} (h : o.value = some v) :
    ∃ sf, o = .returned v sf := by
  cases o with
  | returned v' sf => simp only [Outcome.value, Option.some.injEq] at h; exact ⟨sf, by rw [h]⟩
  | ub => cases h
  | timeout => cases h

theorem hasTerminators_poisonBboF : HasTerminators poisonBboF := by
  intro b hb
  simp only [poisonBboF, List.mem_singleton] at hb
  subst hb; decide

theorem distinctIds_poisonBboF : DistinctIds poisonBboF := by
  intro b hb
  simp only [poisonBboF, List.mem_singleton] at hb
  subst hb; decide

/-- Claim C1 fails on `poisonBboF`, a well-formed function (every block ends in a
terminator, identities are distinct) in a module that owns the cell `bbo`: it stores
poison to `bbo` and returns 5. Whatever integer `bbo` holds at the call, the original
returns 5, while the function the driver makes of it loads `bbo` after the store,
branches on a poison condition and so is undefined: it returns no value, for every
positive fuel. -/
theorem run_return_value_divergence :
    HasTerminators poisonBboF ∧ DistinctIds poisonBboF ∧
    bboModule.getNamedGlobal "bbo" ≠ none ∧
    ∃ M' F', run bboModule poisonBboF = some (M', F', PreservedAnalyses.none) ∧
      ∀ x fuel : Nat,
        (execute poisonBboF [] (bboCell x) (fuel + 1)).value = some (some (.int 5)) ∧
        execute F' [] (bboCell x) (fuel + 1) = .ub ∧
        (execute F' [] (bboCell x) (fuel + 1)).value = none :=
  ⟨hasTerminators_poisonBboF, distinctIds_poisonBboF, by decide, _, _, rfl,
    fun _ _ => ⟨rfl, rfl, rfl⟩⟩

/-- Semantic preservation where `bbo` holds an integer. Let `F` be well formed (every
block ends in a terminator, instruction identities are distinct within a block). For
every argument list and every initial content of the module cells: if executing `F`
returns `v`, and in case `v` is a value the cell `bbo` holds an integer at that moment,
then the driver run on `F` completes and executing the function it produces returns the
same `v`, with every module cell as the original run left it, with any fuel that allows
two more blocks for each rewritten block. -/
theorem run_preserves_return_value (M : Module) (F : Function) (hT : HasTerminators F)
    (hD : DistinctIds F) (args : List RVal) (g : String → Option RVal) (fuel : Nat)
    (v : Option RVal) (hret : (execute F args g fuel).value = some v)
    (hbbo : v ≠ none → ∃ x, (execute F args g fuel).finalGlobal "bbo" = some (.int x)) :
    ∃ M' F', run M F = some (M', F', PreservedAnalyses.none) ∧
      ∀ m, fuel + 2 * (eligibleBlocks F).length ≤ m →
        (execute F' args g m).value = some v ∧
        ∀ name, (execute F' args g m).finalGlobal name =
          (execute F args g fuel).finalGlobal name := by
  obtain ⟨M', F', hrun, hr⟩ := run_isSome M hT
  obtain ⟨sf, hsf⟩ := value_eq_some hret
  rw [hsf] at hbbo
  obtain ⟨sf', h', hg⟩ := runLoop_execute (List.nodup_range _) (range_lt F) hT hrun hD args g
    fuel v sf hsf hbbo
  refine ⟨M', F', hr, ?_⟩
  intro m hm
  have hmono := execFrom_mono args _ (m - (fuel + 2 * (eligibleBlocks F).length)) 0 _ v sf' h'
  rw [eligibleBlocks_eq] at hm
  rw [← eligibleBlocks_eq] at hmono
  have e : fuel + 2 * (eligibleBlocks F).length +
      (m - (fuel + 2 * (eligibleBlocks F).length)) = m := by
    rw [eligibleBlocks_eq]; omega
  rw [e] at hmono
  have hm' : execute F' args g m = .returned v sf' := hmono
  rw [hm', hsf]
  exact ⟨rfl, fun name => by simp only [Outcome.finalGlobal, hg]⟩

theorem distinctIds_addF : DistinctIds addF := by
  intro b hb
  simp only [addF, List.mem_singleton] at hb
  subst hb; decide

theorem run_preserves_return_value_witness :
    ∃ M' F', run ⟨[]⟩ addF = some (M', F', PreservedAnalyses.none) ∧
      ∀ m, 1 + 2 * (eligibleBlocks addF).length ≤ m →
        (execute F' [.int 2, .int 3] (bboCell 7) m).value = some (some (.int 5)) ∧
        ∀ name, (execute F' [.int 2, .int 3] (bboCell 7) m).finalGlobal name =
          (execute addF [.int 2, .int 3] (bboCell 7) 1).finalGlobal name :=
  run_preserves_return_value ⟨[]⟩ addF hasTerminators_addF distinctIds_addF [.int 2, .int 3]
    (bboCell 7) 1 (some (.int 5)) (by decide) (fun _ => ⟨7, by decide⟩)

/-- Scenario A on concrete inputs: the obfuscated `add` has 4 blocks and returns 5 on
(2, 3) and 0 on (-1, 1), here with `bbo = 0`. -/
theorem add_scenario :
    (runFunction ⟨[]⟩ addF).map (fun F' =>
      (F'.blocks.length, (execute F' [.int 2, .int 3] (bboCell 0) 3).value,
        (execute F' [.int 4294967295, .int 1] (bboCell 0) 3).value)) =
      some (4, some (some (.int 5)), some (some (.int 0))) := by
  decide

/-! ## One rewrite, block by block -/

theorem not_mem_of_nodup_append_singleton {init : List Instr} {RI : Instr}
    (hnd : ((init ++ [RI]).map Instr.id).Nodup) : ∀ x ∈ init, x.id ≠ RI.id := by
  rw [List.map_append, List.nodup_append] at hnd
  intro x hx e
  exact hnd.2.2 (List.mem_map_of_mem _ hx) (by simp [e])

theorem id_ge_of_mem_tail {B n : Nat} {y : Instr}
    (hy : y ∈ predicateInstrs (B + 1) ++ [opaqueBranch B n]) : B + 1 ≤ y.id := by
  simp only [predicateInstrs, opaqueBranch, List.cons_append, List.nil_append,
    List.mem_cons, List.mem_singleton, List.not_mem_nil, or_false] at hy
  rcases hy with e | e | e | e | e | e <;> rw [e] <;> simp

/-- Claim C12 (original instructions of a rewritten block are kept). Let `BB` be an
eligible block of a function whose instruction identities are distinct within a block,
with instructions `init ++ [RI]`, `RI` the `ret`. After `insertBogusControlFlow` the
block is `init` (every non-terminator instruction, unmodified and in order; preceded by
the new result slot when `BB` is the entry block), followed by the predicate
instructions and the new conditional branch; `RI` is no longer in the block, and it is
the only instruction removed. -/
theorem insertBogusControlFlow_keeps_instructions (M : Module) (F : Function) (BB : Nat)
    (hD : DistinctIds F) (h : shouldObfuscate F BB = some true) :
    ∃ M' F' blk blk' init RI retVal, F.blocks[BB]? = some blk ∧
      blk.getTerminator = some RI ∧ RI.op = .ret (some retVal) ∧ blk.instrs = init ++ [RI] ∧
      insertBogusControlFlow M F BB = some (M', F') ∧ F'.blocks[BB]? = some blk' ∧
      blk'.instrs =
        (if BB = 0 then [Instr.mk F.freshId (.alloca retVal.getType "res.slot")] else []) ++
          init ++ predicateInstrs (F.freshId + 1) ++
          [Instr.mk (F.freshId + 6)
            (.condBr (.inst (.int 1) (F.freshId + 5)) (F.blocks.length + 1) F.blocks.length)] ∧
      RI ∉ blk'.instrs ∧ (∀ x ∈ blk.instrs, x ≠ RI → x ∈ blk'.instrs) := by
  obtain ⟨blk, RI, rv, hblk, hRI, hop⟩ := shouldObfuscate_eq_true_iff.1 h
  have hmem := List.getElem?_mem hblk
  have hid : RI.id < F.freshId := id_lt_freshId hmem (getTerminator_mem hRI)
  obtain ⟨init, hsplit, hfilter⟩ := terminator_split hRI (hD _ hmem)
  have hne : ∀ x ∈ init, x.id ≠ RI.id :=
    not_mem_of_nodup_append_singleton (by rw [← hsplit]; exact hD _ hmem)
  have hb' := rewriteAt_getElem?_self F BB RI rv hblk hid
  rw [hfilter] at hb'
  refine ⟨declareBbo M, rewriteAt F BB RI rv, blk, _, init, RI, rv, hblk, hRI, hop, hsplit,
    insertBogusControlFlow_eq M F BB blk RI rv hblk hRI hop, hb', ?_, ?_, ?_⟩
  · simp only [resSlot, opaqueBranch, List.append_assoc]
  · intro hin
    rcases List.mem_append.1 hin with hx | hx
    · rcases List.mem_append.1 hx with hx | hx
      · split at hx
        · simp only [List.mem_singleton, resSlot] at hx
          rw [hx] at hid
          exact Nat.lt_irrefl _ hid
        · simp at hx
      · exact hne RI hx rfl
    · have := id_ge_of_mem_tail hx
      omega
  · intro x hx hxne
    rw [hsplit] at hx
    rcases List.mem_append.1 hx with h1 | h1
    · simp only [List.mem_append]
      exact Or.inl (Or.inr h1)
    · simp only [List.mem_singleton] at h1
      exact absurd h1 hxne

theorem insertBogusControlFlow_keeps_instructions_witness :
    ∃ M' F' blk blk' init RI retVal, addF.blocks[0]? = some blk ∧
      blk.getTerminator = some RI ∧ RI.op = .ret (some retVal) ∧ blk.instrs = init ++ [RI] ∧
      insertBogusControlFlow ⟨[]⟩ addF 0 = some (M', F') ∧ F'.blocks[0]? = some blk' ∧
      blk'.instrs =
        (if 0 = 0 then [Instr.mk addF.freshId (.alloca retVal.getType "res.slot")] else []) ++
          init ++ predicateInstrs (addF.freshId + 1) ++
          [Instr.mk (addF.freshId + 6)
            (.condBr (.inst (.int 1) (addF.freshId + 5)) (addF.blocks.length + 1)
              addF.blocks.length)] ∧
      RI ∉ blk'.instrs ∧ (∀ x ∈ blk.instrs, x ≠ RI → x ∈ blk'.instrs) :=
  insertBogusControlFlow_keeps_instructions ⟨[]⟩ addF 0 distinctIds_addF rfl

/-- Claim C18 (contents of the three new blocks). For an eligible block `BB` ending in
`ret retVal`, with `T` the type of `retVal`, `insertBogusControlFlow` creates
`assign_fake` as exactly a store of a placeholder of type `T` into the result slot and a
branch to `new_return`; `assign_correct` as exactly a store of `retVal` into the same
slot and a branch to `new_return`; and `new_return` as exactly a load of type `T` from
the same slot and a `ret` of the loaded value. -/
theorem insertBogusControlFlow_new_blocks (M : Module) (F : Function) (BB : Nat)
    (h : shouldObfuscate F BB = some true) :
    ∃ M' F' blk RI retVal, F.blocks[BB]? = some blk ∧ blk.getTerminator = some RI ∧
      RI.op = .ret (some retVal) ∧ insertBogusControlFlow M F BB = some (M', F') ∧
      F'.blocks[F.blocks.length + 1]? = some ⟨"assign_correct",
        [⟨F.freshId + 7, .store retVal (.inst .ptr F.freshId)⟩,
         ⟨F.freshId + 8, .br (F.blocks.length + 2)⟩]⟩ ∧
      F'.blocks[F.blocks.length]? = some ⟨"assign_fake",
        [⟨F.freshId + 9, .store (.poison retVal.getType) (.inst .ptr F.freshId)⟩,
         ⟨F.freshId + 10, .br (F.blocks.length + 2)⟩]⟩ ∧
      (Value.poison retVal.getType).getType = retVal.getType ∧
      F'.blocks[F.blocks.length + 2]? = some ⟨"new_return",
        [⟨F.freshId + 11, .load retVal.getType (.inst .ptr F.freshId)⟩,
         ⟨F.freshId + 12, .ret (some (.inst retVal.getType (F.freshId + 11)))⟩]⟩ ∧
      F'.blocks.length = F.blocks.length + 3 := by
  obtain ⟨blk, RI, rv, hblk, hRI, hop⟩ := shouldObfuscate_eq_true_iff.1 h
  have h0 := rewriteAt_getElem?_new F BB RI rv 0
  rw [Nat.add_zero] at h0
  exact ⟨declareBbo M, rewriteAt F BB RI rv, blk, RI, rv, hblk, hRI, hop,
    insertBogusControlFlow_eq M F BB blk RI rv hblk hRI hop,
    rewriteAt_getElem?_new F BB RI rv 1, h0, rfl, rewriteAt_getElem?_new F BB RI rv 2,
    rewriteAt_length F BB RI rv⟩

theorem insertBogusControlFlow_new_blocks_witness :
    ∃ M' F' blk RI retVal, addF.blocks[0]? = some blk ∧ blk.getTerminator = some RI ∧
      RI.op = .ret (some retVal) ∧ insertBogusControlFlow ⟨[]⟩ addF 0 = some (M', F') ∧
      F'.blocks[addF.blocks.length + 1]? = some ⟨"assign_correct",
        [⟨addF.freshId + 7, .store retVal (.inst .ptr addF.freshId)⟩,
         ⟨addF.freshId + 8, .br (addF.blocks.length + 2)⟩]⟩ ∧
      F'.blocks[addF.blocks.length]? = some ⟨"assign_fake",
        [⟨addF.freshId + 9, .store (.poison retVal.getType) (.inst .ptr addF.freshId)⟩,
         ⟨addF.freshId + 10, .br (addF.blocks.length + 2)⟩]⟩ ∧
      (Value.poison retVal.getType).getType = retVal.getType ∧
      F'.blocks[addF.blocks.length + 2]? = some ⟨"new_return",
        [⟨addF.freshId + 11, .load retVal.getType (.inst .ptr addF.freshId)⟩,
         ⟨addF.freshId + 12, .ret (some (.inst retVal.getType (addF.freshId + 11)))⟩]⟩ ∧
      F'.blocks.length = addF.blocks.length + 3 :=
  insertBogusControlFlow_new_blocks ⟨[]⟩ addF 0 rfl

/-- Claim C19 (placement and type of the result slot). For an eligible block `BB` ending
in `ret retVal`, right after `insertBogusControlFlow` the entry block is still the first
block of the function (same position, same name), its first instruction is the `alloca`
of the slot `freshId`, the allocated type is the type of `retVal`, and the stores in
`assign_correct` and `assign_fake` and the load in `new_return` use that slot. This holds
for every position of `BB`, the entry block included; when `BB` is another block, the
rest of the entry block is as before. -/
theorem insertBogusControlFlow_slot_placement (M : Module) (F : Function) (BB : Nat)
    (h : shouldObfuscate F BB = some true) :
    ∃ M' F' blk RI retVal entry entry', F.blocks[BB]? = some blk ∧
      blk.getTerminator = some RI ∧ RI.op = .ret (some retVal) ∧
      insertBogusControlFlow M F BB = some (M', F') ∧
      F.blocks[0]? = some entry ∧ F'.blocks[0]? = some entry' ∧ entry'.name = entry.name ∧
      entry'.instrs.head? = some ⟨F.freshId, .alloca retVal.getType "res.slot"⟩ ∧
      (BB ≠ 0 → entry'.instrs.tail = entry.instrs) ∧
      (F'.blocks[F.blocks.length + 1]?).map storeAddrs = some [Value.inst .ptr F.freshId] ∧
      (F'.blocks[F.blocks.length]?).map storeAddrs = some [Value.inst .ptr F.freshId] ∧
      (F'.blocks[F.blocks.length + 2]?).map (fun b => b.instrs.head?.map Instr.op) =
        some (some (.load retVal.getType (.inst .ptr F.freshId))) := by
  obtain ⟨blk, RI, rv, hblk, hRI, hop⟩ := shouldObfuscate_eq_true_iff.1 h
  have hid : RI.id < F.freshId :=
    id_lt_freshId (List.getElem?_mem hblk) (getTerminator_mem hRI)
  have hBB : BB < F.blocks.length := (List.getElem?_eq_some_iff.1 hblk).1
  have he : F.blocks[0]? = some F.blocks[0] := List.getElem?_eq_getElem (by omega)
  have he' := rewriteAt_block F BB RI rv he hid
  have h0 := rewriteAt_getElem?_new F BB RI rv 0
  rw [Nat.add_zero] at h0
  refine ⟨declareBbo M, rewriteAt F BB RI rv, blk, RI, rv, _, _, hblk, hRI, hop,
    insertBogusControlFlow_eq M F BB blk RI rv hblk hRI hop, he, he', rfl, ?_, ?_, ?_, ?_, ?_⟩
  · simp [resSlot]
  · intro hne
    have : ¬ (0 = BB) := fun e => hne e.symm
    simp [this]
  · rw [rewriteAt_getElem?_new]; rfl
  · rw [h0]; rfl
  · rw [rewriteAt_getElem?_new]; rfl

theorem insertBogusControlFlow_slot_placement_witness :
    ∃ M' F' blk RI retVal entry entry', addF.blocks[0]? = some blk ∧
      blk.getTerminator = some RI ∧ RI.op = .ret (some retVal) ∧
      insertBogusControlFlow ⟨[]⟩ addF 0 = some (M', F') ∧
      addF.blocks[0]? = some entry ∧ F'.blocks[0]? = some entry' ∧ entry'.name = entry.name ∧
      entry'.instrs.head? = some ⟨addF.freshId, .alloca retVal.getType "res.slot"⟩ ∧
      (0 ≠ 0 → entry'.instrs.tail = entry.instrs) ∧
      (F'.blocks[addF.blocks.length + 1]?).map storeAddrs =
        some [Value.inst .ptr addF.freshId] ∧
      (F'.blocks[addF.blocks.length]?).map storeAddrs = some [Value.inst .ptr addF.freshId] ∧
      (F'.blocks[addF.blocks.length + 2]?).map (fun b => b.instrs.head?.map Instr.op) =
        some (some (.load retVal.getType (.inst .ptr addF.freshId))) :=
  insertBogusControlFlow_slot_placement ⟨[]⟩ addF 0 rfl

/-! ## The module cell `bbo` -/

theorem updateNamed_append_cons (name : String) (f : GlobalVariable → GlobalVariable)
    (g : GlobalVariable) (post : List GlobalVariable) (hg : g.name = name) :
    ∀ pre : List GlobalVariable, (∀ c ∈ pre, c.name ≠ name) →
      updateNamed name f (pre ++ g :: post) = pre ++ f g :: post
  | [], _ => by simp [updateNamed, hg]
  | c :: pre, h => by
    have hc : c.name ≠ name := h c (List.mem_cons_self _ _)
    have ih := updateNamed_append_cons name f g post hg pre
      (fun x hx => h x (List.mem_cons_of_mem _ hx))
    simp [updateNamed, hc, ih]

theorem getNamedGlobal_append_cons (M : Module) (name : String) (pre post : List GlobalVariable)
    (g : GlobalVariable) (hM : M.globals = pre ++ g :: post) (hpre : ∀ c ∈ pre, c.name ≠ name)
    (hg : g.name = name) : M.getNamedGlobal name = some g := by
  unfold Module.getNamedGlobal
  rw [hM, List.find?_append]
  have : pre.find? (fun c => decide (c.name = name)) = none := by
    rw [List.find?_eq_none]
    intro x hx
    simpa using hpre x hx
  rw [this]
  simp [List.find?_cons, hg]

theorem declareBbo_existing (M : Module) (pre post : List GlobalVariable) (g : GlobalVariable)
    (hM : M.globals = pre ++ g :: post) (hpre : ∀ c ∈ pre, c.name ≠ "bbo")
    (hg : g.name = "bbo") :
    (declareBbo M).globals =
      pre ++ { g with linkage := .commonLinkage, initializer := some (.constInt 32 0) } :: post := by
  have h1 := getNamedGlobal_append_cons M "bbo" pre post g hM hpre hg
  simp only [declareBbo, Module.getOrInsertGlobal, h1, Module.setLinkage,
    Module.setInitializer, hM]
  rw [updateNamed_append_cons "bbo" _ g post hg pre hpre]
  rw [updateNamed_append_cons "bbo" _ { g with linkage := .commonLinkage } post hg pre hpre]

theorem declareBbo_absent (M : Module) (h : M.getNamedGlobal "bbo" = none) :
    (declareBbo M).globals = M.globals ++ [bboGlobal] := by
  have hpre : ∀ c ∈ M.globals, c.name ≠ "bbo" := by
    unfold Module.getNamedGlobal at h
    rw [List.find?_eq_none] at h
    intro c hc
    simpa using h c hc
  simp only [declareBbo, Module.getOrInsertGlobal, h, Module.setLinkage, Module.setInitializer]
  rw [updateNamed_append_cons "bbo" _ _ [] rfl M.globals hpre]
  rw [updateNamed_append_cons "bbo" _ _ [] rfl M.globals hpre]
  rfl

theorem declareBbo_declared (M : Module) (G : List GlobalVariable)
    (hM : M.globals = G ++ [bboGlobal]) (hG : ∀ c ∈ G, c.name ≠ "bbo") :
    declareBbo M = M := by
  have h := declareBbo_existing M G [] bboGlobal hM hG rfl
  cases M with
  | mk globals =>
    have h' : (declareBbo ⟨globals⟩).globals = globals := by
      rw [h]; exact hM.symm
    cases hd : declareBbo ⟨globals⟩ with
    | mk globals' =>
      rw [hd] at h'
      simp only at h'
      rw [h']

theorem insertBogusControlFlow_some {M M' : Module} {F F' : Function} {BB : Nat}
    (h : insertBogusControlFlow M F BB = some (M', F')) :
    ∃ blk RI retVal, F.blocks[BB]? = some blk ∧ blk.getTerminator = some RI ∧
      RI.op = .ret (some retVal) ∧ M' = declareBbo M ∧ F' = rewriteAt F BB RI retVal := by
  have hs : shouldObfuscate F BB = some true := by
    unfold insertBogusControlFlow at h
    unfold shouldObfuscate
    split at h
    · cases h
    · rename_i blk hblk
      split at h
      · cases h
      · rename_i RI hRI
        split at h
        · rename_i v hv
          simp [hv]
        · cases h
  obtain ⟨blk, RI, rv, hblk, hRI, hop⟩ := shouldObfuscate_eq_true_iff.1 hs
  rw [insertBogusControlFlow_eq M F BB blk RI rv hblk hRI hop] at h
  simp only [Option.some.injEq, Prod.mk.injEq] at h
  exact ⟨blk, RI, rv, hblk, hRI, hop, h.1.symm, h.2.symm⟩

theorem module_eq_of_globals {M N : Module} (h : M.globals = N.globals) : M = N := by
  cases M; cases N; simp only at h; rw [h]

/-- Claim C20 (a pre-existing `bbo` cell is overwritten). If the module already owns a
32-bit cell named `bbo`, whatever its linkage and initializer, `generateOpaquePredicate`
adds no cell: the module keeps its cells in place, and the cell `bbo` now has common
linkage and initializer 0. The same holds for the module after any rewrite. -/
theorem generateOpaquePredicate_overwrites_cell (M : Module) (F : Function) (BB base : Nat)
    (pre post : List GlobalVariable) (g : GlobalVariable)
    (hM : M.globals = pre ++ g :: post) (hpre : ∀ c ∈ pre, c.name ≠ "bbo")
    (hg : g.name = "bbo") (hty : g.valueType = .int 32) :
    (generateOpaquePredicate M F BB base).1.globals =
      pre ++ ⟨"bbo", .int 32, .commonLinkage, some (.constInt 32 0)⟩ :: post ∧
    (generateOpaquePredicate M F BB base).1.globals.length = M.globals.length ∧
    (generateOpaquePredicate M F BB base).1.getNamedGlobal "bbo" =
      some ⟨"bbo", .int 32, .commonLinkage, some (.constInt 32 0)⟩ ∧
    ∀ BB' M' F', insertBogusControlFlow M F BB' = some (M', F') →
      M'.globals = pre ++ ⟨"bbo", .int 32, .commonLinkage, some (.constInt 32 0)⟩ :: post := by
  have h := declareBbo_existing M pre post g hM hpre hg
  have hcell : ({ g with linkage := .commonLinkage, initializer := some (.constInt 32 0) } :
      GlobalVariable) = ⟨"bbo", .int 32, .commonLinkage, some (.constInt 32 0)⟩ := by
    cases g
    simp only at hg hty
    rw [hg, hty]
  rw [hcell] at h
  have hgop : (generateOpaquePredicate M F BB base).1 = declareBbo M := by
    rw [generateOpaquePredicate_eq]
  refine ⟨by rw [hgop]; exact h, by rw [hgop, h, hM]; simp, ?_, ?_⟩
  · rw [hgop]
    exact getNamedGlobal_append_cons _ "bbo" pre post _ h hpre rfl
  · intro BB' M' F' hrun
    obtain ⟨_, _, _, _, _, _, hM', _⟩ := insertBogusControlFlow_some hrun
    rw [hM']; exact h

theorem generateOpaquePredicate_overwrites_cell_witness :
    (generateOpaquePredicate bboModule addF 0 3).1.globals =
      [⟨"counter", .int 32, .internalLinkage, some (.constInt 32 1)⟩] ++
        ⟨"bbo", .int 32, .commonLinkage, some (.constInt 32 0)⟩ :: [] ∧
    (generateOpaquePredicate bboModule addF 0 3).1.globals.length = bboModule.globals.length ∧
    (generateOpaquePredicate bboModule addF 0 3).1.getNamedGlobal "bbo" =
      some ⟨"bbo", .int 32, .commonLinkage, some (.constInt 32 0)⟩ ∧
    ∀ BB' M' F', insertBogusControlFlow bboModule addF BB' = some (M', F') →
      M'.globals = [⟨"counter", .int 32, .internalLinkage, some (.constInt 32 1)⟩] ++
        ⟨"bbo", .int 32, .commonLinkage, some (.constInt 32 0)⟩ :: [] :=
  generateOpaquePredicate_overwrites_cell bboModule addF 0 3
    [⟨"counter", .int 32, .internalLinkage, some (.constInt 32 1)⟩] []
    ⟨"bbo", .int 32, .externalLinkage, some (.constInt 32 7)⟩ rfl (by decide) rfl rfl

theorem rewriteStep_some {st st₁ : Module × List Function} {p : Nat × Nat}
    (h : rewriteStep st p = some st₁) :
    st₁.1 = declareBbo st.1 ∧ ∃ F' blk pre base t, st₁.2[p.1]? = some F' ∧
      F'.blocks[p.2]? = some blk ∧ blk.instrs = pre ++ predicateInstrs base ++ [t] := by
  unfold rewriteStep at h
  split at h
  · cases h
  · rename_i F hF
    split at h
    · cases h
    · rename_i M' F' hrun
      simp only [Option.some.injEq] at h
      subst h
      obtain ⟨blk, RI, rv, hblk, hRI, hop, hM', hF'⟩ := insertBogusControlFlow_some hrun
      have hid : RI.id < F.freshId :=
        id_lt_freshId (List.getElem?_mem hblk) (getTerminator_mem hRI)
      have hself := rewriteAt_getElem?_self F p.2 RI rv hblk hid
      rw [← hF'] at hself
      refine ⟨hM', F', _, (if p.2 = 0 then [resSlot F.freshId rv.getType] else []) ++
        blk.instrs.filter (fun x => x.id ≠ RI.id), F.freshId + 1,
        opaqueBranch F.freshId F.blocks.length, ?_, hself, ?_⟩
      · exact List.getElem?_set_self (List.getElem?_eq_some_iff.1 hF).1
      · simp only [List.append_assoc]

theorem rewriteSeq_declared (M₁ : Module) (h₁ : declareBbo M₁ = M₁) :
    ∀ (steps : List (Nat × Nat)) (st st' : Module × List Function),
      declareBbo st.1 = M₁ → rewriteSeq st steps = some st' →
      (steps ≠ [] → st'.1 = M₁) ∧
      ∀ (i : Nat) (p : Nat × Nat), steps[i]? = some p →
        ∃ Fs F' blk pre base t, rewriteSeq st (steps.take (i + 1)) = some (M₁, Fs) ∧
          Fs[p.1]? = some F' ∧ F'.blocks[p.2]? = some blk ∧
          blk.instrs = pre ++ predicateInstrs base ++ [t]
  | [], st, st', _, _ => ⟨fun h => absurd rfl h, fun i p h => by simp at h⟩
  | q :: ps, st, st', hst, hrun => by
    rw [rewriteSeq] at hrun
    cases hq : rewriteStep st q with
    | none => rw [hq] at hrun; cases hrun
    | some st₁ =>
      rw [hq] at hrun
      simp only at hrun
      obtain ⟨hM, F', blk, pre, base, t, hF', hblk, hins⟩ := rewriteStep_some hq
      have hst₁ : st₁.1 = M₁ := by rw [hM, hst]
      have ih := rewriteSeq_declared M₁ h₁ ps st₁ st' (by rw [hst₁]; exact h₁) hrun
      constructor
      · intro _
        cases ps with
        | nil =>
          simp only [rewriteSeq, Option.some.injEq] at hrun
          rw [← hrun]; exact hst₁
        | cons r rs => exact ih.1 (by simp)
      · intro i p hp
        cases i with
        | zero =>
          simp only [List.getElem?_cons_zero, Option.some.injEq] at hp
          subst hp
          refine ⟨st₁.2, F', blk, pre, base, t, ?_, hF', hblk, hins⟩
          simp only [Nat.zero_add, List.take_succ_cons, List.take_zero, rewriteSeq, hq]
          rw [← hst₁]
        | succ i =>
          simp only [List.getElem?_cons_succ] at hp
          obtain ⟨Fs, F'', blk', pre', base', t', h1, h2, h3, h4⟩ := ih.2 i p hp
          refine ⟨Fs, F'', blk', pre', base', t', ?_, h2, h3, h4⟩
          simp only [List.take_succ_cons, rewriteSeq, hq]
          exact h1

/-- Claim C13 (get-or-create of the shared cell). Start from a module without a cell
named `bbo` and perform any non-empty sequence of rewrites, on blocks of one or several
of its functions. Afterwards the module has its earlier cells and exactly one cell named
`bbo`, of type `i32`, with initializer 0 (and common linkage); and after each rewrite
of the sequence the module is already that module and the rewritten block ends in the
predicate instructions, whose first is the load of `i32` from the cell named `bbo`,
followed by the branch. -/
theorem rewriteSeq_one_cell (M : Module) (Fs : List Function) (steps : List (Nat × Nat))
    (M' : Module) (Fs' : List Function) (hM : M.getNamedGlobal "bbo" = none)
    (hne : steps ≠ []) (hrun : rewriteSeq (M, Fs) steps = some (M', Fs')) :
    M'.globals = M.globals ++ [⟨"bbo", .int 32, .commonLinkage, some (.constInt 32 0)⟩] ∧
    (M'.globals.filter (fun c => c.name = "bbo")).length = 1 ∧
    M'.getNamedGlobal "bbo" = some ⟨"bbo", .int 32, .commonLinkage, some (.constInt 32 0)⟩ ∧
    ∀ (i : Nat) (p : Nat × Nat), steps[i]? = some p →
      ∃ Fsᵢ F' blk pre base t, rewriteSeq (M, Fs) (steps.take (i + 1)) = some (M', Fsᵢ) ∧
        Fsᵢ[p.1]? = some F' ∧ F'.blocks[p.2]? = some blk ∧
        blk.instrs = pre ++ predicateInstrs base ++ [t] ∧
        (predicateInstrs base).head? = some ⟨base, .load (.int 32) (.global "bbo")⟩ := by
  have hpre : ∀ c ∈ M.globals, c.name ≠ "bbo" := by
    unfold Module.getNamedGlobal at hM
    rw [List.find?_eq_none] at hM
    intro c hc
    simpa using hM c hc
  have habs := declareBbo_absent M hM
  have hfix : declareBbo (declareBbo M) = declareBbo M :=
    declareBbo_declared _ M.globals habs hpre
  obtain ⟨h1, h2⟩ := rewriteSeq_declared (declareBbo M) hfix steps (M, Fs) (M', Fs') rfl hrun
  have hM' : M' = declareBbo M := h1 hne
  have hg : M'.globals = M.globals ++ [bboGlobal] := by rw [hM']; exact habs
  refine ⟨hg, ?_, ?_, ?_⟩
  · rw [hg, List.filter_append]
    have : M.globals.filter (fun c => decide (c.name = "bbo")) = [] := by
      rw [List.filter_eq_nil_iff]
      intro c hc
      simpa using hpre c hc
    rw [this]
    rfl
  · exact getNamedGlobal_append_cons M' "bbo" M.globals [] bboGlobal hg hpre rfl
  · intro i p hp
    obtain ⟨Fsᵢ, F', blk, pre, base, t, e1, e2, e3, e4⟩ := h2 i p hp
    exact ⟨Fsᵢ, F', blk, pre, base, t, by rw [hM']; exact e1, e2, e3, e4, rfl⟩

theorem rewriteSeq_one_cell_witness :
    ∃ M' Fs', rewriteSeq (⟨[]⟩, [addF, twoReturnsF]) [(1, 1), (0, 0), (1, 2)] = some (M', Fs') ∧
    M'.globals = (Module.mk []).globals ++
      [⟨"bbo", .int 32, .commonLinkage, some (.constInt 32 0)⟩] ∧
    (M'.globals.filter (fun c => c.name = "bbo")).length = 1 ∧
    M'.getNamedGlobal "bbo" = some ⟨"bbo", .int 32, .commonLinkage, some (.constInt 32 0)⟩ ∧
    ∀ (i : Nat) (p : Nat × Nat), [(1, 1), (0, 0), (1, 2)][i]? = some p →
      ∃ Fsᵢ F' blk pre base t,
        rewriteSeq (⟨[]⟩, [addF, twoReturnsF]) (([(1, 1), (0, 0), (1, 2)] : List (Nat × Nat)).take
          (i + 1)) = some (M', Fsᵢ) ∧
        Fsᵢ[p.1]? = some F' ∧ F'.blocks[p.2]? = some blk ∧
        blk.instrs = pre ++ predicateInstrs base ++ [t] ∧
        (predicateInstrs base).head? = some ⟨base, .load (.int 32) (.global "bbo")⟩ :=
  ⟨_, _, rfl, rewriteSeq_one_cell ⟨[]⟩ [addF, twoReturnsF] [(1, 1), (0, 0), (1, 2)] _ _ rfl
    (by simp) rfl⟩

/-! ## Blocks the run does not rewrite -/

theorem runLoop_stable {l : List Nat} {M M' : Module} {F F' : Function}
    (hnd : l.Nodup) (hlt : ∀ i ∈ l, i < F.blocks.length) (hF : HasTerminators F)
    (hrun : runLoop M F l = some (M', F')) :
    ∀ j b, F.blocks[j]? = some b → (j ∉ l ∨ shouldObfuscate F j = some false) →
      ∃ pre, F'.blocks[j]? = some ⟨b.name, pre ++ b.instrs⟩ ∧
        (∀ x ∈ pre, x.isResSlot = true ∧ F.freshId ≤ x.id) ∧
        pre.length = if j = 0 then (eligibleIn F l).length else 0 := by
  refine runLoop_spec
    (P := fun _ F l _ F' => ∀ j b, F.blocks[j]? = some b →
      (j ∉ l ∨ shouldObfuscate F j = some false) →
      ∃ pre, F'.blocks[j]? = some ⟨b.name, pre ++ b.instrs⟩ ∧
        (∀ x ∈ pre, x.isResSlot = true ∧ F.freshId ≤ x.id) ∧
        pre.length = if j = 0 then (eligibleIn F l).length else 0)
    ?_ ?_ ?_ hnd hlt hF hrun
  · intro M F _ j b hb _
    exact ⟨[], by simpa using hb, by simp, by simp [eligibleIn]⟩
  · intro M F BB rest M' F' _ _ _ _ _ hs _ ih j b hb hj
    rw [eligibleIn_cons_false rest hs]
    refine ih j b hb ?_
    rcases hj with h | h
    · exact Or.inl (fun hm => h (List.mem_cons_of_mem _ hm))
    · exact Or.inr h
  · intro M F BB rest blk RI rv M' F' _ hBB _ hrest hblk hRI hop _ ih j b hb hj
    have hs : shouldObfuscate F BB = some true :=
      shouldObfuscate_eq_true_iff.2 ⟨blk, RI, rv, hblk, hRI, hop⟩
    have hne : j ≠ BB := by
      rintro rfl
      rcases hj with h | h
      · exact h (List.mem_cons_self _ _)
      · rw [hs] at h; cases h
    have hid : RI.id < F.freshId :=
      id_lt_freshId (List.getElem?_mem hblk) (getTerminator_mem hRI)
    have hjlt : j < F.blocks.length := (List.getElem?_eq_some_iff.1 hb).1
    have hb1 := rewriteAt_block F BB RI rv hb hid
    rw [if_neg hne] at hb1
    have hj1 : j ∉ rest ∨ shouldObfuscate (rewriteAt F BB RI rv) j = some false := by
      rcases hj with h | h
      · exact Or.inl (fun hm => h (List.mem_cons_of_mem _ hm))
      · right; rw [shouldObfuscate_rewriteAt_other F BB RI rv hjlt hne]; exact h
    obtain ⟨pre1, h1, h2, h3⟩ := ih j _ hb1 hj1
    refine ⟨pre1 ++ (if j = 0 then [resSlot F.freshId rv.getType] else []), ?_, ?_, ?_⟩
    · rw [h1]; simp only [List.append_assoc]
    · intro x hx
      rcases List.mem_append.1 hx with h | h
      · obtain ⟨a, c⟩ := h2 x h
        rw [freshId_rewriteAt hblk hRI hop] at c
        exact ⟨a, by omega⟩
      · split at h
        · simp only [List.mem_singleton] at h
          subst h
          exact ⟨rfl, Nat.le_refl _⟩
        · simp at h
    · rw [eligibleIn_cons_true rest hs, List.length_append, h3,
        eligibleIn_rewriteAt RI rv hBB hrest]
      by_cases h0 : j = 0 <;> simp [h0]

theorem runLoop_rewritten_terminator {l : List Nat} {M M' : Module} {F F' : Function}
    (hnd : l.Nodup) (hlt : ∀ i ∈ l, i < F.blocks.length) (hF : HasTerminators F)
    (hrun : runLoop M F l = some (M', F')) :
    ∀ k i, (eligibleIn F l)[k]? = some i →
      (F'.blocks[i]?).map BasicBlock.getTerminator =
        some (some (opaqueBranch (F.freshId + 13 * k) (F.blocks.length + 3 * k))) := by
  refine runLoop_spec
    (P := fun _ F l _ F' => ∀ k i, (eligibleIn F l)[k]? = some i →
      (F'.blocks[i]?).map BasicBlock.getTerminator =
        some (some (opaqueBranch (F.freshId + 13 * k) (F.blocks.length + 3 * k))))
    ?_ ?_ ?_ hnd hlt hF hrun
  · intro M F _ k i h; simp [eligibleIn] at h
  · intro M F BB rest M' F' _ _ _ _ _ hs _ ih k i h
    rw [eligibleIn_cons_false rest hs] at h
    exact ih k i h
  · intro M F BB rest blk RI rv M' F' hF hBB hnd' hrest hblk hRI hop hrun ih k i h
    have hs : shouldObfuscate F BB = some true :=
      shouldObfuscate_eq_true_iff.2 ⟨blk, RI, rv, hblk, hRI, hop⟩
    have hBBlt : BB < F.blocks.length := (List.getElem?_eq_some_iff.1 hblk).1
    have hid : RI.id < F.freshId :=
      id_lt_freshId (List.getElem?_mem hblk) (getTerminator_mem hRI)
    have hrest' : ∀ i ∈ rest, i < (rewriteAt F BB RI rv).blocks.length := by
      intro i hi; rw [rewriteAt_length]; have := hrest i hi; omega
    rw [eligibleIn_cons_true rest hs] at h
    cases k with
    | zero =>
      simp only [List.getElem?_cons_zero, Option.some.injEq] at h
      subst h
      rw [runLoop_terminator_frame hnd' hrest' (hasTerminators_rewriteAt hF hblk hid) hrun
        BB hBB (by rw [rewriteAt_length]; omega)]
      simp only [Nat.mul_zero, Nat.add_zero]
      exact rewriteAt_terminator_self F BB RI rv hblk hid
    | succ k =>
      simp only [List.getElem?_cons_succ] at h
      rw [← eligibleIn_rewriteAt RI rv hBB hrest] at h
      rw [ih k i h, freshId_rewriteAt hblk hRI hop, rewriteAt_length]
      have e1 : F.freshId + 13 + 13 * k = F.freshId + 13 * (k + 1) := by omega
      have e2 : F.blocks.length + 3 + 3 * k = F.blocks.length + 3 * (k + 1) := by omega
      rw [e1, e2]

/-- Claim C11 as stated fails for the entry block: in the function with two
value-returning arms, the entry block ends in a conditional branch and is not eligible,
yet after the run its instruction list starts with the two result slots of the rewritten
arms and so differs from the list before the run. -/
theorem run_ineligible_entry_counterexample :
    shouldObfuscate twoReturnsF 0 = some false ∧
    ∃ M' F', run ⟨[]⟩ twoReturnsF = some (M', F', PreservedAnalyses.none) ∧
      (F'.blocks[0]?).map BasicBlock.instrs =
        some [⟨19, .alloca (.int 32) "res.slot"⟩, ⟨6, .alloca (.int 32) "res.slot"⟩,
              ⟨1, .icmp .eq (.argument (.int 32) 0) (.constInt 32 0)⟩,
              ⟨2, .condBr (.inst (.int 1) 1) 1 2⟩] ∧
      (F'.blocks[0]?).map BasicBlock.instrs ≠ (twoReturnsF.blocks[0]?).map BasicBlock.instrs :=
  ⟨rfl, _, _, rfl, rfl, by decide⟩

/-- Claim C11, amended (no partial application). On a function whose blocks all end in a
terminator, the run completes and every originally present block that is not eligible
keeps its name and its instructions, in order, as a suffix of its final instruction
list. A block other than the entry block is left exactly as it was. The entry block
receives, in front of its instructions, one result slot per eligible block of the
function, each a fresh `alloca` named `res.slot`. -/
theorem run_ineligible_blocks (M : Module) (F : Function) (hF : HasTerminators F) :
    ∃ M' F', run M F = some (M', F', PreservedAnalyses.none) ∧
      ∀ j b, F.blocks[j]? = some b → shouldObfuscate F j = some false →
        (j ≠ 0 → F'.blocks[j]? = some b) ∧
        ∃ pre, F'.blocks[j]? = some ⟨b.name, pre ++ b.instrs⟩ ∧
          (∀ x ∈ pre, x.isResSlot = true ∧ F.freshId ≤ x.id) ∧
          pre.length = if j = 0 then (eligibleBlocks F).length else 0 := by
  obtain ⟨M', F', hrun, hr⟩ := run_isSome M hF
  refine ⟨M', F', hr, ?_⟩
  intro j b hb hj
  obtain ⟨pre, h1, h2, h3⟩ :=
    runLoop_stable (List.nodup_range _) (range_lt F) hF hrun j b hb (Or.inr hj)
  rw [← eligibleBlocks_eq] at h3
  refine ⟨?_, pre, h1, h2, h3⟩
  intro h0
  rw [if_neg h0] at h3
  have hp : pre = [] := List.length_eq_zero.1 h3
  rw [h1, hp]
  rfl

theorem run_ineligible_blocks_witness :
    ∃ M' F', run ⟨[]⟩ twoReturnsF = some (M', F', PreservedAnalyses.none) ∧
      ∀ j b, twoReturnsF.blocks[j]? = some b → shouldObfuscate twoReturnsF j = some false →
        (j ≠ 0 → F'.blocks[j]? = some b) ∧
        ∃ pre, F'.blocks[j]? = some ⟨b.name, pre ++ b.instrs⟩ ∧
          (∀ x ∈ pre, x.isResSlot = true ∧ twoReturnsF.freshId ≤ x.id) ∧
          pre.length = if j = 0 then (eligibleBlocks twoReturnsF).length else 0 :=
  run_ineligible_blocks ⟨[]⟩ twoReturnsF hasTerminators_twoReturnsF

/-- Claim C15 as stated fails: the function of Scenario C has three blocks, two of them
value-returning; the run rewrites both and the result has nine blocks, the original
count plus six, not plus four. -/
theorem run_two_returns_counterexample :
    twoReturnsF.blocks.length = 3 ∧ eligibleBlocks twoReturnsF = [1, 2] ∧
    ∃ M' F', run ⟨[]⟩ twoReturnsF = some (M', F', PreservedAnalyses.none) ∧
      F'.blocks.length = 9 ∧ F'.blocks.length ≠ twoReturnsF.blocks.length + 4 :=
  ⟨rfl, rfl, _, _, rfl, rfl, by decide⟩

/-- Claim C15, amended (Scenario C block count). On a function whose blocks all end in a
terminator and of which exactly two, `i` and `j`, end in a `ret` with a value, a single
run invokes the rewriter on `i` and then on `j`; both stay in the function and now end
in the conditional branch of their rewrite; and the final block count is the original
count plus 6, three new blocks per rewritten block. -/
theorem run_two_returns (M : Module) (F : Function) (i j : Nat) (hF : HasTerminators F)
    (hE : eligibleBlocks F = [i, j]) :
    ∃ M' F', run M F = some (M', F', PreservedAnalyses.none) ∧
      rewriterCalls M F (List.range F.blocks.length) = [i, j] ∧
      F'.blocks.length = F.blocks.length + 6 ∧
      (F'.blocks[i]?).map BasicBlock.getTerminator =
        some (some ⟨F.freshId + 6, .condBr (.inst (.int 1) (F.freshId + 5))
          (F.blocks.length + 1) F.blocks.length⟩) ∧
      (F'.blocks[j]?).map BasicBlock.getTerminator =
        some (some ⟨F.freshId + 19, .condBr (.inst (.int 1) (F.freshId + 18))
          (F.blocks.length + 4) (F.blocks.length + 3)⟩) ∧
      (F'.blocks.map BasicBlock.name).drop F.blocks.length =
        ["assign_fake", "assign_correct", "new_return",
         "assign_fake", "assign_correct", "new_return"] := by
  obtain ⟨M', F', hrun, hr⟩ := run_isSome M hF
  have hnd := List.nodup_range F.blocks.length
  have hE' : eligibleIn F (List.range F.blocks.length) = [i, j] := by
    rw [← eligibleBlocks_eq]; exact hE
  have hlen : F'.blocks.length = F.blocks.length + 6 := by
    rw [runLoop_length hnd (range_lt F) hF hrun, hE']; rfl
  have ht := runLoop_rewritten_terminator hnd (range_lt F) hF hrun
  have hn := runLoop_newBlocks hnd (range_lt F) hF hrun
  refine ⟨M', F', hr, ?_, hlen, ?_, ?_, ?_⟩
  · rw [rewriterCalls_eq hnd (range_lt F) hF hrun, hE']
  · have h := ht 0 i (by rw [hE']; rfl)
    rw [h]; rfl
  · have h := ht 1 j (by rw [hE']; rfl)
    rw [h]; rfl
  · obtain ⟨_, rv0, _, _, h0⟩ := hn 0 i (by rw [hE']; rfl)
    obtain ⟨_, rv1, _, _, h1⟩ := hn 1 j (by rw [hE']; rfl)
    apply List.ext_getElem?
    intro t
    rw [List.getElem?_drop, List.getElem?_map]
    by_cases h6 : t < 6
    · have : t = 0 ∨ t = 1 ∨ t = 2 ∨ t = 3 ∨ t = 4 ∨ t = 5 := by omega
      rcases this with e | e | e | e | e | e <;> subst e
      · rw [show F.blocks.length + 0 = F.blocks.length + 3 * 0 + 0 from rfl, h0 0 (by omega)]
        rfl
      · rw [show F.blocks.length + 1 = F.blocks.length + 3 * 0 + 1 from rfl, h0 1 (by omega)]
        rfl
      · rw [show F.blocks.length + 2 = F.blocks.length + 3 * 0 + 2 from rfl, h0 2 (by omega)]
        rfl
      · rw [show F.blocks.length + 3 = F.blocks.length + 3 * 1 + 0 from rfl, h1 0 (by omega)]
        rfl
      · rw [show F.blocks.length + 4 = F.blocks.length + 3 * 1 + 1 from rfl, h1 1 (by omega)]
        rfl
      · rw [show F.blocks.length + 5 = F.blocks.length + 3 * 1 + 2 from rfl, h1 2 (by omega)]
        rfl
    · rw [List.getElem?_eq_none (by omega)]
      rw [List.getElem?_eq_none (by simp; omega)]
      rfl

theorem run_two_returns_witness :
    ∃ M' F', run ⟨[]⟩ twoReturnsF = some (M', F', PreservedAnalyses.none) ∧
      rewriterCalls ⟨[]⟩ twoReturnsF (List.range twoReturnsF.blocks.length) = [1, 2] ∧
      F'.blocks.length = twoReturnsF.blocks.length + 6 ∧
      (F'.blocks[1]?).map BasicBlock.getTerminator =
        some (some ⟨twoReturnsF.freshId + 6, .condBr (.inst (.int 1) (twoReturnsF.freshId + 5))
          (twoReturnsF.blocks.length + 1) twoReturnsF.blocks.length⟩) ∧
      (F'.blocks[2]?).map BasicBlock.getTerminator =
        some (some ⟨twoReturnsF.freshId + 19,
          .condBr (.inst (.int 1) (twoReturnsF.freshId + 18))
          (twoReturnsF.blocks.length + 4) (twoReturnsF.blocks.length + 3)⟩) ∧
      (F'.blocks.map BasicBlock.name).drop twoReturnsF.blocks.length =
        ["assign_fake", "assign_correct", "new_return",
         "assign_fake", "assign_correct", "new_return"] :=
  run_two_returns ⟨[]⟩ twoReturnsF 1 2 hasTerminators_twoReturnsF rfl

/-! ## Well-formedness -/

theorem countP_filter_split (p q : Instr → Bool) :
    ∀ l : List Instr, (l.filter q).countP p + (l.filter (fun x => !q x)).countP p = l.countP p
  | [] => rfl
  | x :: l => by
    have ih := countP_filter_split p q l
    cases hq : q x <;> cases hp : p x <;>
      simp [List.filter_cons, List.countP_cons, hq, hp] <;> omega

theorem countP_erased {b : BasicBlock} {RI : Instr} (hwf : b.WellFormed)
    (hRI : b.getTerminator = some RI) :
    (b.instrs.filter (fun x => x.id ≠ RI.id)).countP Instr.isTerminator = 0 := by
  have hsplit := countP_filter_split Instr.isTerminator (fun x => decide (x.id ≠ RI.id)) b.instrs
  have hmem : RI ∈ b.instrs.filter (fun x => !decide (x.id ≠ RI.id)) := by
    rw [List.mem_filter]
    exact ⟨getTerminator_mem hRI, by simp⟩
  have hterm : RI.isTerminator = true := by
    unfold BasicBlock.getTerminator at hRI
    split at hRI
    · split at hRI
      · cases hRI; assumption
      · cases hRI
    · cases hRI
  have hpos : 0 < (b.instrs.filter (fun x => !decide (x.id ≠ RI.id))).countP Instr.isTerminator :=
    List.countP_pos_iff.2 ⟨RI, hmem, hterm⟩
  have := hwf.1
  omega

theorem getTerminator_append_of_ne_nil (name : String) (pre l : List Instr) (h : l ≠ []) :
    (BasicBlock.mk name (pre ++ l)).getTerminator = (BasicBlock.mk name l).getTerminator := by
  simp only [BasicBlock.getTerminator]
  rw [List.getLast?_append_of_ne_nil _ h]

theorem wellFormed_instrs_ne_nil {b : BasicBlock} (h : b.WellFormed) : b.instrs ≠ [] := by
  intro hnil
  have := h.1
  rw [hnil] at this
  simp at this

theorem wellFormed_rewriteAt {F : Function} {BB : Nat} {blk : BasicBlock} {RI : Instr}
    (retVal : Value) (hwf : ∀ b ∈ F.blocks, b.WellFormed) (hblk : F.blocks[BB]? = some blk)
    (hRI : blk.getTerminator = some RI) :
    ∀ b ∈ (rewriteAt F BB RI retVal).blocks, b.WellFormed := by
  have hid : RI.id < F.freshId :=
    id_lt_freshId (List.getElem?_mem hblk) (getTerminator_mem hRI)
  intro b' hb'
  obtain ⟨j, hj, rfl⟩ := List.getElem_of_mem hb'
  rw [rewriteAt_length] at hj
  have hget : (rewriteAt F BB RI retVal).blocks[j]? = some (rewriteAt F BB RI retVal).blocks[j] :=
    List.getElem?_eq_getElem _
  generalize (rewriteAt F BB RI retVal).blocks[j] = b' at hget
  by_cases hlt : j < F.blocks.length
  · have hb : F.blocks[j]? = some F.blocks[j] := List.getElem?_eq_getElem hlt
    have hbwf := hwf _ (List.getElem?_mem hb)
    rw [rewriteAt_block F BB RI retVal hb hid] at hget
    simp only [Option.some.injEq] at hget
    subst hget
    have hslot : (if j = 0 then [resSlot F.freshId retVal.getType] else []).countP
        Instr.isTerminator = 0 := by
      split <;> rfl
    by_cases hBB : j = BB
    · subst hBB
      rw [hb] at hblk
      simp only [Option.some.injEq] at hblk
      rw [hblk] at hbwf ⊢
      rw [if_pos rfl]
      constructor
      · simp only [List.countP_append, hslot, countP_erased hbwf hRI]
        rfl
      · rw [← List.append_assoc, ← List.append_assoc,
          getTerminator_append_singleton _ _ (opaqueBranch F.freshId F.blocks.length) rfl]
        simp
    · rw [if_neg hBB]
      constructor
      · simp only [List.countP_append, hslot, hbwf.1]
      · rw [getTerminator_append_of_ne_nil _ _ _ (wellFormed_instrs_ne_nil hbwf)]
        exact hbwf.2
  · have hnew := rewriteAt_getElem?_new F BB RI retVal (j - F.blocks.length)
    rw [show F.blocks.length + (j - F.blocks.length) = j by omega, hget] at hnew
    have : j - F.blocks.length = 0 ∨ j - F.blocks.length = 1 ∨ j - F.blocks.length = 2 := by
      omega
    rcases this with e | e | e <;> rw [e] at hnew <;>
      simp only [newBlocks, List.getElem?_cons_zero, List.getElem?_cons_succ,
        Option.some.injEq] at hnew <;> subst hnew <;>
      exact ⟨rfl, by simp [BasicBlock.getTerminator, Instr.isTerminator]⟩

theorem mem_rewriteAt {F : Function} {BB : Nat} {blk : BasicBlock} {RI : Instr}
    (retVal : Value) (hblk : F.blocks[BB]? = some blk) (hRI : blk.getTerminator = some RI)
    {b' : BasicBlock} {x : Instr} (hb' : b' ∈ (rewriteAt F BB RI retVal).blocks)
    (hx : x ∈ b'.instrs) :
    (∃ b ∈ F.blocks, x ∈ b.instrs) ∨ x = resSlot F.freshId retVal.getType ∨
      x ∈ predicateInstrs (F.freshId + 1) ++ [opaqueBranch F.freshId F.blocks.length] ∨
      ∃ nb ∈ newBlocks F.freshId F.blocks.length retVal, x ∈ nb.instrs := by
  have hid : RI.id < F.freshId :=
    id_lt_freshId (List.getElem?_mem hblk) (getTerminator_mem hRI)
  obtain ⟨j, hj, rfl⟩ := List.getElem_of_mem hb'
  rw [rewriteAt_length] at hj
  have hget : (rewriteAt F BB RI retVal).blocks[j]? = some (rewriteAt F BB RI retVal).blocks[j] :=
    List.getElem?_eq_getElem _
  generalize (rewriteAt F BB RI retVal).blocks[j] = b' at hget hx
  by_cases hlt : j < F.blocks.length
  · have hb : F.blocks[j]? = some F.blocks[j] := List.getElem?_eq_getElem hlt
    rw [rewriteAt_block F BB RI retVal hb hid] at hget
    simp only [Option.some.injEq] at hget
    subst hget
    simp only at hx
    rcases List.mem_append.1 hx with h | h
    · split at h
      · simp only [List.mem_singleton] at h; exact Or.inr (Or.inl h)
      · simp at h
    · split at h
      · rcases List.mem_append.1 h with h | h
        · exact Or.inl ⟨_, List.getElem?_mem hb, (List.mem_filter.1 h).1⟩
        · exact Or.inr (Or.inr (Or.inl h))
      · exact Or.inl ⟨_, List.getElem?_mem hb, h⟩
  · have hnew := rewriteAt_getElem?_new F BB RI retVal (j - F.blocks.length)
    rw [show F.blocks.length + (j - F.blocks.length) = j by omega, hget] at hnew
    exact Or.inr (Or.inr (Or.inr ⟨b', List.getElem?_mem hnew.symm, hx⟩))

theorem targets_emitted {B n : Nat} {retVal : Value} {x : Instr}
    (hx : x = resSlot B retVal.getType ∨
      x ∈ predicateInstrs (B + 1) ++ [opaqueBranch B n] ∨
      ∃ nb ∈ newBlocks B n retVal, x ∈ nb.instrs) :
    ∀ d ∈ x.targets, d = n ∨ d = n + 1 ∨ d = n + 2 := by
  rcases hx with h | h | ⟨nb, hnb, h⟩
  · subst h; intro d hd; simp [Instr.targets, resSlot] at hd
  · simp only [predicateInstrs, opaqueBranch, List.cons_append, List.nil_append, List.mem_cons,
      List.mem_singleton, List.not_mem_nil, or_false] at h
    rcases h with e | e | e | e | e | e <;> subst e <;> intro d hd <;>
      first
        | (simp [Instr.targets] at hd; done)
        | (simp [Instr.targets] at hd; omega)
  · simp only [newBlocks, List.mem_cons, List.mem_singleton, List.not_mem_nil, or_false] at hnb
    rcases hnb with e | e | e <;> subst e <;>
      simp only [List.mem_cons, List.mem_singleton, List.not_mem_nil, or_false] at h <;>
      rcases h with e | e <;> subst e <;> intro d hd <;>
      simp [Instr.targets] at hd <;> omega

theorem targetsInRange_rewriteAt {F : Function} {BB : Nat} {blk : BasicBlock} {RI : Instr}
    (retVal : Value) (hT : TargetsInRange F) (hblk : F.blocks[BB]? = some blk)
    (hRI : blk.getTerminator = some RI) : TargetsInRange (rewriteAt F BB RI retVal) := by
  intro b' hb' x hx d hd
  rw [rewriteAt_length]
  rcases mem_rewriteAt retVal hblk hRI hb' hx with ⟨b, hb, hxb⟩ | h
  · have := hT b hb x hxb d hd; omega
  · have := targets_emitted h d hd; omega

theorem runLoop_wellFormed {l : List Nat} {M M' : Module} {F F' : Function}
    (hnd : l.Nodup) (hlt : ∀ i ∈ l, i < F.blocks.length) (hF : HasTerminators F)
    (hrun : runLoop M F l = some (M', F')) :
    ((∀ b ∈ F.blocks, b.WellFormed) → ∀ b ∈ F'.blocks, b.WellFormed) ∧
      (TargetsInRange F → TargetsInRange F') := by
  refine runLoop_spec
    (P := fun _ F _ _ F' => ((∀ b ∈ F.blocks, b.WellFormed) → ∀ b ∈ F'.blocks, b.WellFormed) ∧
      (TargetsInRange F → TargetsInRange F'))
    ?_ ?_ ?_ hnd hlt hF hrun
  · intro M F _; exact ⟨id, id⟩
  · intro M F BB rest M' F' _ _ _ _ _ _ _ ih; exact ih
  · intro M F BB rest blk RI rv M' F' _ _ _ _ hblk hRI _ _ ih
    exact ⟨fun h => ih.1 (wellFormed_rewriteAt rv h hblk hRI),
      fun h => ih.2 (targetsInRange_rewriteAt rv h hblk hRI)⟩

/-- Claim C17 (well-formedness is preserved). If every block of `F` has exactly one
terminator and it is the block's last instruction, the run completes and the same holds
for every block of the result: the blocks left alone, the rewritten blocks and the new
blocks. If moreover every branch of `F` goes to a block of `F`, every branch of the
result goes to a block of the result. -/
theorem run_preserves_wellFormed (M : Module) (F : Function)
    (hwf : ∀ b ∈ F.blocks, b.WellFormed) :
    ∃ M' F', run M F = some (M', F', PreservedAnalyses.none) ∧
      (∀ b ∈ F'.blocks, b.WellFormed) ∧ (TargetsInRange F → TargetsInRange F') := by
  have hF : HasTerminators F := fun b hb => (hwf b hb).2
  obtain ⟨M', F', hrun, hr⟩ := run_isSome M hF
  obtain ⟨h1, h2⟩ := runLoop_wellFormed (List.nodup_range _) (range_lt F) hF hrun
  exact ⟨M', F', hr, h1 hwf, h2⟩

theorem wellFormed_twoReturnsF : ∀ b ∈ twoReturnsF.blocks, b.WellFormed := by
  intro b hb
  simp only [twoReturnsF, List.mem_cons, List.mem_singleton, List.not_mem_nil, or_false] at hb
  rcases hb with h | h | h <;> subst h <;> exact ⟨rfl, by decide⟩

theorem targetsInRange_twoReturnsF : TargetsInRange twoReturnsF := by
  unfold TargetsInRange
  decide

theorem run_preserves_wellFormed_witness :
    (∀ b ∈ twoReturnsF.blocks, b.WellFormed) ∧ TargetsInRange twoReturnsF ∧
    ∃ M' F', run ⟨[]⟩ twoReturnsF = some (M', F', PreservedAnalyses.none) ∧
      (∀ b ∈ F'.blocks, b.WellFormed) ∧ (TargetsInRange twoReturnsF → TargetsInRange F') :=
  ⟨wellFormed_twoReturnsF, targetsInRange_twoReturnsF,
    run_preserves_wellFormed ⟨[]⟩ twoReturnsF wellFormed_twoReturnsF⟩

/-! ## The fake path -/

/-- Claim C16 fails on `poisonBboF`, a function whose blocks end in terminators and
whose branches stay inside it, run in a module that owns the cell `bbo`. The driver
rewrites its entry block into the result slot, the original store of poison to `bbo`,
the predicate instructions and the conditional branch to `assign_correct` (block 2) and
`assign_fake` (block 1). Whatever integer `bbo` holds at the call, the original returns
5, whereas in the result the predicate is computed on the poison the store left in
`bbo`: the emitted branch is undefined behaviour, it does not transfer control to
`assign_correct`, and the call is undefined for every positive fuel. -/
theorem fake_path_divergence :
    HasTerminators poisonBboF ∧ TargetsInRange poisonBboF ∧
    bboModule.getNamedGlobal "bbo" ≠ none ∧
    ∃ M' F' entry, run bboModule poisonBboF = some (M', F', PreservedAnalyses.none) ∧
      F'.blocks[0]? = some entry ∧
      entry.instrs =
        [⟨3, .alloca (.int 32) "res.slot"⟩, ⟨1, .store (.poison (.int 32)) (.global "bbo")⟩,
         ⟨4, .load (.int 32) (.global "bbo")⟩,
         ⟨5, .binop .add (.inst (.int 32) 4) (.constInt 32 1)⟩,
         ⟨6, .binop .mul (.inst (.int 32) 4) (.inst (.int 32) 5)⟩,
         ⟨7, .binop .and (.inst (.int 32) 6) (.constInt 32 1)⟩,
         ⟨8, .icmp .eq (.inst (.int 32) 7) (.constInt 32 0)⟩,
         ⟨9, .condBr (.inst (.int 1) 8) 2 1⟩] ∧
      (F'.blocks[1]?).map BasicBlock.name = some "assign_fake" ∧
      (F'.blocks[2]?).map BasicBlock.name = some "assign_correct" ∧
      ∀ x fuel : Nat,
        (execute poisonBboF [] (bboCell x) (fuel + 1)).value = some (some (.int 5)) ∧
        ∃ s, execInstrs [] (entry.instrs.take 7) (State.initial (bboCell x)) = .next s ∧
          s.globals "bbo" = some .poison ∧
          evalValue [] s (.inst (.int 1) 8) = some .poison ∧
          execInstr [] s ⟨9, .condBr (.inst (.int 1) 8) 2 1⟩ = .ub ∧
          execInstrs [] entry.instrs (State.initial (bboCell x)) = .ub ∧
          execute F' [] (bboCell x) (fuel + 1) = .ub := by
  refine ⟨hasTerminators_poisonBboF, ?_, by decide, _, _, _, rfl, rfl, rfl, rfl, rfl, ?_⟩
  · unfold TargetsInRange
    decide
  · intro x fuel
    exact ⟨rfl, _, rfl, rfl, rfl, rfl, rfl, rfl⟩

/-! ## The instructions a run emits -/

theorem runLoop_instrs {l : List Nat} {M M' : Module} {F F' : Function}
    (hnd : l.Nodup) (hlt : ∀ i ∈ l, i < F.blocks.length) (hF : HasTerminators F)
    (hrun : runLoop M F l = some (M', F')) :
    ∀ b ∈ F'.blocks, ∀ x ∈ b.instrs, (∃ b0 ∈ F.blocks, x ∈ b0.instrs) ∨
      ∃ k i RI rv, (eligibleIn F l)[k]? = some i ∧
        (F.blocks[i]?).map BasicBlock.getTerminator = some (some RI) ∧
        RI.op = .ret (some rv) ∧
        (x = resSlot (F.freshId + 13 * k) rv.getType ∨
          x ∈ predicateInstrs (F.freshId + 13 * k + 1) ++
            [opaqueBranch (F.freshId + 13 * k) (F.blocks.length + 3 * k)] ∨
          ∃ nb ∈ newBlocks (F.freshId + 13 * k) (F.blocks.length + 3 * k) rv,
            x ∈ nb.instrs) := by
  refine runLoop_spec
    (P := fun _ F l _ F' => ∀ b ∈ F'.blocks, ∀ x ∈ b.instrs,
      (∃ b0 ∈ F.blocks, x ∈ b0.instrs) ∨
      ∃ k i RI rv, (eligibleIn F l)[k]? = some i ∧
        (F.blocks[i]?).map BasicBlock.getTerminator = some (some RI) ∧
        RI.op = .ret (some rv) ∧
        (x = resSlot (F.freshId + 13 * k) rv.getType ∨
          x ∈ predicateInstrs (F.freshId + 13 * k + 1) ++
            [opaqueBranch (F.freshId + 13 * k) (F.blocks.length + 3 * k)] ∨
          ∃ nb ∈ newBlocks (F.freshId + 13 * k) (F.blocks.length + 3 * k) rv,
            x ∈ nb.instrs))
    ?_ ?_ ?_ hnd hlt hF hrun
  · intro M F _ b hb x hx; exact Or.inl ⟨b, hb, hx⟩
  · intro M F BB rest M' F' _ _ _ _ _ hs _ ih b hb x hx
    rw [eligibleIn_cons_false rest hs]
    exact ih b hb x hx
  · intro M F BB rest blk RI rv M' F' hF hBB hnd' hrest hblk hRI hop hrun ih b hb x hx
    have hs : shouldObfuscate F BB = some true :=
      shouldObfuscate_eq_true_iff.2 ⟨blk, RI, rv, hblk, hRI, hop⟩
    rw [eligibleIn_cons_true rest hs]
    rcases ih b hb x hx with ⟨b1, hb1, hx1⟩ | ⟨k, i, RI', rv', h, h1, h2, h3⟩
    · rcases mem_rewriteAt rv hblk hRI hb1 hx1 with h | h
      · exact Or.inl h
      · refine Or.inr ⟨0, BB, RI, rv, by simp, by rw [hblk, Option.map_some', hRI], hop, ?_⟩
        simpa only [Nat.mul_zero, Nat.add_zero] using h
    · rw [eligibleIn_rewriteAt RI rv hBB hrest] at h
      have himem : i ∈ rest := (List.mem_filter.1 (List.getElem?_mem h)).1
      have hne : i ≠ BB := fun h => hBB (h ▸ himem)
      rw [rewriteAt_terminator_other F BB RI rv (hrest i himem) hne] at h1
      refine Or.inr ⟨k + 1, i, RI', rv', by simpa using h, h1, h2, ?_⟩
      rw [rewriteAt_length, freshId_rewriteAt hblk hRI hop] at h3
      have e2 : F.freshId + 13 * (k + 1) = F.freshId + 13 + 13 * k := by omega
      have e3 : F.blocks.length + 3 * (k + 1) = F.blocks.length + 3 + 3 * k := by omega
      rw [e2, e3]; exact h3

theorem emitted_operands {B m : Nat} {rv : Value} {x : Instr}
    (hx : x = resSlot B rv.getType ∨ x ∈ predicateInstrs (B + 1) ++ [opaqueBranch B m] ∨
      ∃ nb ∈ newBlocks B m rv, x ∈ nb.instrs) :
    B ≤ x.id ∧ (∀ v p, x.op = .store v p → p = .inst .ptr B) ∧
      (x.mentions "bbo" = true → x.op = .load (.int 32) (.global "bbo") ∨
        (x.op = .store (.global "bbo") (.inst .ptr B) ∧ rv = .global "bbo")) := by
  rcases hx with h | h | ⟨nb, hnb, h⟩
  · subst h
    simp [resSlot, Instr.mentions, Op.operands]
  · simp only [predicateInstrs, opaqueBranch, List.cons_append, List.nil_append, List.mem_cons,
      List.mem_singleton, List.not_mem_nil, or_false] at h
    rcases h with e | e | e | e | e | e <;> subst e <;>
      simp [Instr.mentions, Op.operands] <;> omega
  · simp only [newBlocks, List.mem_cons, List.mem_singleton, List.not_mem_nil, or_false] at hnb
    rcases hnb with e | e | e <;> subst e <;>
      simp only [List.mem_cons, List.mem_singleton, List.not_mem_nil, or_false] at h <;>
      rcases h with e | e <;> subst e <;>
      first
        | (simp [Instr.mentions, Op.operands]; done)
        | (simp [Instr.mentions, Op.operands]; exact fun h => h.symm)

theorem hasTerminators_bboAddrF : HasTerminators bboAddrF := by
  intro b hb
  simp only [bboAddrF, List.mem_singleton] at hb
  subst hb
  decide

/-- Claim C14 as stated fails in its last part: when a function returns the address of
`bbo`, the run emits into `assign_correct` the store of that return value into the
result slot, an emitted instruction that mentions `bbo` and is a `store`, not a
`load`. -/
theorem run_mentions_bbo_counterexample :
    ∃ M' F', run bboModule bboAddrF = some (M', F', PreservedAnalyses.none) ∧
      F'.blocks[2]? = some ⟨"assign_correct",
        [⟨9, .store (.global "bbo") (.inst .ptr 2)⟩, ⟨10, .br 3⟩]⟩ ∧
      bboAddrF.freshId ≤ 9 ∧
      (Instr.mk 9 (.store (.global "bbo") (.inst .ptr 2))).mentions "bbo" = true ∧
      ∀ ty p, (Instr.mk 9 (.store (.global "bbo") (.inst .ptr 2))).op ≠ .load ty p :=
  ⟨_, _, rfl, rfl, by decide, by decide, fun _ _ h => by cases h⟩

/-- Claim C14, amended (the counter cell is only read). On a function whose blocks all
end in a terminator the run completes; the instructions of the original function have
identities below its first fresh identity, and for every instruction of the result at
or above it, that is for every emitted instruction: if it is a `store`, its destination
is not the cell `bbo` but a result slot, an `alloca` named `res.slot` that the run put
in the entry block; and if it mentions `bbo`, it is the load of `bbo` that heads a
predicate or, when an eligible block of the original function returns the address of
`bbo`, the store of that return value into a result slot. -/
theorem run_reads_bbo_only (M : Module) (F : Function) (hF : HasTerminators F) :
    ∃ M' F', run M F = some (M', F', PreservedAnalyses.none) ∧
      (∀ b ∈ F.blocks, ∀ x ∈ b.instrs, x.id < F.freshId) ∧
      ∀ b ∈ F'.blocks, ∀ x ∈ b.instrs, F.freshId ≤ x.id →
        (∀ v p, x.op = .store v p → p ≠ .global "bbo" ∧
          ∃ entry ty id, F'.blocks[0]? = some entry ∧
            Instr.mk id (.alloca ty "res.slot") ∈ entry.instrs ∧ F.freshId ≤ id ∧
            p = .inst .ptr id) ∧
        (x.mentions "bbo" = true → x.op = .load (.int 32) (.global "bbo") ∨
          ∃ p i blk RI, x.op = .store (.global "bbo") p ∧ F.blocks[i]? = some blk ∧
            shouldObfuscate F i = some true ∧ blk.getTerminator = some RI ∧
            RI.op = .ret (some (.global "bbo"))) := by
  obtain ⟨M', F', hrun, hr⟩ := run_isSome M hF
  have hnd := List.nodup_range F.blocks.length
  refine ⟨M', F', hr, fun b hb x hx => id_lt_freshId hb hx, ?_⟩
  intro b hb x hx hid
  rcases runLoop_instrs hnd (range_lt F) hF hrun b hb x hx with ⟨b0, hb0, hx0⟩ |
    ⟨k, i, RI, rv, hk, hterm, hop, hem⟩
  · have := id_lt_freshId hb0 hx0
    omega
  · obtain ⟨_, hstore, hment⟩ := emitted_operands hem
    obtain ⟨e, he, hslot⟩ := runLoop_slot_mem hnd (range_lt F) hF hrun k i hk RI rv hterm hop
    constructor
    · intro v p hvp
      have hp := hstore v p hvp
      refine ⟨by rw [hp]; simp, e, rv.getType, F.freshId + 13 * k, he, hslot, by omega, hp⟩
    · intro hm
      rcases hment hm with h | ⟨h, hrv⟩
      · exact Or.inl h
      · cases hblk : F.blocks[i]? with
        | none => rw [hblk] at hterm; simp at hterm
        | some blk =>
          rw [hblk] at hterm
          simp only [Option.map_some', Option.some.injEq] at hterm
          rw [hrv] at hop
          exact Or.inr ⟨_, i, blk, RI, h, hblk,
            shouldObfuscate_eq_true_iff.2 ⟨blk, RI, _, hblk, hterm, hop⟩, hterm, hop⟩

theorem run_reads_bbo_only_witness :
    ∃ M' F', run bboModule bboAddrF = some (M', F', PreservedAnalyses.none) ∧
      (∀ b ∈ bboAddrF.blocks, ∀ x ∈ b.instrs, x.id < bboAddrF.freshId) ∧
      ∀ b ∈ F'.blocks, ∀ x ∈ b.instrs, bboAddrF.freshId ≤ x.id →
        (∀ v p, x.op = .store v p → p ≠ .global "bbo" ∧
          ∃ entry ty id, F'.blocks[0]? = some entry ∧
            Instr.mk id (.alloca ty "res.slot") ∈ entry.instrs ∧ bboAddrF.freshId ≤ id ∧
            p = .inst .ptr id) ∧
        (x.mentions "bbo" = true → x.op = .load (.int 32) (.global "bbo") ∨
          ∃ p i blk RI, x.op = .store (.global "bbo") p ∧ bboAddrF.blocks[i]? = some blk ∧
            shouldObfuscate bboAddrF i = some true ∧ blk.getTerminator = some RI ∧
            RI.op = .ret (some (.global "bbo"))) :=
  run_reads_bbo_only bboModule bboAddrF hasTerminators_bboAddrF

end LLVMSimpleObfuscator
